import Mathlib

/-!
# Lexical analyzer for Java and Kotlin: embedding of `lexical_analyzer3.c`

The C program keeps four global buffers (tokens, declarations, diagnostics,
comments) with their counters.  Here they are the four lists of `State`: the
rows below the counters.  The last section of the definitions, `Raw`, is the
same program on the arrays themselves, stale rows included; the two are
related by `Raw.live`.
C strings are lists of characters; a `char` array read back as a string stops
at its first NUL, which is `cstr`.  The input file is the list of its
characters, read through `getc_nl` with one character of push-back.

A write the C code performs outside the object it indexes (a token stored
past `MAX_TOKENS`, a lexeme longer than the 512-byte token field) has no
defined behaviour; the embedding reports it as `Fault.overflow`.
-/

namespace Lex

/-! ## Capacities and data structures -/

def MAX_TOKENS : Nat := 16000
def MAX_COMMENTS : Nat := 6000
def MAX_ERRORS : Nat := 6000
def MAX_DECLS : Nat := 6000

/-- A row of `table`: `struct Symbol`; `attr` is its field `attribute`. -/
structure Symbol where
  token : List Char
  attr : Nat
  line : Nat
deriving DecidableEq, Repr

/-- A row of `decls`: `struct Decl`. -/
structure Decl where
  name : List Char
  type : List Char
  line : Nat
deriving DecidableEq, Repr

/-- A row of `errors`: `struct Error`. -/
structure Error where
  msg : List Char
  line : Nat
deriving DecidableEq, Repr

/-- The global buffers; each counter is the length of its list. -/
structure State where
  table : List Symbol
  decls : List Decl
  errors : List Error
  comments : List (List Char)
deriving DecidableEq, Repr

/-- Ways a run leaves defined behaviour (`overflow`) or the model's step
budget (`fuel`). -/
inductive Fault where
  | overflow
  | fuel
deriving DecidableEq, Repr

deriving instance DecidableEq for Except

/-- The buffers after `tok_count = decl_count = err_count = com_count = 0`:
the rows an earlier run left behind lie beyond the counters and are never read. -/
def State.reset (_prior : State) : State := ⟨[], [], [], []⟩

/-! ## C library pieces -/

/-- The single quote character. -/
def SQ : Char := Char.ofNat 39

/-- The NUL character that ends a C string. -/
def NUL : Char := Char.ofNat 0

/-- A character buffer read as a C string: the characters before the first NUL. -/
def cstr (buf : List Char) : List Char := buf.takeWhile (fun c => c != NUL)

def isalpha (c : Char) : Bool := c.isAlpha
def isdigit (c : Char) : Bool := c.isDigit
def isalnum (c : Char) : Bool := c.isAlphanum

/-- The `isspace` of the C locale: space, `\t`, `\n`, `\v`, `\f`, `\r`. -/
def isspace (c : Char) : Bool :=
  c == ' ' || c == '\t' || c == '\n' || c == '\x0b' || c == '\x0c' || c == '\r'

/-- The test `strchr(set, ch) != NULL`: `strchr` also finds the terminating NUL. -/
def strchr (set : List Char) (ch : Char) : Bool := set.contains ch || ch == NUL

/-- The test `strstr(hay, needle) != NULL`. -/
def strstr : List Char → List Char → Bool
  | [], needle => needle.isEmpty
  | c :: hay, needle => needle.isPrefixOf (c :: hay) || strstr hay needle

/-- The guarded store `if (idx < cap - 1) buf[idx++] = c;`. -/
def buf_put (cap : Nat) (buf : List Char) (c : Char) : List Char :=
  if buf.length < cap - 1 then buf ++ [c] else buf

/-- The result of `snprintf(buf, 256, ...)`: at most 255 characters are kept. -/
def snprintf256 (s : List Char) : List Char := s.take 255

/-! ## Keywords and utilities -/

def keywords : List (List Char) :=
  ["int", "float", "double", "char", "if", "else", "for", "while", "class",
   "public", "private", "return", "static", "void", "new",
   "fun", "var", "val", "when", "is", "in", "object", "null", "true", "false",
   "package", "import", "override", "data", "sealed", "lateinit",
   "Int", "Float", "Double", "Char", "String", "Boolean", "Long", "Short", "Byte"].map
    String.toList

def min_int (a b : Nat) : Nat := if a < b then a else b

/-- The cells `dp[i][1..m]` of one row, from the row above (`up`, starting at
`dp[i-1][0]`) and the cell to the left. -/
def lev_row (ai : Char) : List Char → List Nat → Nat → List Nat
  | bj :: bs, d :: u :: up, left =>
    let v := if ai = bj then d else 1 + min_int d (min_int u left)
    v :: lev_row ai bs (u :: up) v
  | _, _, _ => []

/-- The rows `dp[i]` for the remaining characters of `a`; `row` is `dp[i-1]`. -/
def lev_rows (b : List Char) : List Char → List Nat → Nat → List Nat
  | [], row, _ => row
  | ai :: as, row, i => lev_rows b as (i :: lev_row ai b row i) (i + 1)

def levenshtein (a b : List Char) : Nat :=
  let n := a.length
  let m := b.length
  if n > 300 ∨ m > 300 then Int.natAbs ((n : Int) - (m : Int)) + 3
  else (lev_rows b a (List.range (m + 1)) 1).getLastD 0

def isKeyword (w : List Char) : Bool := keywords.any (fun k => w == k)

def similarToKeyword (w : List Char) : Bool :=
  if w.length < 3 then false
  else keywords.any (fun k => decide (levenshtein w k ≤ 2))

def isDeclared (decls : List Decl) (id : List Char) : Bool :=
  decls.any (fun d => id == d.name)

def getType (decls : List Decl) (id : List Char) : List Char :=
  match decls.find? (fun d => id == d.name) with
  | some d => d.type
  | none => "UNKNOWN".toList

def isRelOp (t : List Char) : Bool :=
  t == "<".toList || t == ">".toList || t == "<=".toList || t == ">=".toList ||
    t == "==".toList || t == "!=".toList

def isCharLitToken (t : List Char) : Bool :=
  decide (t.length ≥ 3) && t.head? == some SQ && t.getLast? == some SQ

def isStringLitToken (t : List Char) : Bool :=
  decide (t.length ≥ 2) && t.head? == some '"' && t.getLast? == some '"'

/-! ## Reading the file -/

/-- The reader `getc_nl`: a carriage return is skipped, a newline bumps the
line counter, `none` is EOF. -/
def getc_nl : List Char → Nat → Option Char × List Char × Nat
  | [], line => (none, [], line)
  | c :: cs, line =>
    if c = '\r' then getc_nl cs line
    else if c = '\n' then (some c, cs, line + 1)
    else (some c, cs, line)

def ungetc_nl (c : Option Char) (fp : List Char) (line : Nat) : List Char × Nat :=
  match c with
  | none => (fp, line)
  | some c =>
    if c = '\r' then (fp, line)
    else if c = '\n' then (c :: fp, if line > 1 then line - 1 else line)
    else (c :: fp, line)

/-- The loop `while ((c = getc_nl(fp, &line)) != EOF && cond(c)) store(c);`
with the guarded store of a `cap`-byte buffer.  Each read is `getc_nl`: the
end of the stream is EOF, a carriage return is skipped, a newline bumps the
line.  Returns the buffer, the character that ended the loop, the rest of the
stream and the line. -/
def read_while (cond : Char → Bool) (cap : Nat) :
    List Char → List Char → Nat → List Char × Option Char × List Char × Nat
  | buf, [], line => (buf, none, [], line)
  | buf, c :: cs, line =>
    if c = '\r' then read_while cond cap buf cs line
    else if cond c then
      read_while cond cap (buf_put cap buf c) cs (if c = '\n' then line + 1 else line)
    else (buf, some c, cs, if c = '\n' then line + 1 else line)

/-- The loop `while (c != EOF && cond(c)) { store(c); c = getc_nl(fp, &line); }`
entered with `c` already read. -/
def put_while (cond : Char → Bool) (cap : Nat) (buf : List Char) (c : Option Char)
    (fp : List Char) (line : Nat) : List Char × Option Char × List Char × Nat :=
  match c with
  | none => (buf, none, fp, line)
  | some ch =>
    if cond ch then read_while cond cap (buf_put cap buf ch) fp line
    else (buf, some ch, fp, line)

/-- The loop of a block comment; `prev` is the previous character. -/
def block_comment_loop : Char → List Char → List Char → Nat → List Char × List Char × Nat
  | _, buf, [], line => (buf, [], line)
  | prev, buf, c :: cs, line =>
    if c = '\r' then block_comment_loop prev buf cs line
    else if prev = '*' ∧ c = '/' then
      (buf_put 1024 buf c, cs, if c = '\n' then line + 1 else line)
    else block_comment_loop c (buf_put 1024 buf c) cs (if c = '\n' then line + 1 else line)

/-- The loop of a string literal.  `esc` says that a backslash has just been
stored and the next character read is its partner `c3`. -/
def string_loop : Bool → List Char → List Char → Nat →
    List Char × Option Char × List Char × Nat
  | _, buf, [], line => (buf, none, [], line)
  | esc, buf, c :: cs, line =>
    if c = '\r' then string_loop esc buf cs line
    else if esc then string_loop false (buf ++ [c]) cs (if c = '\n' then line + 1 else line)
    else if c = '"' then (buf, some c, cs, line)
    else if c = '\\' then
      if buf.length < 1024 - 2 then string_loop true (buf ++ [c]) cs line
      else string_loop false buf cs line
    else string_loop false (buf_put 1024 buf c) cs (if c = '\n' then line + 1 else line)

/-! ## Recording -/

/-- The store `strcpy(table[tok_count].token, buf); ...; tok_count++`.  The
C code does not test `tok_count` nor the length of `buf`. -/
def push_token (st : State) (buf : List Char) (attr line : Nat) : Except Fault State :=
  if st.table.length < MAX_TOKENS ∧ (cstr buf).length < 512 then
    .ok { st with table := st.table ++ [⟨cstr buf, attr, line⟩] }
  else .error Fault.overflow

/-- The store `if (com_count < MAX_COMMENTS) strcpy(comments[com_count++], buf);`. -/
def push_comment (st : State) (buf : List Char) : State :=
  if st.comments.length < MAX_COMMENTS then { st with comments := st.comments ++ [cstr buf] }
  else st

def add_decl (name type : List Char) (line : Nat) (st : State) : State :=
  if st.decls.length ≥ MAX_DECLS then st
  else if isDeclared st.decls name then st
  else { st with decls := st.decls ++ [⟨name.take 255, type.take 127, line⟩] }

def report_error (msg : List Char) (line : Nat) (st : State) : State :=
  if st.errors.length ≥ MAX_ERRORS then st
  else { st with errors := st.errors ++ [⟨msg.take 511, line⟩] }

/-- The nullable strip `if (L > 0 && s[L-1] == '?') s[L-1] = 0;`. -/
def strip_nullable (s : List Char) : List Char :=
  if s.getLast? = some '?' then s.dropLast else s

/-- The text `E1-TypeMismatch: %s '%s' cannot take '%s'` before truncation. -/
def text_cannot_take (dtype varname value : List Char) : List Char :=
  "E1-TypeMismatch: ".toList ++ dtype ++ " '".toList ++ varname ++
    "' cannot take '".toList ++ value ++ "'".toList

/-- The text `E1-TypeMismatch: %s '%s' must take a char literal, got '%s'`
before truncation. -/
def text_must_take (dtype varname value : List Char) : List Char :=
  "E1-TypeMismatch: ".toList ++ dtype ++ " '".toList ++ varname ++
    "' must take a char literal, got '".toList ++ value ++ "'".toList

def msg_cannot_take (dtype varname value : List Char) : List Char :=
  snprintf256 (text_cannot_take dtype varname value)

def msg_must_take (dtype varname value : List Char) : List Char :=
  snprintf256 (text_must_take dtype varname value)

/-- The test `lenv > 0 && isalpha(value_token[lenv - 1])`. -/
def last_is_alpha (v : List Char) : Bool :=
  match v.getLast? with
  | some c => isalpha c
  | none => false

def check_assignment_type (decl_type value_token : List Char) (line : Nat)
    (varname : List Char) (st : State) : State :=
  if decl_type = "UNKNOWN".toList then st
  else
    let dtype := strip_nullable (decl_type.take 127)
    if dtype = "int".toList ∨ dtype = "Int".toList ∨ dtype = "Long".toList ∨
        dtype = "Short".toList ∨ dtype = "Byte".toList then
      if isStringLitToken value_token || isCharLitToken value_token then
        report_error (msg_cannot_take dtype varname value_token) line st
      else if value_token.contains '.' then
        report_error (msg_cannot_take dtype varname value_token) line st
      else if last_is_alpha value_token then
        report_error (msg_cannot_take dtype varname value_token) line st
      else st
    else if dtype = "float".toList ∨ dtype = "Float".toList ∨ dtype = "double".toList ∨
        dtype = "Double".toList then
      if isCharLitToken value_token || isStringLitToken value_token then
        report_error (msg_cannot_take dtype varname value_token) line st
      else st
    else if dtype = "char".toList ∨ dtype = "Char".toList then
      if !isCharLitToken value_token then
        report_error (msg_must_take dtype varname value_token) line st
      else st
    else st

/-! ## Pass 1: the scanner -/

/-- The row `table[i]`. -/
def tokAt (table : List Symbol) (i : Nat) : Symbol := table.getD i ⟨[], 0, 0⟩

/-- The namespace capture after `package` or `import`. -/
def scan_namespace (fp : List Char) (line : Nat) (st : State) :
    Except Fault (List Char × Nat × State) :=
  match read_while (fun c => isspace c && c != '\n') 1 [] fp line with
  | (_, pch, fp1, line1) =>
    if pch = some '\n' ∨ pch = none then
      match ungetc_nl pch fp1 line1 with
      | (fp2, line2) => .ok (fp2, line2, st)
    else
      match put_while (fun c => c != '\n' && c != ';') 512 [] pch fp1 line1 with
      | (nb, _, fp2, line2) =>
        let final := (nb.dropWhile isspace).rdropWhile isspace
        if final.length > 0 then
          match push_token st final 8 line2 with
          | .ok st1 => .ok (fp2, line2, st1)
          | .error e => .error e
        else .ok (fp2, line2, st)

/-- The characters that start an identifier: `isalpha(ch) || ch == '_'`. -/
def is_word_start (c : Char) : Bool := isalpha c || c == '_'

/-- The characters that continue an identifier: `isalnum(c) || c == '_'`. -/
def is_word_char (c : Char) : Bool := isalnum c || c == '_'

/-- The branch `if (isalpha(ch) || ch == '_')`: identifier or keyword. -/
def scan_word (ch : Char) (fp : List Char) (line : Nat) (st : State) :
    Except Fault (List Char × Nat × State) :=
  match read_while is_word_char 512 [ch] fp line with
  | (buf, c2, fp1, line1) =>
    match ungetc_nl c2 fp1 line1 with
    | (fp2, line2) =>
      match push_token st buf (if isKeyword buf then 1 else 2) line2 with
      | .error e => .error e
      | .ok st1 =>
        if isKeyword buf && (buf == "package".toList || buf == "import".toList) then
          scan_namespace fp2 line2 st1
        else if st1.table.length ≥ 2 ∧
            (tokAt st1.table (st1.table.length - 2)).attr = 1 ∧
            (tokAt st1.table (st1.table.length - 1)).attr = 2 then
          .ok (fp2, line2,
            add_decl (tokAt st1.table (st1.table.length - 1)).token
              (tokAt st1.table (st1.table.length - 2)).token
              (tokAt st1.table (st1.table.length - 1)).line st1)
        else .ok (fp2, line2, st1)

/-- The characters of the first loop of a number: `isdigit(c2) || c2 == '.'`. -/
def is_number_char (c : Char) : Bool := isdigit c || c == '.'

/-- The branch `if (isdigit(ch))`. -/
def scan_number (ch : Char) (fp : List Char) (line : Nat) (st : State) :
    Except Fault (List Char × Nat × State) :=
  match read_while is_number_char 512 [ch] fp line with
  | (buf, c2, fp1, line1) =>
    match put_while isalpha 512 buf c2 fp1 line1 with
    | (buf1, c3, fp2, line2) =>
      match ungetc_nl c3 fp2 line2 with
      | (fp3, line3) =>
        match push_token st buf1 3 line3 with
        | .ok st1 => .ok (fp3, line3, st1)
        | .error e => .error e

/-- The branch of a char literal (the opening quote is already read). -/
def scan_char (fp : List Char) (line : Nat) (st : State) :
    Except Fault (List Char × Nat × State) :=
  match getc_nl fp line with
  | (c2, fp1, line1) =>
    match (if c2 = some '\\' then
            (match getc_nl fp1 line1 with
             | (some c3, fp2, line2) => (buf_put 128 (buf_put 128 [SQ] '\\') c3, fp2, line2)
             | (none, fp2, line2) => (buf_put 128 [SQ] '\\', fp2, line2))
          else
            (match c2 with
             | some c => (buf_put 128 [SQ] c, fp1, line1)
             | none => ([SQ], fp1, line1))) with
    | (buf, fp3, line3) =>
      match getc_nl fp3 line3 with
      | (cend, fp4, line4) =>
        match push_token st (if cend = some SQ then buf_put 128 buf SQ else buf) 7 line4 with
        | .ok st1 => .ok (fp4, line4, st1)
        | .error e => .error e

/-- The branch of a string literal (the opening quote is already read). -/
def scan_string (fp : List Char) (line : Nat) (st : State) :
    Except Fault (List Char × Nat × State) :=
  match string_loop false ['"'] fp line with
  | (buf, c2, fp1, line1) =>
    match push_token st (if c2 = some '"' then buf_put 1024 buf '"' else buf) 6 line1 with
    | .ok st1 => .ok (fp1, line1, st1)
    | .error e => .error e

/-- The pairs fused into one two-character operator. -/
def is_pair (b0 n : Char) : Bool :=
  (b0 == '?' && n == '.') || (b0 == '?' && n == ':') || (b0 == '.' && n == '.') ||
  (b0 == '=' && n == '=') || (b0 == '!' && n == '=') || (b0 == '<' && n == '=') ||
  (b0 == '>' && n == '=') || (b0 == '&' && n == '&') || (b0 == '|' && n == '|')

/-- The buffer of the operator branch after its lookahead, with the stream
and line left behind. -/
def operator_buf (ch : Char) (fp : List Char) (line : Nat) : List Char × List Char × Nat :=
  match getc_nl fp line with
  | (none, fp1, line1) => ([ch], fp1, line1)
  | (some n, fp1, line1) =>
    if is_pair ch n then ([ch, n], fp1, line1)
    else if ch = '=' ∧ n = '=' then
      match getc_nl fp1 line1 with
      | (n2, fp2, line2) =>
        if n2 = some '=' then ([ch, n, '='], fp2, line2)
        else
          match ungetc_nl n2 fp2 line2 with
          | (fp3, line3) =>
            match ungetc_nl (some n) fp3 line3 with
            | (fp4, line4) => ([ch], fp4, line4)
    else
      match ungetc_nl (some n) fp1 line1 with
      | (fp2, line2) => ([ch], fp2, line2)

/-- The branch of operators and punctuation. -/
def scan_operator (ch : Char) (fp : List Char) (line : Nat) (st : State) :
    Except Fault (List Char × Nat × State) :=
  match operator_buf ch fp line with
  | (buf, fp1, line1) =>
    match push_token st buf (if buf.head? = some ':' ∧ buf.length = 1 then 5 else 4) line1 with
    | .ok st1 => .ok (fp1, line1, st1)
    | .error e => .error e

/-- The body of the scanner loop from the identifier branch on. -/
def scan_token (ch : Char) (fp : List Char) (line : Nat) (st : State) :
    Except Fault (List Char × Nat × State) :=
  if is_word_start ch then scan_word ch fp line st
  else if isdigit ch then scan_number ch fp line st
  else if ch = SQ then scan_char fp line st
  else if ch = '"' then scan_string fp line st
  else if strchr "+-*/%=<>!&|?:.()".toList ch || ch == ':' then scan_operator ch fp line st
  else if strchr "\x7b\x7d[];,".toList ch then
    match push_token st [ch] 5 line with
    | .ok st1 => .ok (fp, line, st1)
    | .error e => .error e
  else .ok (fp, line, st)

/-- One turn of the scanner loop, `ch` being the character just read. -/
def scan_step (ch : Char) (fp : List Char) (line : Nat) (st : State) :
    Except Fault (List Char × Nat × State) :=
  if ch = ' ' ∨ ch = '\t' ∨ ch = '\x0b' ∨ ch = '\x0c' then .ok (fp, line, st)
  else if ch = '/' then
    match getc_nl fp line with
    | (nxt, fp1, line1) =>
      if nxt = some '/' then
        match read_while (fun c => c != '\n') 1024 ['/', '/'] fp1 line1 with
        | (buf, _, fp2, line2) => .ok (fp2, line2, push_comment st buf)
      else if nxt = some '*' then
        match block_comment_loop NUL ['/', '*'] fp1 line1 with
        | (buf, fp2, line2) => .ok (fp2, line2, push_comment st buf)
      else
        match ungetc_nl nxt fp1 line1 with
        | (fp2, line2) => scan_token ch fp2 line2 st
  else scan_token ch fp line st

/-- The scanner loop `while ((ch = getc_nl(fp, &line)) != EOF)`, with a step
budget. -/
def scan_loop : Nat → List Char → Nat → State → Except Fault State
  | 0, _, _, _ => .error Fault.fuel
  | fuel + 1, fp, line, st =>
    match getc_nl fp line with
    | (none, _, _) => .ok st
    | (some ch, fp1, line1) =>
      match scan_step ch fp1 line1 st with
      | .ok (fp2, line2, st1) => scan_loop fuel fp2 line2 st1
      | .error e => .error e

/-- One turn of the loop `Kotlin var/val detection & E1 check`. -/
def kotlin_step (st : State) (i : Nat) : State :=
  let n := st.table.length
  if (tokAt st.table i).attr = 1 ∧
      ((tokAt st.table i).token = "var".toList ∨ (tokAt st.table i).token = "val".toList) then
    if i + 1 < n ∧ (tokAt st.table (i + 1)).attr = 2 then
      let name := (tokAt st.table (i + 1)).token
      if i + 2 < n ∧ (tokAt st.table (i + 2)).token = ":".toList ∧ i + 3 < n then
        let typbuf := strip_nullable ((tokAt st.table (i + 3)).token.take 127)
        let st1 := add_decl name typbuf (tokAt st.table (i + 1)).line st
        if i + 4 < n ∧ (tokAt st.table (i + 4)).token = "=".toList ∧ i + 5 < n then
          check_assignment_type typbuf (tokAt st.table (i + 5)).token
            (tokAt st.table (i + 1)).line name st1
        else st1
      else if i + 2 < n ∧ (tokAt st.table (i + 2)).token = "=".toList then
        add_decl name "UNKNOWN".toList (tokAt st.table (i + 1)).line st
      else st
    else st
  else st

/-- Pass 1 on the contents `input` of the opened file, from the buffers
`prior` left by an earlier run. -/
def tokenize_and_build (prior : State) (input : List Char) : Except Fault State :=
  match scan_loop (input.length + 1) input 1 prior.reset with
  | .ok st => .ok ((List.range st.table.length).foldl kotlin_step st)
  | .error e => .error e

/-! ## Pass 2: the diagnostics -/

/-- The text `E2-MisspelledKeyword: '%s' resembles a keyword`. -/
def text_misspelled (tok : List Char) : List Char :=
  "E2-MisspelledKeyword: '".toList ++ tok ++ "' resembles a keyword".toList

def msg_misspelled (tok : List Char) : List Char := snprintf256 (text_misspelled tok)

/-- The text `E3-IdentifierError: '%s' used before declaration`. -/
def text_undeclared (tok : List Char) : List Char :=
  "E3-IdentifierError: '".toList ++ tok ++ "' used before declaration".toList

def msg_undeclared (tok : List Char) : List Char := snprintf256 (text_undeclared tok)

/-- The text `E4-RelationalError: Operator '%s' at invalid position`. -/
def text_position (tok : List Char) : List Char :=
  "E4-RelationalError: Operator '".toList ++ tok ++ "' at invalid position".toList

def msg_position (tok : List Char) : List Char := snprintf256 (text_position tok)

/-- The text `E4-RelationalError: Operator '%s' has invalid operands`. -/
def text_operands (tok : List Char) : List Char :=
  "E4-RelationalError: Operator '".toList ++ tok ++ "' has invalid operands".toList

def msg_operands (tok : List Char) : List Char := snprintf256 (text_operands tok)

/-- Section `E2 - misspelled keyword` of turn `i`. -/
def pass2_e2 (i : Nat) (st : State) : State :=
  let t := tokAt st.table i
  if t.attr = 2 then
    if !isDeclared st.decls t.token && similarToKeyword t.token then
      if ¬ (i > 0 ∧ (tokAt st.table (i - 1)).attr = 1) then
        report_error (msg_misspelled t.token) t.line st
      else st
    else st
  else st

/-- Section `E3 - identifier used before declaration` of turn `i`. -/
def pass2_e3 (i : Nat) (st : State) : State :=
  let t := tokAt st.table i
  if t.attr = 2 then
    if ¬ (i > 0 ∧ (tokAt st.table (i - 1)).attr = 1 ∧
          ((tokAt st.table (i - 1)).token = "var".toList ∨
           (tokAt st.table (i - 1)).token = "val".toList ∨
           isKeyword (tokAt st.table (i - 1)).token = true)) ∧
        isDeclared st.decls t.token = false then
      report_error (msg_undeclared t.token) t.line st
    else st
  else st

/-- Section `E1 - assignment` of turn `i`. -/
def pass2_e1 (i : Nat) (st : State) : State :=
  if i + 2 < st.table.length ∧ (tokAt st.table (i + 1)).token = "=".toList ∧
      (tokAt st.table i).attr = 2 then
    let id := (tokAt st.table i).token
    if isDeclared st.decls id = false then
      report_error (msg_undeclared id) (tokAt st.table i).line st
    else
      check_assignment_type (getType st.decls id) (tokAt st.table (i + 2)).token
        (tokAt st.table i).line id st
  else st

/-- The test `attribute == 2 || attribute == 3 || attribute == 6 || attribute == 7`. -/
def operand_ok (s : Symbol) : Bool :=
  s.attr == 2 || s.attr == 3 || s.attr == 6 || s.attr == 7

/-- Section `E4 - relational operator misuse` of turn `i`. -/
def pass2_e4 (i : Nat) (st : State) : State :=
  let t := tokAt st.table i
  if isRelOp t.token then
    if i = 0 ∨ i = st.table.length - 1 then
      report_error (msg_position t.token) t.line st
    else if !operand_ok (tokAt st.table (i - 1)) || !operand_ok (tokAt st.table (i + 1)) then
      report_error (msg_operands t.token) t.line st
    else st
  else st

/-- One turn of the loop of `detect_errors_pass2`. -/
def pass2_step (st : State) (i : Nat) : State :=
  pass2_e4 i (pass2_e1 i (pass2_e3 i (pass2_e2 i st)))

def detect_errors_pass2 (st : State) : State :=
  (List.range st.table.length).foldl pass2_step st

/-- The analysis of `main`: pass 1, and pass 2 when the file could be read. -/
def analysis_run (prior : State) (input : List Char) : Except Fault State :=
  match tokenize_and_build prior input with
  | .ok st => .ok (detect_errors_pass2 st)
  | .error e => .error e

/-- The counts `e1, e2, e3, e4` of `print_errors_and_summary_box`. -/
def summary_counts (errors : List Error) : Nat × Nat × Nat × Nat :=
  (errors.countP (fun e => strstr e.msg "E1-".toList),
   errors.countP (fun e => strstr e.msg "E2-".toList),
   errors.countP (fun e => strstr e.msg "E3-".toList),
   errors.countP (fun e => strstr e.msg "E4-".toList))

/-! ## Vocabulary of the statements -/

/-- The declared types of the integer branch of `check_assignment_type`. -/
def int_types : List (List Char) :=
  ["int", "Int", "Long", "Short", "Byte"].map String.toList

/-- The declared types of the floating branch. -/
def float_types : List (List Char) :=
  ["float", "Float", "double", "Double"].map String.toList

/-- The declared types of the character branch. -/
def char_types : List (List Char) := ["char", "Char"].map String.toList

/-- The rejection test of the integer branch: its three `if`s in one. -/
def int_rejects (v : List Char) : Bool :=
  isStringLitToken v || isCharLitToken v || v.contains '.' || last_is_alpha v

/-- The state `st` with one more diagnostic. -/
def with_error (st : State) (msg : List Char) (line : Nat) : State :=
  { st with errors := st.errors ++ [⟨msg, line⟩] }

/-- The two-character operators of the scanner. -/
def two_char_ops : List (List Char) :=
  ["?.", "?:", "..", "==", "!=", "<=", ">=", "&&", "||"].map String.toList

/-- Buffers whose diagnostic list is full: `err_count == MAX_ERRORS`, as
pass 2 leaves it after 6000 misused relational operators. -/
def full_errors : State :=
  ⟨[], [], List.replicate 6000 ⟨msg_operands "<".toList, 1⟩, []⟩

/-- An identifier lexeme: `[A-Za-z_]` followed by `[A-Za-z0-9_]*`. -/
def is_identifier : List Char → Bool
  | [] => false
  | c :: cs => is_word_start c && cs.all is_word_char

/-- The buffers after the identifier branch has stored the word `w` read on
`line`, when `w` is neither `package` nor `import`: the token, then the
Java-style declaration sniffing. -/
def record_word (st : State) (w : List Char) (line : Nat) : State :=
  let st1 : State := { st with table := st.table ++ [⟨w, if isKeyword w then 1 else 2, line⟩] }
  if st1.table.length ≥ 2 ∧ (tokAt st1.table (st1.table.length - 2)).attr = 1 ∧
      (tokAt st1.table (st1.table.length - 1)).attr = 2 then
    add_decl (tokAt st1.table (st1.table.length - 1)).token
      (tokAt st1.table (st1.table.length - 2)).token
      (tokAt st1.table (st1.table.length - 1)).line st1
  else st1

/-- The buffers with one more token. -/
def with_token (st : State) (tok : List Char) (attr line : Nat) : State :=
  { st with table := st.table ++ [⟨tok, attr, line⟩] }

/-- The source text `TYPE x = value;`. -/
def decl_stmt (ty x value : List Char) : List Char :=
  ty ++ " ".toList ++ x ++ " = ".toList ++ value ++ ";".toList

/-- The buffers pass 1 leaves for `TYPE x = value;`: five tokens on line 1, the
value token having class `a`, and the declaration of `x`. -/
def decl_stmt_state (ty x vtok : List Char) (a : Nat) : State :=
  ⟨[⟨ty, 1, 1⟩, ⟨x, 2, 1⟩, ⟨"=".toList, 4, 1⟩, ⟨vtok, a, 1⟩, ⟨";".toList, 5, 1⟩],
   [⟨x, ty, 1⟩], [], []⟩

/-- A character of a simple string literal body: no quote, no backslash, no
newline, and neither of the two characters the reader drops or stops at
(carriage return, NUL). -/
def is_plain_char (c : Char) : Bool :=
  c != '"' && c != '\\' && c != '\n' && c != '\r' && c != NUL

/-- A non-empty run of decimal digits. -/
def is_digits (d : List Char) : Bool := !d.isEmpty && d.all isdigit

/-- The character of a plain char literal `'a'`: not a backslash, a newline,
a carriage return or NUL. -/
def is_literal_char (a : Char) : Bool := a != '\\' && a != '\n' && a != '\r' && a != NUL

/-- The second character of an escape `'\\e'`. -/
def is_escape_char (e : Char) : Bool := e != '\n' && e != '\r' && e != NUL

/-- A string literal with body `s`, as source text and as lexeme. -/
def string_lit (s : List Char) : List Char := '"' :: (s ++ ['"'])

/-- The buffers of pass 2 when turn `i` reaches its section E4: the turns
before `i` and the sections E2, E3, E1 of turn `i` are done. -/
def pass2_before_e4 (st : State) (i : Nat) : State :=
  pass2_e1 i (pass2_e3 i (pass2_e2 i ((List.range i).foldl pass2_step st)))

/-- The token classes 2, 3, 6, 7: Identifier, Number, String, Char. -/
def is_operand_class (attr : Nat) : Bool := attr == 2 || attr == 3 || attr == 6 || attr == 7

/-- The relational diagnostic the specification calls for at token `i` of
`table`: `invalid position` for the first and the last token, otherwise
`invalid operands` unless both neighbours are of an operand class. -/
def relop_diagnostic (table : List Symbol) (i : Nat) : Option (List Char) :=
  if i = 0 ∨ i + 1 = table.length then some (text_position (tokAt table i).token)
  else if is_operand_class (tokAt table (i - 1)).attr &&
      is_operand_class (tokAt table (i + 1)).attr then none
  else some (text_operands (tokAt table i).token)

/-- The buffers pass 1 leaves for the text `x < ;`. -/
def relop_sample : State :=
  ⟨[⟨"x".toList, 2, 1⟩, ⟨"<".toList, 4, 1⟩, ⟨";".toList, 5, 1⟩], [], [], []⟩

/-- The token `<` on line 1. -/
def less_token : Symbol := ⟨"<".toList, 4, 1⟩

/-- The source text of a line comment with text `s`: `//`, `s`, newline. -/
def line_comment (s : List Char) : List Char := '/' :: '/' :: (s ++ ['\n'])

/-- A namespace text as the claim describes it: non-empty, without `;`,
newline or carriage return, without NUL, and with no white space at either
end. -/
def is_namespace_text (p : List Char) : Bool :=
  !p.isEmpty && p.all (fun c => c != ';' && c != '\n' && c != '\r' && c != NUL) &&
    (match p.head? with
     | some c => !isspace c
     | none => false) &&
    (match p.getLast? with
     | some c => !isspace c
     | none => false)

/-- The source text `kw p;`. -/
def namespace_stmt (kw p : List Char) : List Char := kw ++ ' ' :: (p ++ [';'])

/-- The buffers of pass 2 when turn `i` starts: the turns before `i` are done. -/
def pass2_before (st : State) (i : Nat) : State := (List.range i).foldl pass2_step st

/-- The text made of `n` copies of the word `w`, each followed by a space. -/
def repeat_word (w : List Char) : Nat → List Char
  | 0 => []
  | n + 1 => w ++ ' ' :: repeat_word w n

/-- The shape of a Number lexeme: a digit, then digits and dots, then a
trailing run of letters. -/
def number_shape : List Char → Bool
  | [] => false
  | c :: cs => isdigit c && (cs.dropWhile is_number_char).all isalpha

/-- What the scanner guarantees of a token by its class: a Keyword (1) has a
keyword lexeme, a Number (3) has the shape of a number. -/
def token_ok (t : Symbol) : Prop :=
  (t.attr = 1 → isKeyword t.token = true) ∧ (t.attr = 3 → number_shape t.token = true)

/-- One for a character in hand, zero for EOF. -/
def held (c : Option Char) : Nat :=
  match c with
  | some _ => 1
  | none => 0

/-- What one branch of the scanner loop guarantees: when it returns it has
not lengthened the stream `fp` it was given, and the tokens it has appended
are well-formed for their class; when it fails, the fault is an overflow. -/
def step_ok (fp : List Char) (st : State) (r : Except Fault (List Char × Nat × State)) : Prop :=
  match r with
  | .ok (fp2, _, st2) =>
    fp2.length ≤ fp.length ∧ ∃ new, st2.table = st.table ++ new ∧ ∀ t ∈ new, token_ok t
  | .error e => e = Fault.overflow


/-- The edit distance the specification names (Levenshtein: one insertion,
deletion or substitution costs 1), by the textbook recursion on the first
characters.  It is the reference the table-filling `levenshtein` is compared
with. -/
def edit_distance : List Char → List Char → Nat
  | [], b => b.length
  | _ :: a, [] => a.length + 1
  | x :: a, y :: b =>
    min (edit_distance a (y :: b) + 1)
      (min (edit_distance (x :: a) b + 1) (edit_distance a b + if x = y then 0 else 1))
termination_by a b => a.length + b.length

/-- The cells `dp[i][j+1..]` of the row of the reversed prefix `ra` of `a`,
where `rb` is the reversed prefix of `b` of length `j` and `bs` the rest of
`b`, as edit distances. -/
def lev_cells (ra rb : List Char) : List Char → List Nat
  | [] => []
  | y :: bs => edit_distance ra (y :: rb) :: lev_cells ra (y :: rb) bs

/-- The Java-style declaration sniffing done after a word has been stored:
`if (tok_count >= 2 && table[tok_count-2].attribute == 1 &&
table[tok_count-1].attribute == 2) add_decl(...)`. -/
def sniff_decl (st1 : State) : State :=
  if st1.table.length ≥ 2 ∧ (tokAt st1.table (st1.table.length - 2)).attr = 1 ∧
      (tokAt st1.table (st1.table.length - 1)).attr = 2 then
    add_decl (tokAt st1.table (st1.table.length - 1)).token
      (tokAt st1.table (st1.table.length - 2)).token
      (tokAt st1.table (st1.table.length - 1)).line st1
  else st1

/-- A property of the buffers that the three recording steps of the scanner
keep: a stored comment, a stored token of a class other than Identifier, and a
stored Identifier followed by the declaration sniffing. -/
def scan_closed (P : State → Prop) : Prop :=
  (∀ st buf, P st → P (push_comment st buf)) ∧
  (∀ st tok a line, a ≠ 2 → P st → P (with_token st tok a line)) ∧
  (∀ st tok line, P st → P (sniff_decl (with_token st tok 2 line)))

/-- The property `P` holds of the buffers a branch of the scanner returns. -/
def keeps (P : State → Prop) (r : Except Fault (List Char × Nat × State)) : Prop :=
  match r with
  | .ok (_, _, st2) => P st2
  | .error _ => True

/-- The three guarded collections are within their capacities. -/
def caps_ok (st : State) : Prop :=
  st.decls.length ≤ MAX_DECLS ∧ st.errors.length ≤ MAX_ERRORS ∧
    st.comments.length ≤ MAX_COMMENTS

/-- The separator token `;` on line 1. -/
def semi_token : Symbol := ⟨";".toList, 5, 1⟩

/-- Token `i + 1` of `table` is an Identifier with lexeme `n` that comes
right after a Keyword token (token `i`). -/
def follows_keyword (table : List Symbol) (i : Nat) (n : List Char) : Prop :=
  i + 1 < table.length ∧ (tokAt table i).attr = 1 ∧ (tokAt table (i + 1)).attr = 2 ∧
    (tokAt table (i + 1)).token = n

/-- What the scanner keeps true of the declarations `decls` against the
tokens `table`: every entry comes from an Identifier after a Keyword; such an
Identifier of at most 255 characters is declared unless the table is full;
and, while no Identifier exceeds 255 characters and the table is not full, the
type of a name is the keyword before its first such occurrence. -/
def decl_inv (table : List Symbol) (decls : List Decl) : Prop :=
  (∀ d ∈ decls, ∃ i n, follows_keyword table i n ∧ d.name = n.take 255) ∧
  (∀ i n, follows_keyword table i n → n.length ≤ 255 →
    MAX_DECLS ≤ decls.length ∨ isDeclared decls n = true) ∧
  ((∀ t ∈ table, t.attr = 2 → t.token.length ≤ 255) → decls.length < MAX_DECLS →
    ∀ i n, follows_keyword table i n → (∀ j, j < i → ¬ follows_keyword table j n) →
      getType decls n = (tokAt table i).token.take 127)

/-- The diagnostic text is of the kind UseBeforeDeclaration: it starts with
the tag `E3-IdentifierError`. -/
def is_use_before (m : List Char) : Bool := "E3-IdentifierError".toList.isPrefixOf m

/-- The buffers pass 1 leaves for the text `x = 1; int x;`. -/
def use_then_declare : State :=
  ⟨[⟨"x".toList, 2, 1⟩, ⟨"=".toList, 4, 1⟩, ⟨"1".toList, 3, 1⟩, ⟨";".toList, 5, 1⟩,
    ⟨"int".toList, 1, 1⟩, ⟨"x".toList, 2, 1⟩, ⟨";".toList, 5, 1⟩],
   [⟨"x".toList, "int".toList, 1⟩], [], []⟩

/-! ## The buffers as the C program keeps them

The four global arrays are static storage: a run starts by setting the four
counters to zero and leaves the rows as the earlier run wrote them.  `Raw.Mem`
holds the arrays whole, with their stale rows and the bytes a shorter string
leaves behind in a field, the counters, and the static table `dp` of
`levenshtein`.  The functions of this section are the program on that
storage; `Raw.live` reads off the four collections a run has produced. -/

namespace Raw

/-- The static storage.  The rows are `struct Symbol`, `struct Decl`,
`struct Error` and `char[1024]`; their `List Char` fields are the bytes of
the `char` arrays, read back as C strings by `cstr`. -/
structure Mem where
  table : Nat → Symbol
  tok_count : Nat
  decls : Nat → Decl
  decl_count : Nat
  errors : Nat → Error
  err_count : Nat
  comments : Nat → List Char
  com_count : Nat
  dp : Nat → Nat → Nat

/-- The storage at program start: static storage is zero-initialized. -/
def zero_mem : Mem :=
  ⟨fun _ => ⟨List.replicate 512 NUL, 0, 0⟩, 0,
   fun _ => ⟨List.replicate 256 NUL, List.replicate 128 NUL, 0⟩, 0,
   fun _ => ⟨List.replicate 512 NUL, 0⟩, 0,
   fun _ => List.replicate 1024 NUL, 0,
   fun _ _ => 0⟩

/-- The assignment `rows[i] = v`. -/
def put_row (α : Type) (rows : Nat → α) (i : Nat) (v : α) : Nat → α :=
  fun j => if j = i then v else rows j

/-- The bytes of `dst` after `strcpy(dst, src)`: the string of `src` and its
terminator, then what `dst` held before. -/
def strcpy (dst src : List Char) : List Char :=
  cstr src ++ NUL :: dst.drop ((cstr src).length + 1)

/-- The bytes of `dst` after `strncpy(dst, src, n)`: exactly `n` bytes are
written, the string of `src` cut at `n` and padded with NUL; no terminator is
added and the bytes from `n` on stay. -/
def strncpy (dst src : List Char) (n : Nat) : List Char :=
  (cstr src).take n ++ List.replicate (n - (cstr src).length) NUL ++ dst.drop n

/-- The row `table[i]` as the code reads it: the token as a C string. -/
def tok (m : Mem) (i : Nat) : Symbol :=
  ⟨cstr (m.table i).token, (m.table i).attr, (m.table i).line⟩

/-- The statement `tok_count = decl_count = err_count = com_count = 0;`. -/
def reset (m : Mem) : Mem :=
  { m with tok_count := 0, decl_count := 0, err_count := 0, com_count := 0 }

/-- The assignment `dp[i][j] = v`. -/
def dp_set (dp : Nat → Nat → Nat) (i j v : Nat) : Nat → Nat → Nat :=
  fun i2 j2 => if i2 = i ∧ j2 = j then v else dp i2 j2

/-- The loop `for (k = lo; k < lo + count; k++) body(k);` on the storage `s`. -/
def for_loop (σ : Type) (body : Nat → σ → σ) : Nat → Nat → σ → σ
  | _, 0, s => s
  | lo, count + 1, s => for_loop σ body (lo + 1) count (body lo s)

/-- The body `dp[i][j] = (a[i-1] == b[j-1]) ? dp[i-1][j-1] : 1 + min(...)`. -/
def lev_cell (a b : List Char) (i j : Nat) (dp : Nat → Nat → Nat) : Nat → Nat → Nat :=
  dp_set dp i j
    (if a.getD (i - 1) NUL = b.getD (j - 1) NUL then dp (i - 1) (j - 1)
     else 1 + min_int (dp (i - 1) (j - 1)) (min_int (dp (i - 1) j) (dp i (j - 1))))

/-- The function `levenshtein` on its static table: the result and the table
it leaves. -/
def levenshtein (dp : Nat → Nat → Nat) (a b : List Char) : Nat × (Nat → Nat → Nat) :=
  let n := a.length
  let m := b.length
  if n > 300 ∨ m > 300 then (Int.natAbs ((n : Int) - (m : Int)) + 3, dp)
  else
    let dp1 := for_loop _ (fun i d => dp_set d i 0 i) 0 (n + 1) dp
    let dp2 := for_loop _ (fun j d => dp_set d 0 j j) 0 (m + 1) dp1
    let dp3 := for_loop _ (fun i d => for_loop _ (fun j d2 => lev_cell a b i j d2) 1 m d) 1 n dp2
    (dp3 n m, dp3)

/-- The loop of `similarToKeyword` over the keywords still to try. -/
def similar_loop (w : List Char) : List (List Char) → (Nat → Nat → Nat) →
    Bool × (Nat → Nat → Nat)
  | [], dp => (false, dp)
  | k :: ks, dp =>
    match levenshtein dp w k with
    | (d, dp1) => if d ≤ 2 then (true, dp1) else similar_loop w ks dp1

def similarToKeyword (dp : Nat → Nat → Nat) (w : List Char) : Bool × (Nat → Nat → Nat) :=
  if w.length < 3 then (false, dp) else similar_loop w keywords dp

/-- The loop `for (i = 0; i < decl_count; i++) if (strcmp(id, decls[i].name) == 0)`. -/
def isDeclared (m : Mem) (id : List Char) : Bool :=
  (List.range m.decl_count).any (fun i => id == cstr (m.decls i).name)

def getType (m : Mem) (id : List Char) : List Char :=
  match (List.range m.decl_count).find? (fun i => id == cstr (m.decls i).name) with
  | some i => cstr (m.decls i).type
  | none => "UNKNOWN".toList

/-- The store `strcpy(table[tok_count].token, buf); ...; tok_count++`. -/
def push_token (m : Mem) (buf : List Char) (attr line : Nat) : Except Fault Mem :=
  if m.tok_count < MAX_TOKENS ∧ (cstr buf).length < 512 then
    .ok { m with
      table := put_row _ m.table m.tok_count
        ⟨strcpy (m.table m.tok_count).token buf, attr, line⟩,
      tok_count := m.tok_count + 1 }
  else .error Fault.overflow

/-- The store `if (com_count < MAX_COMMENTS) strcpy(comments[com_count++], buf);`. -/
def push_comment (m : Mem) (buf : List Char) : Mem :=
  if m.com_count < MAX_COMMENTS then
    { m with
      comments := put_row _ m.comments m.com_count (strcpy (m.comments m.com_count) buf),
      com_count := m.com_count + 1 }
  else m

def add_decl (name type : List Char) (line : Nat) (m : Mem) : Mem :=
  if m.decl_count ≥ MAX_DECLS then m
  else if isDeclared m name then m
  else
    { m with
      decls := put_row _ m.decls m.decl_count
        ⟨strncpy (m.decls m.decl_count).name name 255,
         strncpy (m.decls m.decl_count).type type 127, line⟩,
      decl_count := m.decl_count + 1 }

def report_error (msg : List Char) (line : Nat) (m : Mem) : Mem :=
  if m.err_count ≥ MAX_ERRORS then m
  else
    { m with
      errors := put_row _ m.errors m.err_count
        ⟨strncpy (m.errors m.err_count).msg msg 511, line⟩,
      err_count := m.err_count + 1 }

def check_assignment_type (decl_type value_token : List Char) (line : Nat)
    (varname : List Char) (m : Mem) : Mem :=
  if decl_type = "UNKNOWN".toList then m
  else
    let dtype := strip_nullable (decl_type.take 127)
    if dtype = "int".toList ∨ dtype = "Int".toList ∨ dtype = "Long".toList ∨
        dtype = "Short".toList ∨ dtype = "Byte".toList then
      if isStringLitToken value_token || isCharLitToken value_token then
        report_error (msg_cannot_take dtype varname value_token) line m
      else if value_token.contains '.' then
        report_error (msg_cannot_take dtype varname value_token) line m
      else if last_is_alpha value_token then
        report_error (msg_cannot_take dtype varname value_token) line m
      else m
    else if dtype = "float".toList ∨ dtype = "Float".toList ∨ dtype = "double".toList ∨
        dtype = "Double".toList then
      if isCharLitToken value_token || isStringLitToken value_token then
        report_error (msg_cannot_take dtype varname value_token) line m
      else m
    else if dtype = "char".toList ∨ dtype = "Char".toList then
      if !isCharLitToken value_token then
        report_error (msg_must_take dtype varname value_token) line m
      else m
    else m

/-- The namespace capture after `package` or `import`. -/
def scan_namespace (fp : List Char) (line : Nat) (m : Mem) :
    Except Fault (List Char × Nat × Mem) :=
  match read_while (fun c => isspace c && c != '\n') 1 [] fp line with
  | (_, pch, fp1, line1) =>
    if pch = some '\n' ∨ pch = none then
      match ungetc_nl pch fp1 line1 with
      | (fp2, line2) => .ok (fp2, line2, m)
    else
      match put_while (fun c => c != '\n' && c != ';') 512 [] pch fp1 line1 with
      | (nb, _, fp2, line2) =>
        let final := (nb.dropWhile isspace).rdropWhile isspace
        if final.length > 0 then
          match push_token m final 8 line2 with
          | .ok m1 => .ok (fp2, line2, m1)
          | .error e => .error e
        else .ok (fp2, line2, m)

/-- The branch `if (isalpha(ch) || ch == '_')`: identifier or keyword. -/
def scan_word (ch : Char) (fp : List Char) (line : Nat) (m : Mem) :
    Except Fault (List Char × Nat × Mem) :=
  match read_while is_word_char 512 [ch] fp line with
  | (buf, c2, fp1, line1) =>
    match ungetc_nl c2 fp1 line1 with
    | (fp2, line2) =>
      match push_token m buf (if isKeyword buf then 1 else 2) line2 with
      | .error e => .error e
      | .ok m1 =>
        if isKeyword buf && (buf == "package".toList || buf == "import".toList) then
          scan_namespace fp2 line2 m1
        else if m1.tok_count ≥ 2 ∧ (tok m1 (m1.tok_count - 2)).attr = 1 ∧
            (tok m1 (m1.tok_count - 1)).attr = 2 then
          .ok (fp2, line2,
            add_decl (tok m1 (m1.tok_count - 1)).token (tok m1 (m1.tok_count - 2)).token
              (tok m1 (m1.tok_count - 1)).line m1)
        else .ok (fp2, line2, m1)

/-- The branch `if (isdigit(ch))`. -/
def scan_number (ch : Char) (fp : List Char) (line : Nat) (m : Mem) :
    Except Fault (List Char × Nat × Mem) :=
  match read_while is_number_char 512 [ch] fp line with
  | (buf, c2, fp1, line1) =>
    match put_while isalpha 512 buf c2 fp1 line1 with
    | (buf1, c3, fp2, line2) =>
      match ungetc_nl c3 fp2 line2 with
      | (fp3, line3) =>
        match push_token m buf1 3 line3 with
        | .ok m1 => .ok (fp3, line3, m1)
        | .error e => .error e

/-- The branch of a char literal (the opening quote is already read). -/
def scan_char (fp : List Char) (line : Nat) (m : Mem) :
    Except Fault (List Char × Nat × Mem) :=
  match getc_nl fp line with
  | (c2, fp1, line1) =>
    match (if c2 = some '\\' then
            (match getc_nl fp1 line1 with
             | (some c3, fp2, line2) => (buf_put 128 (buf_put 128 [SQ] '\\') c3, fp2, line2)
             | (none, fp2, line2) => (buf_put 128 [SQ] '\\', fp2, line2))
          else
            (match c2 with
             | some c => (buf_put 128 [SQ] c, fp1, line1)
             | none => ([SQ], fp1, line1))) with
    | (buf, fp3, line3) =>
      match getc_nl fp3 line3 with
      | (cend, fp4, line4) =>
        match push_token m (if cend = some SQ then buf_put 128 buf SQ else buf) 7 line4 with
        | .ok m1 => .ok (fp4, line4, m1)
        | .error e => .error e

/-- The branch of a string literal (the opening quote is already read). -/
def scan_string (fp : List Char) (line : Nat) (m : Mem) :
    Except Fault (List Char × Nat × Mem) :=
  match string_loop false ['"'] fp line with
  | (buf, c2, fp1, line1) =>
    match push_token m (if c2 = some '"' then buf_put 1024 buf '"' else buf) 6 line1 with
    | .ok m1 => .ok (fp1, line1, m1)
    | .error e => .error e

/-- The branch of operators and punctuation. -/
def scan_operator (ch : Char) (fp : List Char) (line : Nat) (m : Mem) :
    Except Fault (List Char × Nat × Mem) :=
  match operator_buf ch fp line with
  | (buf, fp1, line1) =>
    match push_token m buf (if buf.head? = some ':' ∧ buf.length = 1 then 5 else 4) line1 with
    | .ok m1 => .ok (fp1, line1, m1)
    | .error e => .error e

/-- The body of the scanner loop from the identifier branch on. -/
def scan_token (ch : Char) (fp : List Char) (line : Nat) (m : Mem) :
    Except Fault (List Char × Nat × Mem) :=
  if is_word_start ch then scan_word ch fp line m
  else if isdigit ch then scan_number ch fp line m
  else if ch = SQ then scan_char fp line m
  else if ch = '"' then scan_string fp line m
  else if strchr "+-*/%=<>!&|?:.()".toList ch || ch == ':' then scan_operator ch fp line m
  else if strchr "\x7b\x7d[];,".toList ch then
    match push_token m [ch] 5 line with
    | .ok m1 => .ok (fp, line, m1)
    | .error e => .error e
  else .ok (fp, line, m)

/-- One turn of the scanner loop, `ch` being the character just read. -/
def scan_step (ch : Char) (fp : List Char) (line : Nat) (m : Mem) :
    Except Fault (List Char × Nat × Mem) :=
  if ch = ' ' ∨ ch = '\t' ∨ ch = '\x0b' ∨ ch = '\x0c' then .ok (fp, line, m)
  else if ch = '/' then
    match getc_nl fp line with
    | (nxt, fp1, line1) =>
      if nxt = some '/' then
        match read_while (fun c => c != '\n') 1024 ['/', '/'] fp1 line1 with
        | (buf, _, fp2, line2) => .ok (fp2, line2, push_comment m buf)
      else if nxt = some '*' then
        match block_comment_loop NUL ['/', '*'] fp1 line1 with
        | (buf, fp2, line2) => .ok (fp2, line2, push_comment m buf)
      else
        match ungetc_nl nxt fp1 line1 with
        | (fp2, line2) => scan_token ch fp2 line2 m
  else scan_token ch fp line m

/-- The scanner loop `while ((ch = getc_nl(fp, &line)) != EOF)`, with a step
budget. -/
def scan_loop : Nat → List Char → Nat → Mem → Except Fault Mem
  | 0, _, _, _ => .error Fault.fuel
  | fuel + 1, fp, line, m =>
    match getc_nl fp line with
    | (none, _, _) => .ok m
    | (some ch, fp1, line1) =>
      match scan_step ch fp1 line1 m with
      | .ok (fp2, line2, m1) => scan_loop fuel fp2 line2 m1
      | .error e => .error e

/-- One turn of the loop `Kotlin var/val detection & E1 check`. -/
def kotlin_step (m : Mem) (i : Nat) : Mem :=
  let n := m.tok_count
  if (tok m i).attr = 1 ∧
      ((tok m i).token = "var".toList ∨ (tok m i).token = "val".toList) then
    if i + 1 < n ∧ (tok m (i + 1)).attr = 2 then
      let name := (tok m (i + 1)).token
      if i + 2 < n ∧ (tok m (i + 2)).token = ":".toList ∧ i + 3 < n then
        let typbuf := strip_nullable ((tok m (i + 3)).token.take 127)
        let m1 := add_decl name typbuf (tok m (i + 1)).line m
        if i + 4 < n ∧ (tok m (i + 4)).token = "=".toList ∧ i + 5 < n then
          check_assignment_type typbuf (tok m (i + 5)).token (tok m (i + 1)).line name m1
        else m1
      else if i + 2 < n ∧ (tok m (i + 2)).token = "=".toList then
        add_decl name "UNKNOWN".toList (tok m (i + 1)).line m
      else m
    else m
  else m

/-- Pass 1 on the contents `input` of the opened file, from the storage
`prior` as the program holds it at that moment. -/
def tokenize_and_build (prior : Mem) (input : List Char) : Except Fault Mem :=
  match scan_loop (input.length + 1) input 1 (reset prior) with
  | .ok m => .ok ((List.range m.tok_count).foldl kotlin_step m)
  | .error e => .error e

/-- Section `E2 - misspelled keyword` of turn `i`; `similarToKeyword` is
called, and the table `dp` written, only for an undeclared identifier. -/
def pass2_e2 (i : Nat) (m : Mem) : Mem :=
  let t := tok m i
  if t.attr = 2 then
    if isDeclared m t.token then m
    else
      match similarToKeyword m.dp t.token with
      | (similar, dp1) =>
        if similar then
          if ¬ (i > 0 ∧ (tok m (i - 1)).attr = 1) then
            report_error (msg_misspelled t.token) t.line { m with dp := dp1 }
          else { m with dp := dp1 }
        else { m with dp := dp1 }
  else m

/-- Section `E3 - identifier used before declaration` of turn `i`. -/
def pass2_e3 (i : Nat) (m : Mem) : Mem :=
  let t := tok m i
  if t.attr = 2 then
    if ¬ (i > 0 ∧ (tok m (i - 1)).attr = 1 ∧
          ((tok m (i - 1)).token = "var".toList ∨
           (tok m (i - 1)).token = "val".toList ∨
           isKeyword (tok m (i - 1)).token = true)) ∧
        isDeclared m t.token = false then
      report_error (msg_undeclared t.token) t.line m
    else m
  else m

/-- Section `E1 - assignment` of turn `i`. -/
def pass2_e1 (i : Nat) (m : Mem) : Mem :=
  if i + 2 < m.tok_count ∧ (tok m (i + 1)).token = "=".toList ∧ (tok m i).attr = 2 then
    let id := (tok m i).token
    if isDeclared m id = false then
      report_error (msg_undeclared id) (tok m i).line m
    else
      check_assignment_type (getType m id) (tok m (i + 2)).token (tok m i).line id m
  else m

/-- Section `E4 - relational operator misuse` of turn `i`. -/
def pass2_e4 (i : Nat) (m : Mem) : Mem :=
  let t := tok m i
  if isRelOp t.token then
    if i = 0 ∨ i = m.tok_count - 1 then
      report_error (msg_position t.token) t.line m
    else if !operand_ok (tok m (i - 1)) || !operand_ok (tok m (i + 1)) then
      report_error (msg_operands t.token) t.line m
    else m
  else m

/-- One turn of the loop of `detect_errors_pass2`. -/
def pass2_step (m : Mem) (i : Nat) : Mem :=
  pass2_e4 i (pass2_e1 i (pass2_e3 i (pass2_e2 i m)))

def detect_errors_pass2 (m : Mem) : Mem :=
  (List.range m.tok_count).foldl pass2_step m

/-- The analysis of `main`: pass 1, and pass 2 when the file could be read. -/
def analysis_run (prior : Mem) (input : List Char) : Except Fault Mem :=
  match tokenize_and_build prior input with
  | .ok m => .ok (detect_errors_pass2 m)
  | .error e => .error e

/-- The four collections a run has produced: the rows below the counters,
their character fields read as C strings. -/
def live (m : Mem) : State :=
  ⟨(List.range m.tok_count).map (tok m),
   (List.range m.decl_count).map
     (fun i => ⟨cstr (m.decls i).name, cstr (m.decls i).type, (m.decls i).line⟩),
   (List.range m.err_count).map (fun i => ⟨cstr (m.errors i).msg, (m.errors i).line⟩),
   (List.range m.com_count).map (fun i => cstr (m.comments i))⟩

/-- The terminators `strncpy` relies on: the last byte of every `name`,
`type` and `msg` field is never written and holds the NUL of static
initialization, so a string that fills the field still ends there. -/
def terminated (m : Mem) : Prop :=
  ∀ i, cstr ((m.decls i).name.drop 255) = [] ∧ cstr ((m.decls i).type.drop 127) = [] ∧
    cstr ((m.errors i).msg.drop 511) = []

/-- A branch of the scanner on the storage does what it does on the four
collections, and keeps the terminators. -/
def sim (r : Except Fault (List Char × Nat × Mem))
    (r2 : Except Fault (List Char × Nat × State)) : Prop :=
  (∀ x, r = .ok x → terminated x.2.2) ∧ r.map (fun x => (x.1, x.2.1, live x.2.2)) = r2

/-- Storage as an earlier run can have left it: every row of `table` holds a
stale keyword `int` with old bytes after its terminator, every row of `decls`
a stale declaration of `x` as `String`, there are a stale diagnostic and a
stale comment, `dp` is filled, and the counters are not zero. -/
def stale_mem : Mem :=
  ⟨fun _ => ⟨"int".toList ++ NUL :: List.replicate 508 'q', 1, 7⟩, 2,
   fun _ => ⟨'x' :: List.replicate 255 NUL, "String".toList ++ List.replicate 122 NUL, 3⟩, 1,
   fun _ => ⟨"E1-TypeMismatch: stale".toList ++ List.replicate 490 NUL, 9⟩, 1,
   fun _ => "// old".toList ++ List.replicate 1018 NUL, 1,
   fun i j => i + j + 41⟩

end Raw
/-! ## Theorems -/

/-! ### The recording helpers -/

theorem report_error_eq (msg : List Char) (line : Nat) (st : State) :
    report_error msg line st =
      if st.errors.length < MAX_ERRORS then with_error st (msg.take 511) line else st := by
  unfold report_error with_error
  by_cases h : st.errors.length < MAX_ERRORS
  · simp [h, Nat.not_le.mpr h]
  · simp [h, Nat.not_lt.mp h]

theorem report_msg_eq (text : List Char) (line : Nat) (st : State) :
    report_error (snprintf256 text) line st =
      if st.errors.length < MAX_ERRORS then with_error st (text.take 255) line else st := by
  rw [report_error_eq]
  simp [snprintf256, List.take_take]

/-! ### `check_assignment_type` -/

theorem strip_of_named (T : List Char)
    (hT : T ∈ int_types ++ float_types ++ char_types ++ ["String".toList]) :
    T ≠ "UNKNOWN".toList ∧ strip_nullable (T.take 127) = T := by
  simp only [int_types, float_types, char_types, List.map, List.cons_append, List.nil_append,
    List.mem_cons, List.mem_singleton, List.not_mem_nil, or_false] at hT
  rcases hT with rfl | rfl | rfl | rfl | rfl | rfl | rfl | rfl | rfl | rfl | rfl | rfl <;> decide

theorem check_int (T V name : List Char) (line : Nat) (st : State) (hT : T ∈ int_types) :
    check_assignment_type T V line name st =
      if int_rejects V = true ∧ st.errors.length < MAX_ERRORS then
        with_error st ((text_cannot_take T name V).take 255) line
      else st := by
  have h := strip_of_named T (by simp [hT])
  unfold check_assignment_type
  simp only [int_types, List.map, List.mem_cons, List.mem_singleton, List.not_mem_nil,
      or_false] at hT
  simp only [h.1, h.2, if_false, hT, if_true, int_rejects, msg_cannot_take, report_msg_eq]
  by_cases h1 : (isStringLitToken V || isCharLitToken V) = true <;>
  by_cases h2 : V.contains '.' = true <;>
  by_cases h3 : last_is_alpha V = true <;>
  by_cases h4 : st.errors.length < MAX_ERRORS <;> simp_all

theorem check_other (T V name : List Char) (line : Nat) (st : State)
    (hT : strip_nullable (T.take 127) ∉ int_types) :
    check_assignment_type T V line name st =
      if strip_nullable (T.take 127) ∈ float_types ∧
          (isStringLitToken V = true ∨ isCharLitToken V = true) ∧
          st.errors.length < MAX_ERRORS then
        with_error st ((text_cannot_take (strip_nullable (T.take 127)) name V).take 255) line
      else if strip_nullable (T.take 127) ∈ char_types ∧ isCharLitToken V = false ∧
          st.errors.length < MAX_ERRORS then
        with_error st ((text_must_take (strip_nullable (T.take 127)) name V).take 255) line
      else st := by
  by_cases hU : T = "UNKNOWN".toList
  · subst hU
    have h0 : strip_nullable (("UNKNOWN".toList).take 127) = "UNKNOWN".toList := by decide
    have h1 : "UNKNOWN".toList ∉ float_types := by decide
    have h2 : "UNKNOWN".toList ∉ char_types := by decide
    rw [h0, if_neg (fun h => h1 h.1), if_neg (fun h => h2 h.1)]
    simp [check_assignment_type]
  · unfold check_assignment_type
    generalize strip_nullable (T.take 127) = D at hT ⊢
    simp only [int_types, float_types, char_types, List.map, List.mem_cons, List.mem_singleton,
      List.not_mem_nil, or_false, not_or] at hT ⊢
    simp only [hU, if_false, hT, false_or, msg_cannot_take, msg_must_take, report_msg_eq]
    by_cases h5 : (D = "float".toList ∨ D = "Float".toList ∨ D = "double".toList ∨
        D = "Double".toList)
    · have h6 : ¬ (D = "char".toList ∨ D = "Char".toList) := by
        rcases h5 with rfl | rfl | rfl | rfl <;> decide
      by_cases h1 : isCharLitToken V = true <;>
      by_cases h2 : isStringLitToken V = true <;>
      by_cases h4 : st.errors.length < MAX_ERRORS <;> simp_all
    · by_cases h6 : (D = "char".toList ∨ D = "Char".toList) <;>
      by_cases h1 : isCharLitToken V = true <;>
      by_cases h4 : st.errors.length < MAX_ERRORS <;> simp_all

/-! ### Characters and buffers -/

theorem ne_of_pred {p : Char → Bool} {c k : Char} (hc : p c = true) (hk : p k = false) :
    c ≠ k := by
  intro h
  rw [h, hk] at hc
  exact Bool.false_ne_true hc

theorem cstr_eq_self (w : List Char) (h : ∀ c ∈ w, c ≠ NUL) : cstr w = w := by
  unfold cstr
  rw [List.takeWhile_eq_self_iff]
  intro c hc
  simpa using h c hc

theorem foldl_buf_put (cap : Nat) (xs buf : List Char) (h : buf.length ≤ cap - 1) :
    xs.foldl (buf_put cap) buf = (buf ++ xs).take (cap - 1) := by
  induction xs generalizing buf with
  | nil => simp [List.take_of_length_le h]
  | cons c xs ih =>
    rw [List.foldl_cons]
    by_cases hlt : buf.length < cap - 1
    · rw [buf_put, if_pos hlt, ih _ (by simp; omega)]
      simp
    · have heq : buf.length = cap - 1 := by omega
      rw [buf_put, if_neg hlt, ih _ h, List.take_append_eq_append_take,
        List.take_append_eq_append_take]
      simp [heq]

theorem read_while_stop (cond : Char → Bool) (cap : Nat) (xs : List Char) (d : Char)
    (rest buf : List Char) (line : Nat)
    (hx : ∀ c ∈ xs, cond c = true ∧ c ≠ '\r' ∧ c ≠ '\n')
    (hd : cond d = false) (hr : d ≠ '\r') :
    read_while cond cap buf (xs ++ d :: rest) line =
      (xs.foldl (buf_put cap) buf, some d, rest, if d = '\n' then line + 1 else line) := by
  induction xs generalizing buf with
  | nil => simp [read_while, hd, hr]
  | cons c xs ih =>
    have hc := hx c (by simp)
    simp only [List.cons_append, read_while, hc.2.1, hc.2.2, hc.1, if_true, if_false,
      List.foldl_cons]
    exact ih _ (fun e he => hx e (by simp [he]))

theorem read_while_eof (cond : Char → Bool) (cap : Nat) (xs buf : List Char) (line : Nat)
    (hx : ∀ c ∈ xs, cond c = true ∧ c ≠ '\r' ∧ c ≠ '\n') :
    read_while cond cap buf xs line = (xs.foldl (buf_put cap) buf, none, [], line) := by
  induction xs generalizing buf with
  | nil => simp [read_while]
  | cons c xs ih =>
    have hc := hx c (by simp)
    simp only [read_while, hc.2.1, hc.2.2, hc.1, if_true, if_false, List.foldl_cons]
    exact ih _ (fun e he => hx e (by simp [he]))

/-! ### Steps of the scanner loop -/

theorem scan_loop_mono (n : Nat) :
    ∀ (m : Nat) (fp : List Char) (line : Nat) (st r : State), n ≤ m →
      scan_loop n fp line st = .ok r → scan_loop m fp line st = .ok r := by
  induction n with
  | zero => intro m fp line st r _ h; simp [scan_loop] at h
  | succ n ih =>
    intro m fp line st r hm h
    obtain ⟨m, rfl⟩ : ∃ k, m = k + 1 := ⟨m - 1, by omega⟩
    rw [scan_loop] at h ⊢
    rcases hg : getc_nl fp line with ⟨_ | ch, fp1, line1⟩
    · rw [hg] at h; simpa using h
    · rw [hg] at h
      simp only at h ⊢
      rcases hs : scan_step ch fp1 line1 st with e | ⟨fp2, line2, st1⟩
      · rw [hs] at h; simp at h
      · rw [hs] at h
        simp only at h ⊢
        exact ih m fp2 line2 st1 r (by omega) h

theorem ungetc_after_read (d : Char) (rest : List Char) (line : Nat) (hr : d ≠ '\r')
    (hl : 1 ≤ line) :
    ungetc_nl (some d) rest (if d = '\n' then line + 1 else line) = (d :: rest, line) := by
  by_cases hn : d = '\n'
  · subst hn; simp [ungetc_nl]; omega
  · simp [ungetc_nl, hr, hn]

theorem push_token_ok (st : State) (buf : List Char) (attr line : Nat)
    (hroom : st.table.length < MAX_TOKENS) (hlen : buf.length < 512)
    (hnul : ∀ c ∈ buf, c ≠ NUL) :
    push_token st buf attr line = .ok (with_token st buf attr line) := by
  simp [push_token, cstr_eq_self buf hnul, hroom, hlen, with_token]

theorem word_char_ne (e : Char) (h : is_word_char e = true) :
    e ≠ NUL ∧ e ≠ '\r' ∧ e ≠ '\n' :=
  ⟨ne_of_pred h (by decide), ne_of_pred h (by decide), ne_of_pred h (by decide)⟩

theorem word_start (c : Char) (h : is_word_start c = true) : is_word_char c = true := by
  simp only [is_word_char, is_word_start, isalpha, isalnum, Char.isAlphanum, Bool.or_eq_true] at h ⊢
  rcases h with h | h
  · exact Or.inl (Or.inl h)
  · exact Or.inr h

theorem scan_word_eq (c : Char) (cs : List Char) (d : Char) (rest : List Char) (line : Nat)
    (st : State) (hc : is_word_start c = true) (hcs : ∀ e ∈ cs, is_word_char e = true)
    (hd : is_word_char d = false) (hr : d ≠ '\r') (hl : 1 ≤ line)
    (hroom : st.table.length < MAX_TOKENS)
    (hns : ((c :: cs).take 511 == "package".toList || (c :: cs).take 511 == "import".toList)
      = false) :
    scan_word c (cs ++ d :: rest) line st =
      .ok (d :: rest, line, record_word st ((c :: cs).take 511) line) := by
  have hrw := read_while_stop is_word_char 512 cs d rest [c] line
    (fun e he => ⟨hcs e he, (word_char_ne e (hcs e he)).2⟩) hd hr
  have hbuf : cs.foldl (buf_put 512) [c] = (c :: cs).take 511 := by
    rw [foldl_buf_put 512 cs [c] (by simp)]; rfl
  rw [hbuf] at hrw
  have hnul : ∀ e ∈ (c :: cs).take 511, e ≠ NUL := by
    intro e he
    have := List.mem_of_mem_take he
    rcases List.mem_cons.mp this with rfl | h
    · exact (word_char_ne _ (word_start _ hc)).1
    · exact (word_char_ne e (hcs e h)).1
  have hlen : ((c :: cs).take 511).length < 512 := by
    rw [List.length_take]; omega
  unfold scan_word
  simp only [hrw, ungetc_after_read d rest line hr hl, push_token_ok st _ _ _ hroom hlen hnul,
    hns, Bool.and_false, Bool.false_eq_true, if_false, record_word, with_token]
  split_ifs <;> rfl

theorem getc_nl_cons (c : Char) (fp : List Char) (line : Nat) (hr : c ≠ '\r') (hn : c ≠ '\n') :
    getc_nl (c :: fp) line = (some c, fp, line) := by
  simp [getc_nl, hr, hn]

theorem scan_loop_eof (f line : Nat) (st : State) : scan_loop (f + 1) [] line st = .ok st := rfl

theorem scan_loop_space (f line : Nat) (rest : List Char) (st : State) :
    scan_loop (f + 1) (' ' :: rest) line st = scan_loop f rest line st := rfl

theorem scan_step_assign (rest : List Char) (line : Nat) (st : State) :
    scan_step '=' (' ' :: rest) line st = scan_operator '=' (' ' :: rest) line st := rfl

theorem scan_loop_assign (f line : Nat) (rest : List Char) (st : State)
    (hroom : st.table.length < MAX_TOKENS) :
    scan_loop (f + 1) ('=' :: ' ' :: rest) line st =
      scan_loop f (' ' :: rest) line (with_token st "=".toList 4 line) := by
  have h : scan_step '=' (' ' :: rest) line st =
      .ok (' ' :: rest, line, with_token st "=".toList 4 line) := by
    have hb : operator_buf '=' (' ' :: rest) line = (['='], ' ' :: rest, line) := rfl
    have hp := push_token_ok st ['='] 4 line hroom (by decide) (by decide)
    rw [scan_step_assign, scan_operator]
    simp only [hb]
    rw [show (if (['='] : List Char).head? = some ':' ∧ (['='] : List Char).length = 1
      then 5 else 4) = 4 from rfl, hp]
    rfl
  rw [scan_loop, getc_nl_cons _ _ _ (by decide) (by decide)]
  simp only [h]

theorem scan_loop_semicolon (f line : Nat) (rest : List Char) (st : State)
    (hroom : st.table.length < MAX_TOKENS) :
    scan_loop (f + 1) (';' :: rest) line st =
      scan_loop f rest line (with_token st ";".toList 5 line) := by
  have h : scan_step ';' rest line st = .ok (rest, line, with_token st ";".toList 5 line) := by
    have hs : scan_step ';' rest line st =
        (match push_token st [';'] 5 line with
          | .ok st1 => .ok (rest, line, st1)
          | .error e => .error e) := rfl
    rw [hs, push_token_ok st [';'] 5 line hroom (by decide) (by decide)]
    rfl
  rw [scan_loop, getc_nl_cons _ _ _ (by decide) (by decide)]
  simp only [h]

theorem scan_step_word (c : Char) (fp : List Char) (line : Nat) (st : State)
    (hc : is_word_start c = true) :
    scan_step c fp line st = scan_word c fp line st := by
  have h1 : c ≠ ' ' := ne_of_pred hc (by decide)
  have h2 : c ≠ '\t' := ne_of_pred hc (by decide)
  have h3 : c ≠ '\x0b' := ne_of_pred hc (by decide)
  have h4 : c ≠ '\x0c' := ne_of_pred hc (by decide)
  have h5 : c ≠ '/' := ne_of_pred hc (by decide)
  simp [scan_step, scan_token, h1, h2, h3, h4, h5, hc]

theorem scan_loop_word (f : Nat) (c : Char) (cs : List Char) (d : Char) (rest : List Char)
    (line : Nat) (st : State) (hc : is_word_start c = true)
    (hcs : ∀ e ∈ cs, is_word_char e = true)
    (hd : is_word_char d = false) (hr : d ≠ '\r') (hl : 1 ≤ line)
    (hroom : st.table.length < MAX_TOKENS)
    (hns : ((c :: cs).take 511 == "package".toList || (c :: cs).take 511 == "import".toList)
      = false) :
    scan_loop (f + 1) (c :: (cs ++ d :: rest)) line st =
      scan_loop f (d :: rest) line (record_word st ((c :: cs).take 511) line) := by
  have hw := word_char_ne c (word_start c hc)
  rw [scan_loop, getc_nl_cons _ _ _ hw.2.1 hw.2.2]
  simp only [scan_step_word c _ line st hc,
    scan_word_eq c cs d rest line st hc hcs hd hr hl hroom hns]

theorem string_loop_plain (s : List Char) (rest buf : List Char) (line : Nat)
    (hs : ∀ c ∈ s, c ≠ '"' ∧ c ≠ '\\' ∧ c ≠ '\r' ∧ c ≠ '\n') :
    string_loop false buf (s ++ '"' :: rest) line =
      (s.foldl (buf_put 1024) buf, some '"', rest, line) := by
  induction s generalizing buf with
  | nil => simp [string_loop]
  | cons c s ih =>
    have hc := hs c (by simp)
    simp only [List.cons_append, string_loop, hc.1, hc.2.1, hc.2.2.1, hc.2.2.2, if_false,
      Bool.false_eq_true, List.foldl_cons]
    exact ih _ (fun e he => hs e (by simp [he]))

theorem scan_loop_string (f line : Nat) (s rest : List Char) (st : State)
    (hs : ∀ c ∈ s, c ≠ '"' ∧ c ≠ '\\' ∧ c ≠ '\r' ∧ c ≠ '\n' ∧ c ≠ NUL)
    (hlen : s.length ≤ 509) (hroom : st.table.length < MAX_TOKENS) :
    scan_loop (f + 1) ('"' :: (s ++ '"' :: rest)) line st =
      scan_loop f rest line (with_token st ('"' :: (s ++ ['"'])) 6 line) := by
  have hstep : scan_step '"' (s ++ '"' :: rest) line st =
      scan_string (s ++ '"' :: rest) line st := rfl
  have hloop := string_loop_plain s rest ['"'] line
    (fun c hc => ⟨(hs c hc).1, (hs c hc).2.1, (hs c hc).2.2.1, (hs c hc).2.2.2.1⟩)
  have hbuf : s.foldl (buf_put 1024) ['"'] = '"' :: s := by
    rw [foldl_buf_put 1024 s ['"'] (by simp)]
    exact List.take_of_length_le (by simp; omega)
  have hput : buf_put 1024 ('"' :: s) '"' = '"' :: (s ++ ['"']) := by
    simp [buf_put]; omega
  have hpush := push_token_ok st ('"' :: (s ++ ['"'])) 6 line hroom (by simp; omega)
    (by
      intro c hc
      simp only [List.mem_cons, List.mem_append, List.mem_singleton, List.not_mem_nil,
        or_false] at hc
      rcases hc with rfl | h | rfl
      · decide
      · exact (hs c h).2.2.2.2
      · decide)
  rw [scan_loop, getc_nl_cons _ _ _ (by decide) (by decide)]
  simp only [hstep, scan_string, hloop, hbuf, if_true, hput, hpush]

theorem digit_not_word_start (e : Char) (he : isdigit e = true) : is_word_start e = false := by
  have hu : e ≠ '_' := ne_of_pred he (by decide)
  simp only [isdigit, is_word_start, isalpha, Char.isDigit, Char.isAlpha, Char.isUpper,
    Char.isLower, Bool.and_eq_true, decide_eq_true_eq, Bool.or_eq_false_iff,
    Bool.and_eq_false_iff, decide_eq_false_iff_not, beq_eq_false_iff_ne] at he ⊢
  obtain ⟨_, h2⟩ := he
  have h2n : e.val.toNat ≤ 57 := h2
  refine ⟨⟨Or.inl ?_, Or.inl ?_⟩, hu⟩
  · intro h
    have : 65 ≤ e.val.toNat := h
    omega
  · intro h
    have : 97 ≤ e.val.toNat := h
    omega

theorem digit_not_alpha (e : Char) (he : isdigit e = true) : isalpha e = false := by
  have h := digit_not_word_start e he
  simp only [is_word_start, Bool.or_eq_false_iff] at h
  exact h.1

theorem scan_loop_number (f line : Nat) (c : Char) (ds : List Char) (d : Char)
    (rest : List Char) (st : State) (hc : isdigit c = true)
    (hds : ∀ e ∈ ds, isdigit e = true) (hd : is_number_char d = false)
    (hda : isalpha d = false) (hr : d ≠ '\r') (hl : 1 ≤ line)
    (hroom : st.table.length < MAX_TOKENS) :
    scan_loop (f + 1) (c :: (ds ++ d :: rest)) line st =
      scan_loop f (d :: rest) line (with_token st ((c :: ds).take 511) 3 line) := by
  have hne : ∀ e, isdigit e = true → e ≠ NUL ∧ e ≠ '\r' ∧ e ≠ '\n' ∧ e ≠ ' ' ∧ e ≠ '\t' ∧
      e ≠ '\x0b' ∧ e ≠ '\x0c' ∧ e ≠ '/' ∧ e ≠ SQ ∧ e ≠ '"' ∧ is_word_start e = false := by
    intro e he
    refine ⟨ne_of_pred he (by decide), ne_of_pred he (by decide), ne_of_pred he (by decide),
      ne_of_pred he (by decide), ne_of_pred he (by decide), ne_of_pred he (by decide),
      ne_of_pred he (by decide), ne_of_pred he (by decide), ne_of_pred he (by decide),
      ne_of_pred he (by decide), digit_not_word_start e he⟩
  have hc' := hne c hc
  have hstep : scan_step c (ds ++ d :: rest) line st = scan_number c (ds ++ d :: rest) line st := by
    simp [scan_step, scan_token, hc'.2.2.2.1, hc'.2.2.2.2.1, hc'.2.2.2.2.2.1,
      hc'.2.2.2.2.2.2.1, hc'.2.2.2.2.2.2.2.1, hc'.2.2.2.2.2.2.2.2.2.2, hc]
  have hrw := read_while_stop is_number_char 512 ds d rest [c] line
    (fun e he => ⟨by simp [is_number_char, hds e he], (hne e (hds e he)).2.1,
      (hne e (hds e he)).2.2.1⟩) hd hr
  have hbuf : ds.foldl (buf_put 512) [c] = (c :: ds).take 511 := by
    rw [foldl_buf_put 512 ds [c] (by simp)]; rfl
  have hpush := push_token_ok st ((c :: ds).take 511) 3 line hroom
    (by rw [List.length_take]; omega)
    (by
      intro e he
      rcases List.mem_cons.mp (List.mem_of_mem_take he) with rfl | h
      · exact hc'.1
      · exact (hne e (hds e h)).1)
  rw [scan_loop, getc_nl_cons _ _ _ hc'.2.1 hc'.2.2.1]
  simp only [hstep, scan_number, hrw, hbuf, put_while, hda, Bool.false_eq_true, if_false,
    ungetc_after_read d rest line hr hl, hpush]

theorem scan_loop_char (f line : Nat) (a : Char) (rest : List Char) (st : State)
    (ha : a ≠ '\\' ∧ a ≠ '\r' ∧ a ≠ '\n' ∧ a ≠ NUL)
    (hroom : st.table.length < MAX_TOKENS) :
    scan_loop (f + 1) (SQ :: a :: SQ :: rest) line st =
      scan_loop f rest line (with_token st [SQ, a, SQ] 7 line) := by
  have hstep : scan_step SQ (a :: SQ :: rest) line st = scan_char (a :: SQ :: rest) line st := rfl
  have hg1 := getc_nl_cons a (SQ :: rest) line ha.2.1 ha.2.2.1
  have hg2 := getc_nl_cons SQ rest line (by decide) (by decide)
  have hpush := push_token_ok st [SQ, a, SQ] 7 line hroom (by simp)
    (by
      intro c hc
      simp only [List.mem_cons, List.mem_singleton, List.not_mem_nil, or_false] at hc
      rcases hc with rfl | rfl | rfl
      · decide
      · exact ha.2.2.2
      · decide)
  have hb1 : buf_put 128 [SQ] a = [SQ, a] := rfl
  have hb2 : buf_put 128 [SQ, a] SQ = [SQ, a, SQ] := rfl
  have hne : ¬ (some a = some '\\') := by simpa using ha.1
  rw [scan_loop, getc_nl_cons _ _ _ (by decide) (by decide)]
  simp only [hstep, scan_char, hg1, hne, if_false, hb1, hg2, if_true, hb2, hpush]

theorem scan_loop_escape (f line : Nat) (e : Char) (rest : List Char) (st : State)
    (he : e ≠ '\r' ∧ e ≠ '\n' ∧ e ≠ NUL)
    (hroom : st.table.length < MAX_TOKENS) :
    scan_loop (f + 1) (SQ :: '\\' :: e :: SQ :: rest) line st =
      scan_loop f rest line (with_token st [SQ, '\\', e, SQ] 7 line) := by
  have hstep : scan_step SQ ('\\' :: e :: SQ :: rest) line st =
      scan_char ('\\' :: e :: SQ :: rest) line st := rfl
  have hg0 := getc_nl_cons '\\' (e :: SQ :: rest) line (by decide) (by decide)
  have hg1 := getc_nl_cons e (SQ :: rest) line he.1 he.2.1
  have hg2 := getc_nl_cons SQ rest line (by decide) (by decide)
  have hpush := push_token_ok st [SQ, '\\', e, SQ] 7 line hroom (by simp)
    (by
      intro c hc
      simp only [List.mem_cons, List.mem_singleton, List.not_mem_nil, or_false] at hc
      rcases hc with rfl | rfl | rfl | rfl
      · decide
      · decide
      · exact he.2.2
      · decide)
  have hb1 : buf_put 128 (buf_put 128 [SQ] '\\') e = [SQ, '\\', e] := rfl
  have hb2 : buf_put 128 [SQ, '\\', e] SQ = [SQ, '\\', e, SQ] := rfl
  rw [scan_loop, getc_nl_cons _ _ _ (by decide) (by decide)]
  simp only [hstep, scan_char, hg0, if_true, hg1, hb1, hg2, hb2, hpush]

/-! ### Keywords and identifiers -/

theorem keyword_length (w : List Char) (h : isKeyword w = true) : w.length ≤ 8 := by
  simp only [isKeyword, List.any_eq_true, beq_iff_eq] at h
  obtain ⟨k, hk, rfl⟩ := h
  have hall : ∀ k ∈ keywords, k.length ≤ 8 := by decide
  exact hall _ hk

theorem keyword_take (x : List Char) (h : isKeyword x = false) :
    isKeyword (x.take 511) = false := by
  by_cases hl : x.length ≤ 511
  · rw [List.take_of_length_le hl]; exact h
  · cases hk : isKeyword (x.take 511) with
    | false => rfl
    | true =>
      have := keyword_length _ hk
      rw [List.length_take] at this
      omega

theorem not_keyword_not_namespace (w : List Char) (h : isKeyword w = false) :
    (w == "package".toList || w == "import".toList) = false := by
  cases hp : (w == "package".toList || w == "import".toList) with
  | false => rfl
  | true =>
    simp only [Bool.or_eq_true, beq_iff_eq] at hp
    rcases hp with rfl | rfl
    · exact absurd h (by decide)
    · exact absurd h (by decide)

theorem identifier_cases (x : List Char) (h : is_identifier x = true) :
    ∃ c cs, x = c :: cs ∧ is_word_start c = true ∧ ∀ e ∈ cs, is_word_char e = true := by
  cases x with
  | nil => simp [is_identifier] at h
  | cons c cs =>
    simp only [is_identifier, Bool.and_eq_true, List.all_eq_true] at h
    exact ⟨c, cs, rfl, h.1, h.2⟩

theorem identifier_not_relop (x : List Char) (h : is_identifier x = true) :
    isRelOp x = false ∧ x ≠ "=".toList ∧ x ≠ ":".toList := by
  obtain ⟨c, cs, rfl, hc, _⟩ := identifier_cases x h
  have h1 : c ≠ '<' := ne_of_pred hc (by decide)
  have h2 : c ≠ '>' := ne_of_pred hc (by decide)
  have h3 : c ≠ '=' := ne_of_pred hc (by decide)
  have h4 : c ≠ '!' := ne_of_pred hc (by decide)
  have h5 : c ≠ ':' := ne_of_pred hc (by decide)
  simp [isRelOp, h1, h2, h3, h4, h5]

/-! ### The statement `TYPE x = value;` -/

theorem record_word_first (T : List Char) (h : isKeyword T = true) :
    record_word ⟨[], [], [], []⟩ T 1 = ⟨[⟨T, 1, 1⟩], [], [], []⟩ := by
  simp [record_word, h]

theorem record_word_second (T X : List Char) (h : isKeyword X = false) :
    record_word ⟨[⟨T, 1, 1⟩], [], [], []⟩ X 1 =
      ⟨[⟨T, 1, 1⟩, ⟨X, 2, 1⟩], [⟨X.take 255, T.take 127, 1⟩], [], []⟩ := by
  simp only [record_word, h]
  simp [tokAt, add_decl, isDeclared, MAX_DECLS]

theorem scan_decl_prefix (f : Nat) (t0 : Char) (ts : List Char) (c : Char)
    (cs rest : List Char)
    (ht0 : is_word_start t0 = true) (hts : ∀ e ∈ ts, is_word_char e = true)
    (htk : isKeyword (t0 :: ts) = true)
    (htn : ((t0 :: ts) == "package".toList || (t0 :: ts) == "import".toList) = false)
    (hc : is_word_start c = true) (hcs : ∀ e ∈ cs, is_word_char e = true)
    (hk : isKeyword (c :: cs) = false) :
    scan_loop (f + 6) (t0 :: (ts ++ ' ' :: c :: (cs ++ ' ' :: '=' :: ' ' :: rest))) 1
        ⟨[], [], [], []⟩ =
      scan_loop f rest 1
        ⟨[⟨t0 :: ts, 1, 1⟩, ⟨(c :: cs).take 511, 2, 1⟩, ⟨"=".toList, 4, 1⟩],
         [⟨(c :: cs).take 255, t0 :: ts, 1⟩], [], []⟩ := by
  have hlen := keyword_length _ htk
  have ht511 : (t0 :: ts).take 511 = t0 :: ts := List.take_of_length_le (by omega)
  have ht127 : (t0 :: ts).take 127 = t0 :: ts := List.take_of_length_le (by omega)
  have hk2 := keyword_take _ hk
  have hx255 : ((c :: cs).take 511).take 255 = (c :: cs).take 255 := by
    rw [List.take_take]; rfl
  have hrec1 := record_word_first (t0 :: ts) htk
  have hrec2 := record_word_second (t0 :: ts) ((c :: cs).take 511) hk2
  rw [hx255, ht127] at hrec2
  rw [scan_loop_word (f + 5) t0 ts ' ' _ 1 _ ht0 hts (by decide) (by decide) (by decide)
      (by simp [MAX_TOKENS]) (by rw [ht511]; exact htn), ht511, hrec1, scan_loop_space,
    scan_loop_word (f + 3) c cs ' ' _ 1 _ hc hcs (by decide) (by decide) (by decide)
      (by simp [MAX_TOKENS]) (not_keyword_not_namespace _ hk2), hrec2, scan_loop_space,
    scan_loop_assign (f + 1) 1 _ _ (by simp [MAX_TOKENS]), scan_loop_space]
  rfl

theorem report_error_table (msg : List Char) (line : Nat) (st : State) :
    (report_error msg line st).table = st.table ∧ (report_error msg line st).decls = st.decls := by
  unfold report_error
  split_ifs <;> exact ⟨rfl, rfl⟩

theorem check_assignment_type_table (T V name : List Char) (line : Nat) (st : State) :
    (check_assignment_type T V line name st).table = st.table ∧
      (check_assignment_type T V line name st).decls = st.decls := by
  unfold check_assignment_type
  simp only []
  split_ifs <;> first | exact ⟨rfl, rfl⟩ | exact report_error_table _ _ _

theorem pass2_step_skip (st : State) (i : Nat) (h2 : (tokAt st.table i).attr ≠ 2)
    (hr : isRelOp (tokAt st.table i).token = false) : pass2_step st i = st := by
  simp [pass2_step, pass2_e2, pass2_e3, pass2_e1, pass2_e4, h2, hr]

theorem kotlin_step_skip (st : State) (i : Nat)
    (h : (tokAt st.table i).attr ≠ 1 ∨ ((tokAt st.table i).token ≠ "var".toList ∧
      (tokAt st.table i).token ≠ "val".toList)) : kotlin_step st i = st := by
  unfold kotlin_step
  rw [if_neg]
  rintro ⟨h1, h2⟩
  rcases h with h | h
  · exact h h1
  · rcases h2 with h2 | h2
    · exact h.1 h2
    · exact h.2 h2

theorem kotlin_decl_stmt (ty x vtok : List Char) (a : Nat)
    (hty : ty ≠ "var".toList ∧ ty ≠ "val".toList) (ha : a ≠ 1) :
    (List.range (decl_stmt_state ty x vtok a).table.length).foldl kotlin_step
      (decl_stmt_state ty x vtok a) = decl_stmt_state ty x vtok a := by
  have hr : List.range (decl_stmt_state ty x vtok a).table.length = [0, 1, 2, 3, 4] := rfl
  rw [hr]
  simp only [List.foldl_cons, List.foldl_nil]
  rw [kotlin_step_skip (decl_stmt_state ty x vtok a) 0 (Or.inr hty),
    kotlin_step_skip (decl_stmt_state ty x vtok a) 1 (Or.inl (by simp [decl_stmt_state, tokAt])),
    kotlin_step_skip (decl_stmt_state ty x vtok a) 2 (Or.inl (by simp [decl_stmt_state, tokAt])),
    kotlin_step_skip (decl_stmt_state ty x vtok a) 3 (Or.inl ha),
    kotlin_step_skip (decl_stmt_state ty x vtok a) 4 (Or.inl (by simp [decl_stmt_state, tokAt]))]

theorem pass2_decl_stmt (ty x vtok : List Char) (a : Nat)
    (hk : isKeyword ty = true) (htr : isRelOp ty = false)
    (hx : isRelOp x = false) (hv : isRelOp vtok = false) (ha : a ≠ 2) :
    detect_errors_pass2 (decl_stmt_state ty x vtok a) =
      check_assignment_type ty vtok 1 x (decl_stmt_state ty x vtok a) := by
  have hr : List.range (decl_stmt_state ty x vtok a).table.length = [0, 1, 2, 3, 4] := rfl
  have h0 : pass2_step (decl_stmt_state ty x vtok a) 0 = decl_stmt_state ty x vtok a :=
    pass2_step_skip _ 0 (by simp [decl_stmt_state, tokAt]) htr
  have h1 : pass2_step (decl_stmt_state ty x vtok a) 1 =
      check_assignment_type ty vtok 1 x (decl_stmt_state ty x vtok a) := by
    simp [pass2_step, pass2_e2, pass2_e3, pass2_e1, pass2_e4, decl_stmt_state, tokAt,
      isDeclared, getType, hk, hx, (check_assignment_type_table _ _ _ _ _).1]
  have ht := (check_assignment_type_table ty vtok x 1 (decl_stmt_state ty x vtok a)).1
  unfold detect_errors_pass2
  rw [hr]
  simp only [List.foldl_cons, List.foldl_nil]
  rw [h0, h1, pass2_step_skip _ 2 (by rw [ht]; simp [decl_stmt_state, tokAt])
      (by rw [ht]; simp [decl_stmt_state, tokAt, isRelOp]),
    pass2_step_skip _ 3 (by rw [ht]; exact ha) (by rw [ht]; exact hv),
    pass2_step_skip _ 4 (by rw [ht]; simp [decl_stmt_state, tokAt])
      (by rw [ht]; simp [decl_stmt_state, tokAt, isRelOp])]

theorem run_decl_stmt (prior : State) (ty x v vtok : List Char) (a : Nat)
    (hty : ty = "int".toList ∨ ty = "char".toList)
    (hx : is_identifier x = true) (hk : isKeyword x = false) (hlen : x.length ≤ 255)
    (hv : ∀ st : State, st.table.length < MAX_TOKENS →
      scan_loop 3 (v ++ [';']) 1 st = scan_loop 2 [';'] 1 (with_token st vtok a 1))
    (hvr : isRelOp vtok = false) (ha : a ≠ 1 ∧ a ≠ 2) :
    analysis_run prior (decl_stmt ty x v) =
      .ok (check_assignment_type ty vtok 1 x (decl_stmt_state ty x vtok a)) := by
  obtain ⟨c, cs, rfl, hc, hcs⟩ := identifier_cases x hx
  have h511 : (c :: cs).take 511 = c :: cs := List.take_of_length_le (by omega)
  have h255 : (c :: cs).take 255 = c :: cs := List.take_of_length_le hlen
  have hscan : scan_loop 9 (decl_stmt ty (c :: cs) v) 1 ⟨[], [], [], []⟩ =
      .ok (decl_stmt_state ty (c :: cs) vtok a) := by
    have hshape : ∀ (t0 : Char) (ts : List Char), decl_stmt (t0 :: ts) (c :: cs) v =
        t0 :: (ts ++ ' ' :: c :: (cs ++ ' ' :: '=' :: ' ' :: (v ++ [';']))) := by
      intro t0 ts; simp [decl_stmt]
    rcases hty with rfl | rfl
    · rw [show "int".toList = 'i' :: ['n', 't'] from rfl, hshape,
        scan_decl_prefix 3 'i' ['n', 't'] c cs _ (by decide) (by decide) (by decide) (by decide)
          hc hcs hk, h511, h255, hv _ (by simp [MAX_TOKENS]),
        scan_loop_semicolon 1 1 [] _ (by simp [MAX_TOKENS, with_token]), scan_loop_eof]
      rfl
    · rw [show "char".toList = 'c' :: ['h', 'a', 'r'] from rfl, hshape,
        scan_decl_prefix 3 'c' ['h', 'a', 'r'] c cs _ (by decide) (by decide) (by decide)
          (by decide) hc hcs hk, h511, h255, hv _ (by simp [MAX_TOKENS]),
        scan_loop_semicolon 1 1 [] _ (by simp [MAX_TOKENS, with_token]), scan_loop_eof]
      rfl
  have hfuel : 9 ≤ (decl_stmt ty (c :: cs) v).length + 1 := by
    rcases hty with rfl | rfl <;> simp [decl_stmt] <;> omega
  have hkr : isKeyword ty = true ∧ isRelOp ty = false ∧ ty ≠ "var".toList ∧ ty ≠ "val".toList := by
    rcases hty with rfl | rfl <;> decide
  unfold analysis_run tokenize_and_build State.reset
  rw [scan_loop_mono 9 _ _ _ _ _ hfuel hscan]
  simp only []
  rw [kotlin_decl_stmt _ _ _ _ ⟨hkr.2.2.1, hkr.2.2.2⟩ ha.1,
    pass2_decl_stmt _ _ _ _ hkr.1 hkr.2.1 (identifier_not_relop _ hx).1 hvr ha.2]

theorem digits_cases (d : List Char) (h : is_digits d = true) :
    ∃ c ds, d = c :: ds ∧ isdigit c = true ∧ ∀ e ∈ ds, isdigit e = true := by
  cases d with
  | nil => simp [is_digits] at h
  | cons c ds =>
    simp only [is_digits, List.isEmpty_cons, Bool.not_false, Bool.true_and, List.all_cons,
      Bool.and_eq_true, List.all_eq_true] at h
    exact ⟨c, ds, rfl, h.1, h.2⟩

theorem digits_take (d : List Char) (h : is_digits d = true) : is_digits (d.take 511) = true := by
  obtain ⟨c, ds, rfl, hc, hds⟩ := digits_cases d h
  simp only [is_digits, List.take_succ_cons, List.isEmpty_cons, Bool.not_false, Bool.true_and,
    List.all_cons, hc, List.all_eq_true]
  intro e he
  exact hds e (List.mem_of_mem_take he)

theorem digits_token (w : List Char) (h : is_digits w = true) :
    int_rejects w = false ∧ isCharLitToken w = false ∧ isRelOp w = false := by
  obtain ⟨c, ds, rfl, hc, hds⟩ := digits_cases w h
  have h1 : c ≠ '"' := ne_of_pred hc (by decide)
  have h2 : c ≠ SQ := ne_of_pred hc (by decide)
  have h3 : c ≠ '<' := ne_of_pred hc (by decide)
  have h4 : c ≠ '>' := ne_of_pred hc (by decide)
  have h5 : c ≠ '=' := ne_of_pred hc (by decide)
  have h6 : c ≠ '!' := ne_of_pred hc (by decide)
  have hall : ∀ e ∈ c :: ds, isdigit e = true := by
    intro e he
    rcases List.mem_cons.mp he with rfl | h
    · exact hc
    · exact hds e h
  have hdot : (c :: ds).contains '.' = false := by
    cases hcon : (c :: ds).contains '.' with
    | false => rfl
    | true =>
      have := hall '.' (by simpa using hcon)
      exact absurd this (by decide)
  have hlast : last_is_alpha (c :: ds) = false := by
    unfold last_is_alpha
    cases hl : (c :: ds).getLast? with
    | none => rfl
    | some e => exact digit_not_alpha e (hall e (List.mem_of_getLast?_eq_some hl))
  have hstr : isStringLitToken (c :: ds) = false := by simp [isStringLitToken, h1]
  have hchr : isCharLitToken (c :: ds) = false := by simp [isCharLitToken, h2]
  refine ⟨?_, hchr, ?_⟩
  · simp only [int_rejects, hstr, hchr, hdot, hlast, Bool.or_self]
  · simp [isRelOp, h3, h4, h5, h6]

theorem scan_value_digits (d : List Char) (h : is_digits d = true) (st : State)
    (hroom : st.table.length < MAX_TOKENS) :
    scan_loop 3 (d ++ [';']) 1 st = scan_loop 2 [';'] 1 (with_token st (d.take 511) 3 1) := by
  obtain ⟨c, ds, rfl, hc, hds⟩ := digits_cases d h
  exact scan_loop_number 2 1 c ds ';' [] st hc hds (by decide) (by decide) (by decide)
    (by decide) hroom

theorem scan_value_string (s : List Char) (hs : s.all is_plain_char = true)
    (hlen : s.length ≤ 509) (st : State) (hroom : st.table.length < MAX_TOKENS) :
    scan_loop 3 (string_lit s ++ [';']) 1 st =
      scan_loop 2 [';'] 1 (with_token st (string_lit s) 6 1) := by
  have h := scan_loop_string 2 1 s [';'] st
    (by
      intro c hc
      have := List.all_eq_true.mp hs c hc
      simp only [is_plain_char, Bool.and_eq_true, bne_iff_ne, ne_eq] at this
      exact ⟨this.1.1.1.1, this.1.1.1.2, this.1.2, this.1.1.2, this.2⟩)
    hlen hroom
  simpa [string_lit] using h

theorem string_lit_token (s : List Char) :
    isStringLitToken (string_lit s) = true ∧ isRelOp (string_lit s) = false ∧
      isCharLitToken (string_lit s) = false := by
  have hlast : ('"' :: (s ++ ['"'])).getLast? = some '"' := by
    exact List.getLast?_concat (l := '"' :: s) (a := '"')
  refine ⟨?_, ?_, ?_⟩
  · simp [isStringLitToken, string_lit, hlast]
  · simp [isRelOp, string_lit]
  · have : '"' ≠ SQ := by decide
    simp [isCharLitToken, string_lit, this]

/-! ### Declarations with an initializer: claims C1, C2, C4 -/

/-- The run C1 describes, for a name the declaration table stores whole.  For
every non-keyword identifier `x` of at most 255
characters and every simple string body `s` of at most 509 characters (no
quote, backslash, newline, carriage return or NUL), both passes on
`int x = "s";` leave exactly one diagnostic: a TypeMismatch on line 1 whose
message is the first 255 characters of
`E1-TypeMismatch: int 'x' cannot take '"s"'`, which is the whole text when
`x` and `s` together have at most 215 characters. -/
theorem int_string_mismatch_run (prior : State) (x s : List Char)
    (hx : is_identifier x = true) (hk : isKeyword x = false) (hxl : x.length ≤ 255)
    (hs : s.all is_plain_char = true) (hsl : s.length ≤ 509) :
    analysis_run prior (decl_stmt "int".toList x (string_lit s)) =
      .ok ⟨[⟨"int".toList, 1, 1⟩, ⟨x, 2, 1⟩, ⟨"=".toList, 4, 1⟩, ⟨string_lit s, 6, 1⟩,
            ⟨";".toList, 5, 1⟩],
           [⟨x, "int".toList, 1⟩],
           [⟨(text_cannot_take "int".toList x (string_lit s)).take 255, 1⟩], []⟩ ∧
    (x.length + s.length ≤ 215 →
      (text_cannot_take "int".toList x (string_lit s)).take 255 =
        text_cannot_take "int".toList x (string_lit s)) := by
  refine ⟨?_, fun hfit => List.take_of_length_le (by
    simp [text_cannot_take, string_lit]; omega)⟩
  rw [run_decl_stmt prior _ x _ (string_lit s) 6 (Or.inl rfl) hx hk hxl
      (fun st hroom => scan_value_string s hs hsl st hroom) (string_lit_token s).2.1
      (by decide),
    check_int _ _ _ _ _ (by decide)]
  have hrej : int_rejects (string_lit s) = true := by
    simp [int_rejects, (string_lit_token s).1]
  rw [if_pos ⟨hrej, by simp [decl_stmt_state, MAX_ERRORS]⟩]
  rfl

/-- The sample of C1: `int x = "hi";` gives the single message
`E1-TypeMismatch: int 'x' cannot take '"hi"'` on line 1. -/
theorem int_string_mismatch_sample :
    is_identifier "x".toList = true ∧ isKeyword "x".toList = false ∧
    "x".toList.length ≤ 255 ∧ "hi".toList.all is_plain_char = true ∧
    "hi".toList.length ≤ 509 ∧
    analysis_run ⟨[], [], [], []⟩ "int x = \"hi\";".toList =
      .ok ⟨[⟨"int".toList, 1, 1⟩, ⟨"x".toList, 2, 1⟩, ⟨"=".toList, 4, 1⟩,
            ⟨"\"hi\"".toList, 6, 1⟩, ⟨";".toList, 5, 1⟩],
           [⟨"x".toList, "int".toList, 1⟩],
           [⟨"E1-TypeMismatch: int 'x' cannot take '\"hi\"'".toList, 1⟩], []⟩ :=
  ⟨by decide, by decide, by decide, by decide, by decide,
    (int_string_mismatch_run ⟨[], [], [], []⟩ "x".toList "hi".toList (by decide) (by decide)
      (by decide) (by decide) (by decide)).1⟩

/-- C1 (the code at the failing input).  With the 301-letter identifier
`aa...a` for `x`, the run on `int x = "hi";` produces no TypeMismatch at all.
`add_decl` stores the first 255 characters of the name and `isDeclared`
compares the whole name, so the assignment check finds the identifier
undeclared in the statement that declares it and reports
`E3-IdentifierError` instead. -/
theorem C1_long_name_no_mismatch :
    is_identifier (List.replicate 301 'a') = true ∧
    isKeyword (List.replicate 301 'a') = false ∧
    (analysis_run ⟨[], [], [], []⟩
        (decl_stmt "int".toList (List.replicate 301 'a') (string_lit "hi".toList))).map
      (fun st => (st.errors, (summary_counts st.errors).1)) =
      .ok ([⟨msg_undeclared (List.replicate 301 'a'), 1⟩], 0) := by
  refine ⟨by decide!, by decide!, ?_⟩
  simp only [analysis_run, tokenize_and_build, State.reset]
  decide!

/-- The run C2 describes, for a name the declaration table stores whole.  For
every non-keyword identifier `x` of at most 255
characters and every non-empty digits-only literal `d`, both passes on
`int x = d;` leave the declaration table holding exactly `x` with declared
type `int` on line 1, and no diagnostic at all (so no TypeMismatch). -/
theorem int_digits_declared_run (prior : State) (x d : List Char)
    (hx : is_identifier x = true) (hk : isKeyword x = false) (hxl : x.length ≤ 255)
    (hd : is_digits d = true) :
    analysis_run prior (decl_stmt "int".toList x d) =
      .ok ⟨[⟨"int".toList, 1, 1⟩, ⟨x, 2, 1⟩, ⟨"=".toList, 4, 1⟩, ⟨d.take 511, 3, 1⟩,
            ⟨";".toList, 5, 1⟩],
           [⟨x, "int".toList, 1⟩], [], []⟩ := by
  have htok := digits_token (d.take 511) (digits_take d hd)
  rw [run_decl_stmt prior _ x _ (d.take 511) 3 (Or.inl rfl) hx hk hxl
      (fun st hroom => scan_value_digits d hd st hroom) htok.2.2 (by decide),
    check_int _ _ _ _ _ (by decide), if_neg (by simp [htok.1])]
  rfl

/-- The sample of C2: `int x = 5;`. -/
theorem int_digits_declared_sample :
    is_identifier "x".toList = true ∧ isKeyword "x".toList = false ∧
    "x".toList.length ≤ 255 ∧ is_digits "5".toList = true ∧
    analysis_run ⟨[], [], [], []⟩ "int x = 5;".toList =
      .ok ⟨[⟨"int".toList, 1, 1⟩, ⟨"x".toList, 2, 1⟩, ⟨"=".toList, 4, 1⟩,
            ⟨"5".toList, 3, 1⟩, ⟨";".toList, 5, 1⟩],
           [⟨"x".toList, "int".toList, 1⟩], [], []⟩ :=
  ⟨by decide, by decide, by decide, by decide,
    int_digits_declared_run ⟨[], [], [], []⟩ "x".toList "5".toList (by decide) (by decide)
      (by decide) (by decide)⟩

/-- C2 (the code at the failing input).  With the 301-letter identifier
`bb...b` for `x`, after the run on `int x = 5;` the declaration table does
not contain `x`: `add_decl` has stored the first 255 characters of the name,
and `isDeclared`, which compares the whole name, answers no; `getType`
answers `UNKNOWN`. -/
theorem C2_long_name_not_declared :
    is_identifier (List.replicate 301 'b') = true ∧
    isKeyword (List.replicate 301 'b') = false ∧ is_digits "5".toList = true ∧
    (analysis_run ⟨[], [], [], []⟩
        (decl_stmt "int".toList (List.replicate 301 'b') "5".toList)).map
      (fun st => (st.decls, isDeclared st.decls (List.replicate 301 'b'),
        getType st.decls (List.replicate 301 'b'))) =
      .ok ([⟨List.replicate 255 'b', "int".toList, 1⟩], false, "UNKNOWN".toList) := by
  refine ⟨by decide!, by decide!, by decide!, ?_⟩
  simp only [analysis_run, tokenize_and_build, State.reset]
  decide!

theorem scan_value_char (a : Char) (ha : is_literal_char a = true) (st : State)
    (hroom : st.table.length < MAX_TOKENS) :
    scan_loop 3 ([SQ, a, SQ] ++ [';']) 1 st =
      scan_loop 2 [';'] 1 (with_token st [SQ, a, SQ] 7 1) := by
  simp only [is_literal_char, Bool.and_eq_true, bne_iff_ne, ne_eq] at ha
  exact scan_loop_char 2 1 a [';'] st ⟨ha.1.1.1, ha.1.2, ha.1.1.2, ha.2⟩ hroom

theorem scan_value_escape (e : Char) (he : is_escape_char e = true) (st : State)
    (hroom : st.table.length < MAX_TOKENS) :
    scan_loop 3 ([SQ, '\\', e, SQ] ++ [';']) 1 st =
      scan_loop 2 [';'] 1 (with_token st [SQ, '\\', e, SQ] 7 1) := by
  simp only [is_escape_char, Bool.and_eq_true, bne_iff_ne, ne_eq] at he
  exact scan_loop_escape 2 1 e [';'] st ⟨he.1.2, he.1.1, he.2⟩ hroom

theorem char_check (V name : List Char) (line : Nat) (st : State) :
    check_assignment_type "char".toList V line name st =
      if isCharLitToken V = false ∧ st.errors.length < MAX_ERRORS then
        with_error st ((text_must_take "char".toList name V).take 255) line
      else st := by
  have hd : strip_nullable (("char".toList).take 127) = "char".toList := by decide
  rw [check_other _ _ _ _ _ (by decide), hd,
    if_neg (fun h => absurd h.1 (by decide))]
  have hm : "char".toList ∈ char_types := by decide
  simp only [hm, true_and]

/-- The runs C4 describes, for a name the declaration table stores whole.
For every non-keyword identifier `c` of at most 255
characters: both passes on `char c = 'a';` (a plain character `a`, or an
escape `\e`) leave no diagnostic, and both passes on `char c = d;` (a
non-empty digits-only `d`) leave exactly one diagnostic, the TypeMismatch
`E1-TypeMismatch: char 'c' must take a char literal, got 'd'` on line 1
(its first 255 characters). -/
theorem char_literal_check_run (prior : State) (c d : List Char) (a e : Char)
    (hc : is_identifier c = true) (hk : isKeyword c = false) (hcl : c.length ≤ 255)
    (ha : is_literal_char a = true) (he : is_escape_char e = true)
    (hd : is_digits d = true) :
    analysis_run prior (decl_stmt "char".toList c [SQ, a, SQ]) =
      .ok ⟨[⟨"char".toList, 1, 1⟩, ⟨c, 2, 1⟩, ⟨"=".toList, 4, 1⟩, ⟨[SQ, a, SQ], 7, 1⟩,
            ⟨";".toList, 5, 1⟩],
           [⟨c, "char".toList, 1⟩], [], []⟩ ∧
    analysis_run prior (decl_stmt "char".toList c [SQ, '\\', e, SQ]) =
      .ok ⟨[⟨"char".toList, 1, 1⟩, ⟨c, 2, 1⟩, ⟨"=".toList, 4, 1⟩,
            ⟨[SQ, '\\', e, SQ], 7, 1⟩, ⟨";".toList, 5, 1⟩],
           [⟨c, "char".toList, 1⟩], [], []⟩ ∧
    analysis_run prior (decl_stmt "char".toList c d) =
      .ok ⟨[⟨"char".toList, 1, 1⟩, ⟨c, 2, 1⟩, ⟨"=".toList, 4, 1⟩, ⟨d.take 511, 3, 1⟩,
            ⟨";".toList, 5, 1⟩],
           [⟨c, "char".toList, 1⟩],
           [⟨(text_must_take "char".toList c (d.take 511)).take 255, 1⟩], []⟩ := by
  have htok := digits_token (d.take 511) (digits_take d hd)
  have hl1 : isCharLitToken [SQ, a, SQ] = true := by simp [isCharLitToken]
  have hl2 : isCharLitToken [SQ, '\\', e, SQ] = true := by simp [isCharLitToken]
  refine ⟨?_, ?_, ?_⟩
  · rw [run_decl_stmt prior _ c _ [SQ, a, SQ] 7 (Or.inr rfl) hc hk hcl
        (fun st hroom => scan_value_char a ha st hroom) (by simp [isRelOp]) (by decide),
      char_check, if_neg (by simp [hl1])]
    rfl
  · rw [run_decl_stmt prior _ c _ [SQ, '\\', e, SQ] 7 (Or.inr rfl) hc hk hcl
        (fun st hroom => scan_value_escape e he st hroom) (by simp [isRelOp]) (by decide),
      char_check, if_neg (by simp [hl2])]
    rfl
  · rw [run_decl_stmt prior _ c _ (d.take 511) 3 (Or.inr rfl) hc hk hcl
        (fun st hroom => scan_value_digits d hd st hroom) htok.2.2 (by decide),
      char_check, if_pos ⟨htok.2.1, by simp [decl_stmt_state, MAX_ERRORS]⟩]
    rfl

/-- The samples of C4: `char c = 'a';`, `char c = '\n';` and `char c = 5;`. -/
theorem char_literal_check_sample :
    is_identifier "c".toList = true ∧ isKeyword "c".toList = false ∧
    "c".toList.length ≤ 255 ∧ is_literal_char 'a' = true ∧ is_escape_char 'n' = true ∧
    is_digits "5".toList = true ∧
    (analysis_run ⟨[], [], [], []⟩ (decl_stmt "char".toList "c".toList [SQ, 'a', SQ]) =
      .ok ⟨[⟨"char".toList, 1, 1⟩, ⟨"c".toList, 2, 1⟩, ⟨"=".toList, 4, 1⟩,
            ⟨[SQ, 'a', SQ], 7, 1⟩, ⟨";".toList, 5, 1⟩],
           [⟨"c".toList, "char".toList, 1⟩], [], []⟩ ∧
     analysis_run ⟨[], [], [], []⟩ (decl_stmt "char".toList "c".toList [SQ, '\\', 'n', SQ]) =
      .ok ⟨[⟨"char".toList, 1, 1⟩, ⟨"c".toList, 2, 1⟩, ⟨"=".toList, 4, 1⟩,
            ⟨[SQ, '\\', 'n', SQ], 7, 1⟩, ⟨";".toList, 5, 1⟩],
           [⟨"c".toList, "char".toList, 1⟩], [], []⟩ ∧
     analysis_run ⟨[], [], [], []⟩ "char c = 5;".toList =
      .ok ⟨[⟨"char".toList, 1, 1⟩, ⟨"c".toList, 2, 1⟩, ⟨"=".toList, 4, 1⟩,
            ⟨"5".toList, 3, 1⟩, ⟨";".toList, 5, 1⟩],
           [⟨"c".toList, "char".toList, 1⟩],
           [⟨"E1-TypeMismatch: char 'c' must take a char literal, got '5'".toList, 1⟩],
           []⟩) :=
  ⟨by decide, by decide, by decide, by decide, by decide, by decide,
    char_literal_check_run ⟨[], [], [], []⟩ "c".toList "5".toList 'a' 'n' (by decide)
      (by decide) (by decide) (by decide) (by decide) (by decide)⟩

/-- C4 (the code at the failing input).  With the 301-letter identifier
`cc...c` for `c`, the run on `char c = 5;` produces no TypeMismatch; the only
diagnostic is the `E3-IdentifierError` of the assignment check: `add_decl`
has stored the first 255 characters of the name and `isDeclared` compares the
whole name. -/
theorem C4_long_name_no_mismatch :
    is_identifier (List.replicate 301 'c') = true ∧
    isKeyword (List.replicate 301 'c') = false ∧ is_digits "5".toList = true ∧
    (analysis_run ⟨[], [], [], []⟩
        (decl_stmt "char".toList (List.replicate 301 'c') "5".toList)).map
      (fun st => (st.errors, (summary_counts st.errors).1)) =
      .ok ([⟨msg_undeclared (List.replicate 301 'c'), 1⟩], 0) := by
  refine ⟨by decide!, by decide!, by decide!, ?_⟩
  simp only [analysis_run, tokenize_and_build, State.reset]
  decide!

/-! ### The statement `y = 3;`: claim C3 -/

theorem pass2_undeclared_assign (y : List Char) (hy : isRelOp y = false) :
    detect_errors_pass2 ⟨[⟨y, 2, 1⟩, ⟨"=".toList, 4, 1⟩, ⟨"3".toList, 3, 1⟩,
        ⟨";".toList, 5, 1⟩], [], [], []⟩ =
      ⟨[⟨y, 2, 1⟩, ⟨"=".toList, 4, 1⟩, ⟨"3".toList, 3, 1⟩, ⟨";".toList, 5, 1⟩], [],
        (if similarToKeyword y = true then [⟨msg_misspelled y, 1⟩] else []) ++
          [⟨msg_undeclared y, 1⟩, ⟨msg_undeclared y, 1⟩], []⟩ := by
  have hr : List.range 4 = [0, 1, 2, 3] := rfl
  have hm2 : (msg_misspelled y).take 511 = msg_misspelled y := by
    simp [msg_misspelled, snprintf256, List.take_take]
  have hm3 : (msg_undeclared y).take 511 = msg_undeclared y := by
    simp [msg_undeclared, snprintf256, List.take_take]
  unfold detect_errors_pass2
  simp only [List.length_cons, List.length_nil, hr, List.foldl_cons, List.foldl_nil]
  have h0 : pass2_step ⟨[⟨y, 2, 1⟩, ⟨"=".toList, 4, 1⟩, ⟨"3".toList, 3, 1⟩,
        ⟨";".toList, 5, 1⟩], [], [], []⟩ 0 =
      ⟨[⟨y, 2, 1⟩, ⟨"=".toList, 4, 1⟩, ⟨"3".toList, 3, 1⟩, ⟨";".toList, 5, 1⟩], [],
        (if similarToKeyword y = true then [⟨msg_misspelled y, 1⟩] else []) ++
          [⟨msg_undeclared y, 1⟩, ⟨msg_undeclared y, 1⟩], []⟩ := by
    by_cases hs : similarToKeyword y = true
    · simp [pass2_step, pass2_e2, pass2_e3, pass2_e1, pass2_e4, tokAt, isDeclared, hs, hy,
        report_error, MAX_ERRORS, hm2, hm3]
    · simp [pass2_step, pass2_e2, pass2_e3, pass2_e1, pass2_e4, tokAt, isDeclared, hs, hy,
        report_error, MAX_ERRORS, hm3]
  rw [h0, pass2_step_skip _ 1 (by simp [tokAt]) (by simp [tokAt, isRelOp]),
    pass2_step_skip _ 2 (by simp [tokAt]) (by simp [tokAt, isRelOp]),
    pass2_step_skip _ 3 (by simp [tokAt]) (by simp [tokAt, isRelOp])]

theorem identifier_take (y : List Char) (h : is_identifier y = true) :
    is_identifier (y.take 511) = true := by
  obtain ⟨c, cs, rfl, hc, hcs⟩ := identifier_cases y h
  simp only [is_identifier, List.take_succ_cons, hc, Bool.true_and, List.all_eq_true]
  intro e he
  exact hcs e (List.mem_of_mem_take he)

/-- C3 (as amended).  For every non-keyword identifier `y`, both passes on
`y = 3;` produce exactly two UseBeforeDeclaration diagnostics, both on line 1:
one from the per-token check and one from the assignment check.  They are
preceded by one MisspelledKeyword diagnostic when `y` is keyword-like, and
there is no other diagnostic.  (Lexemes are those of the scanner: the first
511 characters of `y`.) -/
theorem C3_undeclared_assignment (prior : State) (y : List Char)
    (hy : is_identifier y = true) (hk : isKeyword y = false) :
    analysis_run prior (y ++ " = 3;".toList) =
      .ok ⟨[⟨y.take 511, 2, 1⟩, ⟨"=".toList, 4, 1⟩, ⟨"3".toList, 3, 1⟩, ⟨";".toList, 5, 1⟩],
           [],
           (if similarToKeyword (y.take 511) = true then [⟨msg_misspelled (y.take 511), 1⟩]
            else []) ++
             [⟨msg_undeclared (y.take 511), 1⟩, ⟨msg_undeclared (y.take 511), 1⟩], []⟩ := by
  obtain ⟨c, cs, rfl, hc, hcs⟩ := identifier_cases y hy
  have hk2 := keyword_take _ hk
  have hrec : record_word ⟨[], [], [], []⟩ ((c :: cs).take 511) 1 =
      ⟨[⟨(c :: cs).take 511, 2, 1⟩], [], [], []⟩ := by
    simp only [record_word, hk2]
    simp
  have hscan : scan_loop 7 (c :: cs ++ " = 3;".toList) 1 ⟨[], [], [], []⟩ =
      .ok ⟨[⟨(c :: cs).take 511, 2, 1⟩, ⟨"=".toList, 4, 1⟩, ⟨"3".toList, 3, 1⟩,
        ⟨";".toList, 5, 1⟩], [], [], []⟩ := by
    rw [show c :: cs ++ " = 3;".toList = c :: (cs ++ ' ' :: '=' :: ' ' :: ('3' :: ([] ++ ';' :: [])))
        from rfl,
      scan_loop_word 6 c cs ' ' _ 1 _ hc hcs (by decide) (by decide) (by decide)
        (by simp [MAX_TOKENS]) (not_keyword_not_namespace _ hk2), hrec, scan_loop_space,
      scan_loop_assign 4 1 _ _ (by simp [MAX_TOKENS]), scan_loop_space,
      scan_loop_number 2 1 '3' [] ';' [] _ (by decide) (by simp) (by decide) (by decide)
        (by decide) (by decide) (by simp [MAX_TOKENS, with_token]),
      scan_loop_semicolon 1 1 [] _ (by simp [MAX_TOKENS, with_token]), scan_loop_eof]
    rfl
  have hfuel : 7 ≤ (c :: cs ++ " = 3;".toList).length + 1 := by
    simp
  have hkot : ∀ st : State, st = ⟨[⟨(c :: cs).take 511, 2, 1⟩, ⟨"=".toList, 4, 1⟩,
      ⟨"3".toList, 3, 1⟩, ⟨";".toList, 5, 1⟩], [], [], []⟩ →
      (List.range st.table.length).foldl kotlin_step st = st := by
    intro st hst
    subst hst
    simp only [List.length_cons, List.length_nil]
    rw [show List.range (0 + 1 + 1 + 1 + 1) = [0, 1, 2, 3] from rfl]
    simp only [List.foldl_cons, List.foldl_nil]
    rw [kotlin_step_skip _ 0 (Or.inl (by simp [tokAt])),
      kotlin_step_skip _ 1 (Or.inl (by simp [tokAt])),
      kotlin_step_skip _ 2 (Or.inl (by simp [tokAt])),
      kotlin_step_skip _ 3 (Or.inl (by simp [tokAt]))]
  unfold analysis_run tokenize_and_build State.reset
  rw [scan_loop_mono 7 _ _ _ _ _ hfuel hscan]
  simp only []
  rw [hkot _ rfl, pass2_undeclared_assign _ (identifier_not_relop _ (identifier_take _ hy)).1]

/-- Witness of C3: `y = 3;` has two `E3-IdentifierError` diagnostics. -/
theorem C3_undeclared_assignment_witness :
    is_identifier "y".toList = true ∧ isKeyword "y".toList = false ∧
    analysis_run ⟨[], [], [], []⟩ "y = 3;".toList =
      .ok ⟨[⟨"y".toList, 2, 1⟩, ⟨"=".toList, 4, 1⟩, ⟨"3".toList, 3, 1⟩, ⟨";".toList, 5, 1⟩],
           [],
           [⟨"E3-IdentifierError: 'y' used before declaration".toList, 1⟩,
            ⟨"E3-IdentifierError: 'y' used before declaration".toList, 1⟩], []⟩ :=
  ⟨by decide, by decide,
    C3_undeclared_assignment ⟨[], [], [], []⟩ "y".toList (by decide) (by decide)⟩

/-- Counterexample to C3 as stated: for `total = 3;` the summary counts two
UseBeforeDeclaration diagnostics, not one, and both are on line 1. -/
theorem C3_counterexample :
    is_identifier "total".toList = true ∧ isKeyword "total".toList = false ∧
    (analysis_run ⟨[], [], [], []⟩ "total = 3;".toList).map
      (fun st => (st.errors, (summary_counts st.errors).2.2.1)) =
      .ok ([⟨"E3-IdentifierError: 'total' used before declaration".toList, 1⟩,
            ⟨"E3-IdentifierError: 'total' used before declaration".toList, 1⟩], 2) := by
  refine ⟨by decide, by decide, ?_⟩
  simp only [analysis_run, tokenize_and_build, State.reset]
  decide!

/-! ### Pass 2 keeps the tokens and the declarations: claim C5 -/

theorem pass2_e2_table (i : Nat) (st : State) :
    (pass2_e2 i st).table = st.table ∧ (pass2_e2 i st).decls = st.decls := by
  unfold pass2_e2
  simp only []
  split_ifs <;> first | exact ⟨rfl, rfl⟩ | exact report_error_table _ _ _

theorem pass2_e3_table (i : Nat) (st : State) :
    (pass2_e3 i st).table = st.table ∧ (pass2_e3 i st).decls = st.decls := by
  unfold pass2_e3
  simp only []
  split_ifs <;> first | exact ⟨rfl, rfl⟩ | exact report_error_table _ _ _

theorem pass2_e1_table (i : Nat) (st : State) :
    (pass2_e1 i st).table = st.table ∧ (pass2_e1 i st).decls = st.decls := by
  unfold pass2_e1
  simp only []
  split_ifs <;>
    first
    | exact ⟨rfl, rfl⟩
    | exact report_error_table _ _ _
    | exact check_assignment_type_table _ _ _ _ _

theorem pass2_e4_table (i : Nat) (st : State) :
    (pass2_e4 i st).table = st.table ∧ (pass2_e4 i st).decls = st.decls := by
  unfold pass2_e4
  simp only []
  split_ifs <;> first | exact ⟨rfl, rfl⟩ | exact report_error_table _ _ _

theorem pass2_step_table (st : State) (i : Nat) :
    (pass2_step st i).table = st.table ∧ (pass2_step st i).decls = st.decls := by
  unfold pass2_step
  refine ⟨?_, ?_⟩
  · rw [(pass2_e4_table _ _).1, (pass2_e1_table _ _).1, (pass2_e3_table _ _).1,
      (pass2_e2_table _ _).1]
  · rw [(pass2_e4_table _ _).2, (pass2_e1_table _ _).2, (pass2_e3_table _ _).2,
      (pass2_e2_table _ _).2]

theorem pass2_fold_table (l : List Nat) (st : State) :
    (l.foldl pass2_step st).table = st.table ∧ (l.foldl pass2_step st).decls = st.decls := by
  induction l generalizing st with
  | nil => exact ⟨rfl, rfl⟩
  | cons i l ih =>
    rw [List.foldl_cons]
    exact ⟨(ih _).1.trans (pass2_step_table st i).1, (ih _).2.trans (pass2_step_table st i).2⟩

theorem pass2_before_e4_table (st : State) (i : Nat) :
    (pass2_before_e4 st i).table = st.table := by
  unfold pass2_before_e4
  rw [(pass2_e1_table _ _).1, (pass2_e3_table _ _).1, (pass2_e2_table _ _).1,
    (pass2_fold_table _ _).1]

theorem relop_text_fits (t : List Char) (h : isRelOp t = true) :
    (text_position t).take 255 = text_position t ∧
      (text_operands t).take 255 = text_operands t := by
  simp only [isRelOp, Bool.or_eq_true, beq_iff_eq] at h
  rcases h with ((((rfl | rfl) | rfl) | rfl) | rfl) | rfl <;> decide

theorem pass2_e4_relop (i : Nat) (pre : State) (table : List Symbol)
    (ht : pre.table = table) (hi : i < table.length)
    (hr : isRelOp (tokAt table i).token = true) :
    pass2_e4 i pre =
      match relop_diagnostic table i with
      | some text =>
        if pre.errors.length < MAX_ERRORS then with_error pre text (tokAt table i).line
        else pre
      | none => pre := by
  have hfit := relop_text_fits _ hr
  have hlast : (i = table.length - 1) ↔ (i + 1 = table.length) := by omega
  unfold pass2_e4 relop_diagnostic
  simp only [ht, hr, if_true, hlast, msg_position, msg_operands, report_msg_eq, hfit.1, hfit.2]
  by_cases h1 : i = 0 ∨ i + 1 = table.length
  · simp only [h1, if_true]
  · have hop : ∀ s : Symbol, operand_ok s = is_operand_class s.attr := fun s => rfl
    simp only [h1, if_false, hop]
    by_cases h2 : is_operand_class (tokAt table (i - 1)).attr = true <;>
    by_cases h3 : is_operand_class (tokAt table (i + 1)).attr = true <;>
    simp [h2, h3]

/-- C5 (as amended).  In pass 2, for every token `i` whose lexeme is one of
`< > <= >= == !=`, turn `i` ends with its section E4, and that section appends
exactly the relational diagnostic the specification calls for (at the token's
line; `invalid position` for the first and the last token, otherwise
`invalid operands` unless both neighbours are Identifier, Number, String or
Char, and nothing in that case) provided fewer than 6000 diagnostics are
recorded at that point; when the diagnostic buffer is full nothing is
appended. -/
theorem C5_relational_operator (st : State) (i : Nat) (hi : i < st.table.length)
    (hr : isRelOp (tokAt st.table i).token = true) :
    (List.range (i + 1)).foldl pass2_step st = pass2_e4 i (pass2_before_e4 st i) ∧
    pass2_e4 i (pass2_before_e4 st i) =
      match relop_diagnostic st.table i with
      | some text =>
        if (pass2_before_e4 st i).errors.length < MAX_ERRORS then
          with_error (pass2_before_e4 st i) text (tokAt st.table i).line
        else pass2_before_e4 st i
      | none => pass2_before_e4 st i := by
  refine ⟨?_, pass2_e4_relop i _ st.table (pass2_before_e4_table st i) hi hr⟩
  rw [List.range_succ, List.foldl_append]
  simp only [List.foldl_cons, List.foldl_nil, pass2_before_e4]
  exact rfl

/-- Witness of C5: in `x < ;` the operator `<` stands between an identifier
and a separator and gets exactly one `invalid operands` diagnostic. -/
theorem C5_relational_operator_witness :
    1 < relop_sample.table.length ∧ isRelOp (tokAt relop_sample.table 1).token = true ∧
    tokenize_and_build ⟨[], [], [], []⟩ "x < ;".toList = .ok relop_sample ∧
    relop_diagnostic relop_sample.table 1 = some (text_operands "<".toList) ∧
    detect_errors_pass2 relop_sample =
      with_error (with_error relop_sample
        "E3-IdentifierError: 'x' used before declaration".toList 1)
        "E4-RelationalError: Operator '<' has invalid operands".toList 1 ∧
    ((List.range (1 + 1)).foldl pass2_step relop_sample =
        pass2_e4 1 (pass2_before_e4 relop_sample 1) ∧
      pass2_e4 1 (pass2_before_e4 relop_sample 1) =
        match relop_diagnostic relop_sample.table 1 with
        | some text =>
          if (pass2_before_e4 relop_sample 1).errors.length < MAX_ERRORS then
            with_error (pass2_before_e4 relop_sample 1) text (tokAt relop_sample.table 1).line
          else pass2_before_e4 relop_sample 1
        | none => pass2_before_e4 relop_sample 1) :=
  ⟨by decide, by decide, by simp only [tokenize_and_build, State.reset]; decide!, by decide!,
    by decide!, C5_relational_operator relop_sample 1 (by decide) (by decide)⟩

/-! ### A run that fills the diagnostic buffer -/

theorem scan_step_less (rest : List Char) (st : State)
    (hrest : rest = [] ∨ ∃ r, rest = '<' :: r) (hroom : st.table.length < MAX_TOKENS) :
    scan_step '<' rest 1 st = .ok (rest, 1, with_token st "<".toList 4 1) := by
  have hs : scan_step '<' rest 1 st = scan_operator '<' rest 1 st := rfl
  have hb : operator_buf '<' rest 1 = (['<'], rest, 1) := by
    rcases hrest with rfl | ⟨r, rfl⟩ <;> rfl
  have hp := push_token_ok st ['<'] 4 1 hroom (by decide) (by decide)
  rw [hs, scan_operator]
  simp only [hb]
  rw [show (if (['<'] : List Char).head? = some ':' ∧ (['<'] : List Char).length = 1
    then 5 else 4) = 4 from rfl, hp]
  rfl

theorem scan_relops (n : Nat) :
    ∀ (f : Nat) (st : State), n < f → st.table.length + n ≤ MAX_TOKENS →
      scan_loop f (List.replicate n '<') 1 st =
        .ok { st with table := st.table ++ List.replicate n less_token } := by
  induction n with
  | zero =>
    intro f st hf _
    obtain ⟨f, rfl⟩ : ∃ k, f = k + 1 := ⟨f - 1, by omega⟩
    simp [scan_loop, getc_nl]
  | succ n ih =>
    intro f st hf hroom
    obtain ⟨f, rfl⟩ : ∃ k, f = k + 1 := ⟨f - 1, by omega⟩
    have hrest : List.replicate n '<' = [] ∨ ∃ r, List.replicate n '<' = '<' :: r := by
      cases n with
      | zero => exact Or.inl rfl
      | succ m => exact Or.inr ⟨List.replicate m '<', rfl⟩
    rw [List.replicate_succ, scan_loop, getc_nl_cons _ _ _ (by decide) (by decide)]
    simp only [scan_step_less _ st hrest (by omega)]
    rw [ih f _ (by omega) (by simp [with_token]; omega)]
    simp [with_token, less_token, List.replicate_succ]

theorem tokAt_mem (table : List Symbol) (i : Nat) :
    tokAt table i ∈ table ∨ tokAt table i = ⟨[], 0, 0⟩ := by
  unfold tokAt
  by_cases h : i < table.length
  · left
    rw [List.getD_eq_getElem _ _ h]
    exact List.getElem_mem h
  · right
    exact List.getD_eq_default _ _ (by omega)

theorem kotlin_fold_skip (l : List Nat) (st : State)
    (h : ∀ i, (tokAt st.table i).attr ≠ 1) : l.foldl kotlin_step st = st := by
  induction l with
  | nil => rfl
  | cons i l ih => rw [List.foldl_cons, kotlin_step_skip st i (Or.inl (h i)), ih]

theorem report_error_length (msg : List Char) (line : Nat) (st : State)
    (h : st.errors.length ≤ MAX_ERRORS) :
    (report_error msg line st).errors.length = min (st.errors.length + 1) MAX_ERRORS := by
  rw [report_error_eq]
  split_ifs with hlt
  · simp [with_error]; omega
  · omega

theorem pass2_step_less (st : State) (i : Nat) (h : tokAt st.table i = less_token)
    (hall : ∀ j, operand_ok (tokAt st.table j) = false) :
    ∃ msg, pass2_step st i = report_error msg 1 st := by
  have ha : (tokAt st.table i).attr ≠ 2 := by rw [h]; decide
  have hr : isRelOp (tokAt st.table i).token = true := by rw [h]; decide
  have hl : (tokAt st.table i).line = 1 := by rw [h]; rfl
  have h2 : pass2_e2 i st = st := by simp [pass2_e2, ha]
  have h3 : pass2_e3 i st = st := by simp [pass2_e3, ha]
  have h1 : pass2_e1 i st = st := by simp [pass2_e1, ha]
  unfold pass2_step
  rw [h2, h3, h1]
  unfold pass2_e4
  simp only [hr, if_true, hl, hall, Bool.not_false, Bool.or_self]
  split_ifs
  · exact ⟨_, rfl⟩
  · exact ⟨_, rfl⟩

theorem pass2_fold_less (l : List Nat) (st : State)
    (htab : ∀ j, tokAt st.table j = less_token ∨ tokAt st.table j = ⟨[], 0, 0⟩)
    (hl : ∀ i ∈ l, tokAt st.table i = less_token) (he : st.errors.length ≤ MAX_ERRORS) :
    (l.foldl pass2_step st).errors.length = min (st.errors.length + l.length) MAX_ERRORS := by
  induction l generalizing st with
  | nil => simp [Nat.min_eq_left he]
  | cons i l ih =>
    have hall : ∀ j, operand_ok (tokAt st.table j) = false := by
      intro j
      rcases htab j with h | h <;> rw [h] <;> rfl
    obtain ⟨msg, hstep⟩ := pass2_step_less st i (hl i (by simp)) hall
    have htb := (report_error_table msg 1 st).1
    have hlen := report_error_length msg 1 st he
    rw [List.foldl_cons, hstep,
      ih _ (by rw [htb]; exact htab) (by rw [htb]; exact fun k hk => hl k (by simp [hk]))
        (by rw [hlen]; exact Nat.min_le_right _ _),
      hlen, List.length_cons]
    simp only [Nat.min_def]
    split_ifs <;> omega

theorem tokAt_replicate (n i : Nat) (t : Symbol) (h : i < n) :
    tokAt (List.replicate n t) i = t := by
  unfold tokAt
  rw [List.getD_eq_getElem _ _ (by simpa using h)]
  simp

theorem run_relops (prior : State) (n : Nat) (hn : n ≤ MAX_TOKENS) :
    ∃ st, analysis_run prior (List.replicate n '<') = .ok st ∧
      st.table = List.replicate n less_token ∧
      st.errors.length = min n MAX_ERRORS := by
  have hscan : scan_loop (n + 1) (List.replicate n '<') 1 ⟨[], [], [], []⟩ =
      .ok ⟨List.replicate n less_token, [], [], []⟩ := by
    rw [scan_relops n (n + 1) ⟨[], [], [], []⟩ (by omega) (by simpa using hn)]
    rfl
  have htab : ∀ j, tokAt (List.replicate n less_token) j = less_token ∨
      tokAt (List.replicate n less_token) j = ⟨[], 0, 0⟩ := by
    intro j
    rcases tokAt_mem (List.replicate n less_token) j with h | h
    · exact Or.inl (List.eq_of_mem_replicate h)
    · exact Or.inr h
  have hkot : (List.range n).foldl kotlin_step
      ⟨List.replicate n less_token, [], [], []⟩ =
      ⟨List.replicate n less_token, [], [], []⟩ := by
    apply kotlin_fold_skip
    intro j
    rcases htab j with h | h <;> simp only [h] <;> decide
  have hlen := pass2_fold_less (List.range n) ⟨List.replicate n less_token, [], [], []⟩
    htab (fun i hi => tokAt_replicate n i less_token (List.mem_range.mp hi))
    (Nat.zero_le _)
  have htb := (pass2_fold_table (List.range n) ⟨List.replicate n less_token, [], [], []⟩).1
  refine ⟨(List.range n).foldl pass2_step ⟨List.replicate n less_token, [], [], []⟩, ?_, htb,
    ?_⟩
  · simp only [analysis_run, tokenize_and_build, State.reset, hscan, List.nil_append, hkot,
      detect_errors_pass2, List.length_replicate]
  · rw [hlen]
    simp

/-- Counterexample to C5 as stated: the text of 6001 characters `<` gives
6001 tokens, each the relational operator `<`, but pass 2 records only 6000
diagnostics: the last token, for which `invalid position` is due, gets none
because `report_error` drops every diagnostic past `MAX_ERRORS`. -/
theorem C5_counterexample :
    (analysis_run ⟨[], [], [], []⟩ (List.replicate 6001 '<')).map
      (fun st => (st.table.length, st.table.all (fun t => isRelOp t.token),
        st.errors.length)) = .ok (6001, true, 6000) := by
  obtain ⟨st, hrun, htab, herr⟩ := run_relops ⟨[], [], [], []⟩ 6001 (by decide)
  have hall : st.table.all (fun t => isRelOp t.token) = true := by
    rw [htab, List.all_eq_true]
    intro t ht
    rw [List.eq_of_mem_replicate ht]
    rfl
  have hlen : st.table.length = 6001 := by rw [htab, List.length_replicate]
  have herr2 : st.errors.length = 6000 := by rw [herr]; decide
  rw [hrun]
  simp only [Except.map, hall, hlen, herr2]

/-! ### Operators, Kotlin declarations and the type check: claims C6 to C10 -/

/-- C6.  For each of the two-character operators `?. ?: .. == != <= >= && ||`,
scanning the text made of exactly its two characters yields one token, of
class Operator (4), whose lexeme is the operator, on line 1. -/
theorem C6_two_char_operators (prior : State) (op : List Char) (h : op ∈ two_char_ops) :
    tokenize_and_build prior op = .ok ⟨[⟨op, 4, 1⟩], [], [], []⟩ := by
  simp only [two_char_ops, List.map, List.mem_cons, List.mem_singleton, List.not_mem_nil,
    or_false] at h
  simp only [tokenize_and_build, State.reset]
  rcases h with rfl | rfl | rfl | rfl | rfl | rfl | rfl | rfl | rfl <;> decide!

/-- Witness of C6 at the operator `?.`. -/
theorem C6_two_char_operators_witness :
    "?.".toList ∈ two_char_ops ∧
    tokenize_and_build ⟨[], [], [], []⟩ "?.".toList =
      .ok ⟨[⟨"?.".toList, 4, 1⟩], [], [], []⟩ :=
  ⟨by decide, C6_two_char_operators ⟨[], [], [], []⟩ "?.".toList (by decide)⟩

theorem operator_buf_length (ch : Char) (fp : List Char) (line : Nat) :
    (operator_buf ch fp line).1.length ≤ 2 := by
  unfold operator_buf
  rcases hg : getc_nl fp line with ⟨_ | n, fp1, line1⟩
  · simp
  · simp only
    by_cases hp : is_pair ch n = true
    · simp [hp]
    · have hne : ¬ (ch = '=' ∧ n = '=') := by
        rintro ⟨rfl, rfl⟩
        exact hp (by decide)
      simp [hp, hne]

/-- C7 (the code at the failing input).  Scanning `===` yields two tokens, the
operator `==` followed by the operator `=`; and whatever the input, the
operator branch never builds a lexeme of more than two characters, because
the pair test that fuses `==` is tried before the lookahead for `===`. -/
theorem C7_triple_equals_splits (prior : State) :
    tokenize_and_build prior "===".toList =
      .ok ⟨[⟨"==".toList, 4, 1⟩, ⟨"=".toList, 4, 1⟩], [], [], []⟩ ∧
    ∀ (ch : Char) (fp : List Char) (line : Nat), (operator_buf ch fp line).1.length ≤ 2 := by
  refine ⟨?_, operator_buf_length⟩
  simp only [tokenize_and_build, State.reset]
  decide!

/-- C8 (the code at the failing input).  After scanning `val x: Int = 5` (and
likewise `var x: Int = 5`) the declaration table records `x` with declared
type `val` (`var`), not `Int`: the Java-style sniffing has already recorded
the pair keyword-identifier when the Kotlin pass calls `add_decl`, which then
does nothing. -/
theorem C8_kotlin_annotation_lost (prior : State) :
    tokenize_and_build prior "val x: Int = 5".toList =
      .ok ⟨[⟨"val".toList, 1, 1⟩, ⟨"x".toList, 2, 1⟩, ⟨":".toList, 5, 1⟩,
            ⟨"Int".toList, 1, 1⟩, ⟨"=".toList, 4, 1⟩, ⟨"5".toList, 3, 1⟩],
           [⟨"x".toList, "val".toList, 1⟩], [], []⟩ ∧
    getType [⟨"x".toList, "val".toList, 1⟩] "x".toList = "val".toList ∧
    (tokenize_and_build prior "var x: Int = 5".toList).map
      (fun st => (st.decls, getType st.decls "x".toList)) =
      .ok ([⟨"x".toList, "var".toList, 1⟩], "var".toList) := by
  simp only [tokenize_and_build, State.reset]
  refine ⟨by decide!, by decide!, by decide!⟩

/-- C9 (as amended).  For every declared type `T` in `int, Int, Long, Short,
Byte` and every value lexeme `V`, `check_assignment_type` appends exactly one
diagnostic when `V` is a string literal, a char literal, contains `.` or ends
in a letter, provided fewer than 6000 diagnostics are recorded, and changes
nothing otherwise.  The diagnostic carries the given line, and its message is
the first 255 characters of `E1-TypeMismatch: T 'name' cannot take 'V'`. -/
theorem C9_integer_types_check (T V name : List Char) (line : Nat) (st : State)
    (hT : T ∈ int_types) :
    check_assignment_type T V line name st =
      if (isStringLitToken V = true ∨ isCharLitToken V = true ∨ V.contains '.' = true ∨
          last_is_alpha V = true) ∧ st.errors.length < MAX_ERRORS then
        { st with errors :=
            st.errors ++ [⟨(text_cannot_take T name V).take 255, line⟩] }
      else st := by
  rw [check_int T V name line st hT]
  simp only [int_rejects, Bool.or_eq_true, or_assoc, with_error]

/-- Witness of C9: type `int`, value `"hi"`, variable `x`, line 7, empty
diagnostic list. -/
theorem C9_integer_types_check_witness :
    "int".toList ∈ int_types ∧
    check_assignment_type "int".toList "\"hi\"".toList 7 "x".toList ⟨[], [], [], []⟩ =
      ⟨[], [], [⟨"E1-TypeMismatch: int 'x' cannot take '\"hi\"'".toList, 7⟩], []⟩ :=
  ⟨by decide,
    C9_integer_types_check "int".toList "\"hi\"".toList "x".toList 7 ⟨[], [], [], []⟩
      (by decide)⟩

/-- Counterexample to C9 as stated: with 6000 diagnostics already recorded,
the check of the string literal `"hi"` against `int` appends nothing. -/
theorem C9_counterexample :
    isStringLitToken "\"hi\"".toList = true ∧ full_errors.errors.length = 6000 ∧
    check_assignment_type "int".toList "\"hi\"".toList 1 "x".toList full_errors =
      full_errors := by
  refine ⟨by decide, by decide!, ?_⟩
  rw [check_int _ _ _ _ _ (by decide), if_neg]
  rintro ⟨_, h⟩
  exact absurd h (by decide!)

theorem tokenize_prior (prior other : State) (input : List Char) :
    tokenize_and_build prior input = tokenize_and_build other input := rfl

theorem analysis_run_prior (prior other : State) (input : List Char) :
    analysis_run prior input = analysis_run other input := by
  unfold analysis_run
  rw [tokenize_prior prior other]

/-! ### The declaration table: claim C14 -/

theorem add_decl_nodup (name type : List Char) (line : Nat) (st : State)
    (hlen : name.length ≤ 255) (hnd : (st.decls.map Decl.name).Nodup) :
    ((add_decl name type line st).decls.map Decl.name).Nodup := by
  unfold add_decl
  split_ifs with h1 h2
  · exact hnd
  · exact hnd
  · have hnot : name ∉ st.decls.map Decl.name := by
      intro hmem
      apply h2
      obtain ⟨d, hd, hdn⟩ := List.mem_map.mp hmem
      simp only [isDeclared, List.any_eq_true, beq_iff_eq]
      exact ⟨d, hd, hdn.symm⟩
    simp only [List.map_append, List.map_cons, List.map_nil, List.take_of_length_le hlen]
    rw [List.nodup_append]
    refine ⟨hnd, List.nodup_singleton _, ?_⟩
    intro a ha hb
    rw [List.mem_singleton] at hb
    exact hnot (hb ▸ ha)

theorem add_decl_declared (name type : List Char) (line : Nat) (st : State)
    (h : isDeclared st.decls name = true) : add_decl name type line st = st := by
  unfold add_decl
  split_ifs <;> rfl

/-- C14 (the code at the failing input).  Two different identifiers of 256 and
257 letters `a`, each declared with `int`, leave two entries with the same
stored name (255 letters `a`) in the declaration table, both after the scan of
`int aa..a int aa..a` and after the two calls of `add_decl` from the empty
table: `add_decl` stores the first 255 characters of a name but looks up the
whole name. -/
theorem C14_duplicate_declarations (prior : State) :
    (tokenize_and_build prior ("int ".toList ++ List.replicate 256 'a' ++ " int ".toList ++
        List.replicate 257 'a')).map (fun st => st.decls) =
      .ok [⟨List.replicate 255 'a', "int".toList, 1⟩,
           ⟨List.replicate 255 'a', "int".toList, 1⟩] ∧
    (add_decl (List.replicate 257 'a') "int".toList 2
        (add_decl (List.replicate 256 'a') "int".toList 1 ⟨[], [], [], []⟩)).decls =
      [⟨List.replicate 255 'a', "int".toList, 1⟩,
       ⟨List.replicate 255 'a', "int".toList, 2⟩] := by
  simp only [tokenize_and_build, State.reset]
  exact ⟨by decide!, by decide!⟩

/-! ### String literals: claim C16 -/

/-- C16 (the code at the failing input).  The text `"a\"b"` is one String
token, the escaped quote not ending it; but for the body of 510 letters `a`
the lexeme has 512 characters, one more than the token field holds with its
terminator, and the store of the token leaves defined behaviour: no token
list is returned. -/
theorem C16_long_string_overflows (prior : State) :
    tokenize_and_build prior "\"a\\\"b\"".toList =
      .ok ⟨[⟨"\"a\\\"b\"".toList, 6, 1⟩], [], [], []⟩ ∧
    tokenize_and_build prior (string_lit (List.replicate 509 'a')) =
      .ok ⟨[⟨string_lit (List.replicate 509 'a'), 6, 1⟩], [], [], []⟩ ∧
    tokenize_and_build prior (string_lit (List.replicate 510 'a')) =
      .error Fault.overflow := by
  simp only [tokenize_and_build, State.reset]
  exact ⟨by decide!, by decide!, by decide!⟩

/-! ### Line comments: claim C18 -/

theorem run_line_comment (prior : State) (s : List Char)
    (hs : ∀ c ∈ s, c ≠ '\n' ∧ c ≠ '\r') :
    tokenize_and_build prior (line_comment s) =
      .ok ⟨[], [], [], [cstr (('/' :: '/' :: s).take 1023)]⟩ := by
  have hrw := read_while_stop (fun c => c != '\n') 1024 s '\n' [] ['/', '/'] 1
    (fun c hc => ⟨by simpa using (hs c hc).1, (hs c hc).2, (hs c hc).1⟩) (by decide) (by decide)
  have hbuf : s.foldl (buf_put 1024) ['/', '/'] = ('/' :: '/' :: s).take 1023 := by
    rw [foldl_buf_put 1024 s ['/', '/'] (by simp)]; rfl
  rw [hbuf] at hrw
  have hstep : scan_step '/' ('/' :: (s ++ ['\n'])) 1 ⟨[], [], [], []⟩ =
      .ok ([], 2, ⟨[], [], [], [cstr (('/' :: '/' :: s).take 1023)]⟩) := by
    have hg := getc_nl_cons '/' (s ++ ['\n']) 1 (by decide) (by decide)
    have hws : ¬ (('/' : Char) = ' ' ∨ ('/' : Char) = '\t' ∨ ('/' : Char) = '\x0b' ∨
        ('/' : Char) = '\x0c') := by decide
    unfold scan_step
    rw [if_neg hws, if_pos rfl]
    simp only [hg, if_true, hrw]
    rfl
  have hscan : scan_loop 2 (line_comment s) 1 ⟨[], [], [], []⟩ =
      .ok ⟨[], [], [], [cstr (('/' :: '/' :: s).take 1023)]⟩ := by
    unfold line_comment
    rw [scan_loop, getc_nl_cons _ _ _ (by decide) (by decide)]
    simp only [hstep]
    rfl
  have hfuel : 2 ≤ (line_comment s).length + 1 := by simp [line_comment]
  unfold tokenize_and_build State.reset
  rw [scan_loop_mono 2 _ _ _ _ _ hfuel hscan]
  rfl

/-- C18 (as amended).  For every text `s` containing no newline or carriage
return, scanning `//` + `s` + newline records exactly one comment and no
token; the comment text is `//` + `s` cut to the 1023 characters the comment
buffer holds and at the first NUL, hence `//` + `s` itself when `s` has at
most 1021 characters and no NUL. -/
theorem C18_line_comment (prior : State) (s : List Char)
    (hs : ∀ c ∈ s, c ≠ '\n' ∧ c ≠ '\r') :
    tokenize_and_build prior (line_comment s) =
      .ok ⟨[], [], [], [cstr (('/' :: '/' :: s).take 1023)]⟩ ∧
    (s.length ≤ 1021 → (∀ c ∈ s, c ≠ NUL) →
      cstr (('/' :: '/' :: s).take 1023) = '/' :: '/' :: s) := by
  refine ⟨run_line_comment prior s hs, fun hlen hnul => ?_⟩
  rw [List.take_of_length_le (by simp; omega)]
  apply cstr_eq_self
  intro c hc
  simp only [List.mem_cons] at hc
  rcases hc with rfl | rfl | h
  · decide
  · decide
  · exact hnul c h

/-- Witness of C18: the comment `// E1 test`. -/
theorem C18_line_comment_witness :
    (∀ c ∈ " E1 test".toList, c ≠ '\n' ∧ c ≠ '\r') ∧
    tokenize_and_build ⟨[], [], [], []⟩ "// E1 test\n".toList =
      .ok ⟨[], [], [], ["// E1 test".toList]⟩ :=
  ⟨by decide, (C18_line_comment ⟨[], [], [], []⟩ " E1 test".toList (by decide)).1⟩

/-- Counterexample to C18 as stated: for the text of 1022 letters `a` the
recorded comment is `//` followed by 1021 letters only; the last one is
dropped by the guard of the 1024-byte buffer. -/
theorem C18_counterexample :
    (∀ c ∈ List.replicate 1022 'a', c ≠ '\n' ∧ c ≠ '\r') ∧
    tokenize_and_build ⟨[], [], [], []⟩ (line_comment (List.replicate 1022 'a')) =
      .ok ⟨[], [], [], ['/' :: '/' :: List.replicate 1021 'a']⟩ ∧
    '/' :: '/' :: List.replicate 1021 'a' ≠ '/' :: '/' :: List.replicate 1022 'a' := by
  have hs : ∀ c ∈ List.replicate 1022 'a', c ≠ '\n' ∧ c ≠ '\r' := by
    intro c hc
    rw [List.eq_of_mem_replicate hc]
    decide
  refine ⟨hs, ?_, by decide!⟩
  rw [run_line_comment _ _ hs]
  have : cstr (('/' :: '/' :: List.replicate 1022 'a').take 1023) =
      '/' :: '/' :: List.replicate 1021 'a' := by decide!
  rw [this]

/-! ### Namespaces: claim C19 -/

theorem namespace_text_cases (p : List Char) (h : is_namespace_text p = true) :
    ∃ p0 ps, p = p0 :: ps ∧ isspace p0 = false ∧
      (∀ c ∈ p, c ≠ ';' ∧ c ≠ '\n' ∧ c ≠ '\r' ∧ c ≠ NUL) ∧
      (∀ hne : p ≠ [], isspace (p.getLast hne) = false) := by
  cases p with
  | nil => simp [is_namespace_text] at h
  | cons p0 ps =>
    simp only [is_namespace_text, List.isEmpty_cons, Bool.not_false, Bool.true_and,
      Bool.and_eq_true, List.all_eq_true, List.head?_cons, Bool.not_eq_true',
      bne_iff_ne, ne_eq] at h
    obtain ⟨⟨hall, hhead⟩, hlast⟩ := h
    refine ⟨p0, ps, rfl, hhead, ?_, ?_⟩
    · intro c hc
      have := hall c hc
      exact ⟨this.1.1.1, this.1.1.2, this.1.2, this.2⟩
    · intro hne
      rw [List.getLast?_eq_getLast _ hne] at hlast
      simpa using hlast

theorem scan_namespace_eq (p : List Char) (hp : is_namespace_text p = true)
    (hlen : p.length ≤ 511) (line : Nat) (st : State) (hroom : st.table.length < MAX_TOKENS) :
    scan_namespace (' ' :: (p ++ [';'])) line st = .ok ([], line, with_token st p 8 line) := by
  obtain ⟨p0, ps, rfl, hhead, hall, hlast⟩ := namespace_text_cases p hp
  have h0 := hall p0 (by simp)
  have hskip := read_while_stop (fun c => isspace c && c != '\n') 1 [' '] p0 (ps ++ [';']) []
    line (by simp; decide) (by simp [hhead]) h0.2.2.1
  have hb1 : ([' '] : List Char).foldl (buf_put 1) [] = [] := rfl
  have hnl : (if p0 = '\n' then line + 1 else line) = line := by simp [h0.2.1]
  rw [hb1, hnl, show [' '] ++ p0 :: (ps ++ [';']) = ' ' :: p0 :: (ps ++ [';']) from rfl]
    at hskip
  have hcap := read_while_stop (fun c => c != '\n' && c != ';') 512 ps ';' [] [p0] line
    (fun c hc => by
      have := hall c (by simp [hc])
      simp [this.1, this.2.1, this.2.2.1]) (by decide) (by decide)
  have hbuf : ps.foldl (buf_put 512) [p0] = p0 :: ps := by
    rw [foldl_buf_put 512 ps [p0] (by simp)]
    exact List.take_of_length_le (by simpa using hlen)
  have hnl2 : (if (';' : Char) = '\n' then line + 1 else line) = line := by simp
  rw [hbuf, hnl2] at hcap
  have hput : put_while (fun c => c != '\n' && c != ';') 512 [] (some p0) (ps ++ [';']) line =
      (p0 :: ps, some ';', [], line) := by
    have hc0 : (fun c : Char => c != '\n' && c != ';') p0 = true := by
      simp [h0.1, h0.2.1]
    simp only [put_while, hc0, if_true]
    exact hcap
  have htrim : ((p0 :: ps).dropWhile isspace).rdropWhile isspace = p0 :: ps := by
    have hd : (p0 :: ps).dropWhile isspace = p0 :: ps := by
      simp [List.dropWhile, hhead]
    rw [hd, List.rdropWhile_eq_self_iff]
    intro hne
    simp [hlast hne]
  have hpush := push_token_ok st (p0 :: ps) 8 line hroom (by simp at hlen ⊢; omega)
    (fun c hc => (hall c hc).2.2.2)
  have hne1 : ¬ ((some p0 : Option Char) = some '\n' ∨ (some p0 : Option Char) = none) := by
    simp [h0.2.1]
  unfold scan_namespace
  simp only [List.cons_append, hskip, hne1, if_false, hput, htrim, hpush]
  simp

theorem scan_word_namespace (c : Char) (cs rest : List Char) (line : Nat) (st : State)
    (hc : is_word_start c = true) (hcs : ∀ e ∈ cs, is_word_char e = true)
    (hl : 1 ≤ line) (hroom : st.table.length < MAX_TOKENS)
    (hkw : c :: cs = "package".toList ∨ c :: cs = "import".toList) :
    scan_word c (cs ++ ' ' :: rest) line st =
      scan_namespace (' ' :: rest) line (with_token st (c :: cs) 1 line) := by
  have hfacts : isKeyword (c :: cs) = true ∧ (c :: cs).length ≤ 8 ∧
      ((c :: cs) == "package".toList || (c :: cs) == "import".toList) = true := by
    rcases hkw with h | h <;> rw [h] <;> decide
  have hrw := read_while_stop is_word_char 512 cs ' ' rest [c] line
    (fun e he => ⟨hcs e he, (word_char_ne e (hcs e he)).2⟩) (by decide) (by decide)
  have hbuf : cs.foldl (buf_put 512) [c] = c :: cs := by
    rw [foldl_buf_put 512 cs [c] (by simp)]
    exact List.take_of_length_le (by have := hfacts.2.1; simp at this ⊢; omega)
  rw [hbuf] at hrw
  have hnul : ∀ e ∈ c :: cs, e ≠ NUL := by
    intro e he
    rcases List.mem_cons.mp he with rfl | h
    · exact (word_char_ne _ (word_start _ hc)).1
    · exact (word_char_ne e (hcs e h)).1
  have hpush := push_token_ok st (c :: cs) 1 line hroom
    (by have := hfacts.2.1; omega) hnul
  unfold scan_word
  simp only [hrw, ungetc_after_read ' ' rest line (by decide) hl, hfacts.1, if_true, hpush,
    hfacts.2.2, Bool.and_self]

theorem run_namespace_stmt (prior : State) (kw p : List Char)
    (hkw : kw = "package".toList ∨ kw = "import".toList)
    (hp : is_namespace_text p = true) (hlen : p.length ≤ 511) :
    tokenize_and_build prior (namespace_stmt kw p) =
      .ok ⟨[⟨kw, 1, 1⟩, ⟨p, 8, 1⟩], [], [], []⟩ := by
  have hshape : ∃ c cs, kw = c :: cs ∧ is_word_start c = true ∧
      (∀ e ∈ cs, is_word_char e = true) := by
    rcases hkw with rfl | rfl
    · exact ⟨'p', "ackage".toList, rfl, by decide, by decide⟩
    · exact ⟨'i', "mport".toList, rfl, by decide, by decide⟩
  obtain ⟨c, cs, rfl, hc, hcs⟩ := hshape
  have hw := word_char_ne c (word_start c hc)
  have hscan : scan_loop 2 (namespace_stmt (c :: cs) p) 1 ⟨[], [], [], []⟩ =
      .ok ⟨[⟨c :: cs, 1, 1⟩, ⟨p, 8, 1⟩], [], [], []⟩ := by
    unfold namespace_stmt
    rw [List.cons_append, scan_loop, getc_nl_cons _ _ _ hw.2.1 hw.2.2]
    have h1 := scan_word_namespace c cs (p ++ [';']) 1 ⟨[], [], [], []⟩ hc hcs (by decide)
      (by simp [MAX_TOKENS]) hkw
    have h2 := scan_namespace_eq p hp hlen 1 (with_token ⟨[], [], [], []⟩ (c :: cs) 1 1)
      (by simp [MAX_TOKENS, with_token])
    simp only [scan_step_word c _ 1 _ hc, h1, h2]
    rfl
  have hfuel : 2 ≤ (namespace_stmt (c :: cs) p).length + 1 := by simp [namespace_stmt]
  have hkot : ∀ st : State, st = ⟨[⟨c :: cs, 1, 1⟩, ⟨p, 8, 1⟩], [], [], []⟩ →
      (List.range st.table.length).foldl kotlin_step st = st := by
    intro st hst
    subst hst
    simp only [List.length_cons, List.length_nil]
    rw [show List.range (0 + 1 + 1) = [0, 1] from rfl]
    simp only [List.foldl_cons, List.foldl_nil]
    have hnv : c :: cs ≠ "var".toList ∧ c :: cs ≠ "val".toList := by
      rcases hkw with h | h <;> rw [h] <;> decide
    rw [kotlin_step_skip ⟨[⟨c :: cs, 1, 1⟩, ⟨p, 8, 1⟩], [], [], []⟩ 0 (Or.inr hnv),
      kotlin_step_skip ⟨[⟨c :: cs, 1, 1⟩, ⟨p, 8, 1⟩], [], [], []⟩ 1
        (Or.inl (by simp [tokAt]))]
  unfold tokenize_and_build State.reset
  rw [scan_loop_mono 2 _ _ _ _ _ hfuel hscan]
  simp only []
  rw [hkot _ rfl]

/-- C19 (as amended).  For `kw` one of `package`, `import` and every
non-empty text `p` of at most 511 characters that contains no `;`, newline,
carriage return or NUL and has no white space at either end, scanning
`kw p;` yields exactly two tokens on line 1: `kw` of class Keyword (1)
followed by one token of class Namespace (8) with lexeme `p`; the `;` gives
no token and nothing else is recorded. -/
theorem C19_namespace_capture (prior : State) (kw p : List Char)
    (hkw : kw = "package".toList ∨ kw = "import".toList)
    (hp : is_namespace_text p = true) (hlen : p.length ≤ 511) :
    tokenize_and_build prior (namespace_stmt kw p) =
      .ok ⟨[⟨kw, 1, 1⟩, ⟨p, 8, 1⟩], [], [], []⟩ :=
  run_namespace_stmt prior kw p hkw hp hlen

/-- Witness of C19: `import java.util.List;`. -/
theorem C19_namespace_capture_witness :
    ("import".toList = "package".toList ∨ "import".toList = "import".toList) ∧
    is_namespace_text "java.util.List".toList = true ∧
    "java.util.List".toList.length ≤ 511 ∧
    tokenize_and_build ⟨[], [], [], []⟩ "import java.util.List;".toList =
      .ok ⟨[⟨"import".toList, 1, 1⟩, ⟨"java.util.List".toList, 8, 1⟩], [], [], []⟩ :=
  ⟨by decide, by decide, by decide,
    C19_namespace_capture ⟨[], [], [], []⟩ "import".toList "java.util.List".toList
      (by decide) (by decide) (by decide)⟩

/-- Counterexample to C19 as stated: for the text `p` of 512 letters `a`,
`import p;` gives a Namespace token of 511 letters, not `p`: the capture
buffer of 512 bytes drops the last one. -/
theorem C19_counterexample :
    is_namespace_text (List.replicate 512 'a') = true ∧
    tokenize_and_build ⟨[], [], [], []⟩
        (namespace_stmt "import".toList (List.replicate 512 'a')) =
      .ok ⟨[⟨"import".toList, 1, 1⟩, ⟨List.replicate 511 'a', 8, 1⟩], [], [], []⟩ ∧
    List.replicate 511 'a' ≠ List.replicate 512 'a' := by
  refine ⟨by decide!, ?_, by decide!⟩
  simp only [tokenize_and_build, State.reset]
  decide!

/-! ### The per-token checks of pass 2: claims C11 and C12 -/

theorem pass2_before_table (st : State) (i : Nat) :
    (pass2_before st i).table = st.table ∧ (pass2_before st i).decls = st.decls :=
  pass2_fold_table _ _

theorem pass2_e2_eq (i : Nat) (pre : State) (table : List Symbol) (decls : List Decl)
    (ht : pre.table = table) (hd : pre.decls = decls) :
    pass2_e2 i pre =
      if (tokAt table i).attr = 2 ∧ isDeclared decls (tokAt table i).token = false ∧
          similarToKeyword (tokAt table i).token = true ∧
          ¬ (i > 0 ∧ (tokAt table (i - 1)).attr = 1) ∧
          pre.errors.length < MAX_ERRORS then
        with_error pre ((text_misspelled (tokAt table i).token).take 255) (tokAt table i).line
      else pre := by
  unfold pass2_e2
  simp only [ht, hd, msg_misspelled, report_msg_eq]
  by_cases h1 : (tokAt table i).attr = 2 <;>
  by_cases h2 : isDeclared decls (tokAt table i).token = true <;>
  by_cases h3 : similarToKeyword (tokAt table i).token = true <;>
  by_cases h4 : (i > 0 ∧ (tokAt table (i - 1)).attr = 1) <;>
  by_cases h5 : pre.errors.length < MAX_ERRORS <;> simp [h1, h2, h3, h4, h5]

/-- C12 (as amended).  In pass 2, for every token position `i`, the section
E2 of turn `i` appends one MisspelledKeyword diagnostic for token `i`, at that
token's line and with the first 255 characters of
`E2-MisspelledKeyword: 'lexeme' resembles a keyword`, if and only if token `i`
has class Identifier (2), its lexeme is not in the declaration table, its
lexeme is keyword-like, the preceding token (if any) is not of class
Keyword (1), and fewer than 6000 diagnostics are recorded at that point;
otherwise it appends nothing. -/
theorem C12_misspelled_keyword (st : State) (i : Nat) :
    pass2_e2 i (pass2_before st i) =
      if (tokAt st.table i).attr = 2 ∧ isDeclared st.decls (tokAt st.table i).token = false ∧
          similarToKeyword (tokAt st.table i).token = true ∧
          ¬ (i > 0 ∧ (tokAt st.table (i - 1)).attr = 1) ∧
          (pass2_before st i).errors.length < MAX_ERRORS then
        { pass2_before st i with
          errors := (pass2_before st i).errors ++
            [⟨(text_misspelled (tokAt st.table i).token).take 255, (tokAt st.table i).line⟩] }
      else pass2_before st i :=
  pass2_e2_eq i _ st.table st.decls (pass2_before_table st i).1 (pass2_before_table st i).2

/-! ### A run of identical undeclared identifiers -/

theorem record_word_plain (st : State) (w : List Char) (line : Nat)
    (hprev : ∀ t ∈ st.table, t.attr ≠ 1) (hk : isKeyword w = false) :
    record_word st w line = with_token st w 2 line := by
  have hall : ∀ j, (tokAt (st.table ++ [⟨w, 2, line⟩]) j).attr ≠ 1 := by
    intro j
    rcases tokAt_mem (st.table ++ [⟨w, 2, line⟩]) j with h | h
    · rcases List.mem_append.mp h with h1 | h1
      · exact hprev _ h1
      · rw [List.mem_singleton.mp h1]; simp
    · rw [h]; simp
  unfold record_word
  simp only [hk, Bool.false_eq_true, if_false, hall, false_and, and_false, with_token]

theorem scan_words (c : Char) (cs : List Char) (hc : is_word_start c = true)
    (hcs : ∀ e ∈ cs, is_word_char e = true) (hk : isKeyword (c :: cs) = false)
    (hlen : (c :: cs).length ≤ 511) (n : Nat) :
    ∀ (f : Nat) (st : State), 2 * n < f → st.table.length + n ≤ MAX_TOKENS →
      (∀ t ∈ st.table, t.attr ≠ 1) →
      scan_loop f (repeat_word (c :: cs) n) 1 st =
        .ok { st with table := st.table ++ List.replicate n ⟨c :: cs, 2, 1⟩ } := by
  have h511 : (c :: cs).take 511 = c :: cs := List.take_of_length_le hlen
  induction n with
  | zero =>
    intro f st hf _ _
    obtain ⟨f, rfl⟩ : ∃ k, f = k + 1 := ⟨f - 1, by omega⟩
    simp [repeat_word, scan_loop, getc_nl]
  | succ n ih =>
    intro f st hf hroom hprev
    obtain ⟨f, rfl⟩ : ∃ k, f = k + 2 := ⟨f - 2, by omega⟩
    have hprev2 : ∀ t ∈ (with_token st (c :: cs) 2 1).table, t.attr ≠ 1 := by
      intro t ht
      rcases List.mem_append.mp ht with h1 | h1
      · exact hprev t h1
      · rw [List.mem_singleton.mp h1]; simp
    rw [repeat_word, List.cons_append,
      scan_loop_word (f + 1) c cs ' ' _ 1 st hc hcs (by decide) (by decide) (by decide)
        (by omega) (by rw [h511]; exact not_keyword_not_namespace _ hk),
      h511, record_word_plain st _ 1 hprev hk, scan_loop_space,
      ih f _ (by omega) (by simp [with_token]; omega) hprev2]
    simp [with_token, List.replicate_succ]

theorem repeat_word_length (w : List Char) (n : Nat) :
    (repeat_word w n).length = n * (w.length + 1) := by
  induction n with
  | zero => simp [repeat_word]
  | succ n ih => simp [repeat_word, ih]; ring

theorem pass2_fold_reports (k : Nat) (l : List Nat) (st : State)
    (hstep : ∀ st2 : State, st2.table = st.table → st2.decls = st.decls →
      st2.errors.length ≤ MAX_ERRORS → ∀ i ∈ l,
      (pass2_step st2 i).errors.length = min (st2.errors.length + k) MAX_ERRORS)
    (he : st.errors.length ≤ MAX_ERRORS) :
    (l.foldl pass2_step st).errors.length = min (st.errors.length + k * l.length) MAX_ERRORS := by
  induction l generalizing st with
  | nil => simp [Nat.min_eq_left he]
  | cons i l ih =>
    have h1 := hstep st rfl rfl he i (by simp)
    have htb := pass2_step_table st i
    rw [List.foldl_cons, ih (pass2_step st i)
      (fun st2 h2t h2d h2e j hj =>
        hstep st2 (h2t.trans htb.1) (h2d.trans htb.2) h2e j (by simp [hj]))
      (by rw [h1]; exact Nat.min_le_right _ _), h1, List.length_cons, Nat.mul_succ]
    simp only [Nat.min_def]
    split_ifs <;> omega

theorem pass2_step_word (w : List Char) (n : Nat) (st : State) (i : Nat) (hi : i < n)
    (ht : st.table = List.replicate n ⟨w, 2, 1⟩) (hd : st.decls = [])
    (hrel : isRelOp w = false) (hne : w ≠ "=".toList) (he : st.errors.length ≤ MAX_ERRORS) :
    (pass2_step st i).errors.length =
      min (st.errors.length + (if similarToKeyword w = true then 2 else 1)) MAX_ERRORS := by
  have hall : ∀ j, tokAt st.table j = ⟨w, 2, 1⟩ ∨ tokAt st.table j = ⟨[], 0, 0⟩ := by
    intro j
    rcases tokAt_mem st.table j with h | h
    · have h2 : tokAt st.table j ∈ List.replicate n (⟨w, 2, 1⟩ : Symbol) := by
        rw [← ht]; exact h
      exact Or.inl (List.eq_of_mem_replicate h2)
    · exact Or.inr h
  have hti : tokAt st.table i = ⟨w, 2, 1⟩ := by rw [ht]; exact tokAt_replicate n i _ hi
  have hprev : ¬ (i > 0 ∧ (tokAt st.table (i - 1)).attr = 1) := by
    rintro ⟨_, h⟩
    rcases hall (i - 1) with h1 | h1 <;> rw [h1] at h <;> simp at h
  have hnext : (tokAt st.table (i + 1)).token ≠ "=".toList := by
    rcases hall (i + 1) with h1 | h1 <;> rw [h1]
    · exact hne
    · decide
  have h2 : pass2_e2 i st = if similarToKeyword w = true then
      report_error (msg_misspelled w) 1 st else st := by
    unfold pass2_e2
    simp only [hti, hd, isDeclared, List.any_nil, Bool.not_false, Bool.true_and, hprev,
      not_false_eq_true, if_true]
  have h3 : ∀ s2 : State, s2.table = st.table → s2.decls = st.decls →
      pass2_e3 i s2 = report_error (msg_undeclared w) 1 s2 := by
    intro s2 h2t h2d
    have hprev3 : ¬ (i > 0 ∧ (tokAt st.table (i - 1)).attr = 1 ∧
        ((tokAt st.table (i - 1)).token = "var".toList ∨
        (tokAt st.table (i - 1)).token = "val".toList ∨
        isKeyword (tokAt st.table (i - 1)).token = true)) :=
      fun h => hprev ⟨h.1, h.2.1⟩
    unfold pass2_e3
    simp only [h2t, h2d, hti, hd, isDeclared, List.any_nil, hprev3, not_false_eq_true,
      and_self, if_true]
  have h1 : ∀ s2 : State, s2.table = st.table → pass2_e1 i s2 = s2 := by
    intro s2 h2t
    unfold pass2_e1
    rw [if_neg]
    rintro ⟨_, h, _⟩
    rw [h2t] at h
    exact hnext h
  have h4 : ∀ s2 : State, s2.table = st.table → pass2_e4 i s2 = s2 := by
    intro s2 h2t
    unfold pass2_e4
    simp only [h2t, hti, hrel, Bool.false_eq_true, if_false]
  have hA := pass2_e2_table i st
  have hB := pass2_e3_table i (pass2_e2 i st)
  have hC := pass2_e1_table i (pass2_e3 i (pass2_e2 i st))
  unfold pass2_step
  rw [h4 _ (hC.1.trans (hB.1.trans hA.1)), h1 _ (hB.1.trans hA.1), h3 _ hA.1 hA.2, h2]
  by_cases hs : similarToKeyword w = true
  · rw [if_pos hs, if_pos hs]
    rw [report_error_length _ _ _ (by rw [report_error_length _ _ _ he]; exact Nat.min_le_right _ _),
      report_error_length _ _ _ he]
    simp only [Nat.min_def]
    split_ifs <;> omega
  · rw [if_neg hs, if_neg hs, report_error_length _ _ _ he]

theorem run_words (prior : State) (c : Char) (cs : List Char) (hc : is_word_start c = true)
    (hcs : ∀ e ∈ cs, is_word_char e = true) (hk : isKeyword (c :: cs) = false)
    (hlen : (c :: cs).length ≤ 511) (n : Nat) (hn : n ≤ MAX_TOKENS) :
    ∃ st, analysis_run prior (repeat_word (c :: cs) n) = .ok st ∧
      st.table = List.replicate n ⟨c :: cs, 2, 1⟩ ∧ st.decls = [] ∧
      st.errors.length =
        min ((if similarToKeyword (c :: cs) = true then 2 else 1) * n) MAX_ERRORS := by
  have hscan : scan_loop ((repeat_word (c :: cs) n).length + 1) (repeat_word (c :: cs) n) 1
      ⟨[], [], [], []⟩ = .ok ⟨List.replicate n ⟨c :: cs, 2, 1⟩, [], [], []⟩ := by
    rw [scan_words c cs hc hcs hk hlen n _ ⟨[], [], [], []⟩
      (by rw [repeat_word_length]; simp; nlinarith) (by simpa using hn) (by simp)]
    rfl
  have hkot : (List.range n).foldl kotlin_step ⟨List.replicate n ⟨c :: cs, 2, 1⟩, [], [], []⟩ =
      ⟨List.replicate n ⟨c :: cs, 2, 1⟩, [], [], []⟩ := by
    apply kotlin_fold_skip
    intro j
    rcases tokAt_mem (List.replicate n (⟨c :: cs, 2, 1⟩ : Symbol)) j with h | h
    · rw [List.eq_of_mem_replicate h]; simp
    · simp only [h]; simp
  have hid : is_identifier (c :: cs) = true := by
    simp only [is_identifier, hc, Bool.true_and, List.all_eq_true]
    exact hcs
  have hrel := identifier_not_relop _ hid
  have hfold := pass2_fold_reports (if similarToKeyword (c :: cs) = true then 2 else 1)
    (List.range n) ⟨List.replicate n ⟨c :: cs, 2, 1⟩, [], [], []⟩
    (fun st2 h2t h2d h2e i hi =>
      pass2_step_word (c :: cs) n st2 i (List.mem_range.mp hi) h2t h2d hrel.1 hrel.2.1 h2e)
    (Nat.zero_le _)
  have htab := pass2_fold_table (List.range n) ⟨List.replicate n ⟨c :: cs, 2, 1⟩, [], [], []⟩
  refine ⟨(List.range n).foldl pass2_step ⟨List.replicate n ⟨c :: cs, 2, 1⟩, [], [], []⟩, ?_,
    htab.1, htab.2, ?_⟩
  · simp only [analysis_run, tokenize_and_build, State.reset, hscan, hkot, detect_errors_pass2,
      List.length_replicate]
  · rw [hfold]
    simp

/-- Counterexample to C12 as stated: the text of 6001 words `itn` gives 6001
identifier tokens `itn`, none declared, each keyword-like (two substitutions
from `int`) and none preceded by a keyword, but pass 2 records 6000
diagnostics in all, so not every one of them gets its MisspelledKeyword. -/
theorem C12_counterexample :
    similarToKeyword "itn".toList = true ∧
    (analysis_run ⟨[], [], [], []⟩ (repeat_word "itn".toList 6001)).map
      (fun st => (st.table.length, st.table.all (fun t => t == ⟨"itn".toList, 2, 1⟩),
        st.decls, st.errors.length)) = .ok (6001, true, [], 6000) := by
  have hsim : similarToKeyword "itn".toList = true := by decide
  obtain ⟨st, hrun, htab, hdec, herr⟩ := run_words ⟨[], [], [], []⟩ 'i' ['t', 'n']
    (by decide) (by decide) (by decide) (by decide) 6001 (by decide)
  have hall : st.table.all (fun t => t == ⟨"itn".toList, 2, 1⟩) = true := by
    rw [htab, List.all_eq_true]
    intro t ht
    rw [List.eq_of_mem_replicate ht]
    decide
  have hlen : st.table.length = 6001 := by rw [htab, List.length_replicate]
  have herr2 : st.errors.length = 6000 := by
    rw [herr, if_pos (show similarToKeyword ['i', 't', 'n'] = true from hsim)]; decide
  refine ⟨hsim, ?_⟩
  rw [show repeat_word "itn".toList 6001 = repeat_word ['i', 't', 'n'] 6001 from rfl, hrun]
  simp only [Except.map, hall, hlen, herr2, hdec]

/-! ### What every scanned token satisfies -/

theorem getc_nl_spec (fp : List Char) (line : Nat) :
    (getc_nl fp line).2.1.length + held (getc_nl fp line).1 ≤ fp.length ∧
      (∀ c, (getc_nl fp line).1 = some c → c ≠ '\r') := by
  induction fp with
  | nil => simp [getc_nl, held]
  | cons c cs ih =>
    unfold getc_nl
    by_cases hr : c = '\r'
    · simp only [hr, if_true]
      exact ⟨by have := ih.1; simp only [List.length_cons]; omega, ih.2⟩
    · by_cases hn : c = '\n'
      · simp [hr, hn, held]
      · simp [hr, hn, held]

theorem ungetc_nl_length (c : Option Char) (fp : List Char) (line : Nat) :
    (ungetc_nl c fp line).1.length ≤ fp.length + held c := by
  unfold ungetc_nl
  cases c with
  | none => simp [held]
  | some c =>
    simp only [held]
    split_ifs <;> simp

theorem buf_put_spec (cap : Nat) (buf : List Char) (c : Char) :
    buf_put cap buf c = buf ∨ buf_put cap buf c = buf ++ [c] := by
  unfold buf_put
  split_ifs
  · exact Or.inr rfl
  · exact Or.inl rfl

theorem read_while_spec (cond : Char → Bool) (cap : Nat) (fp : List Char) :
    ∀ (buf : List Char) (line : Nat),
      (read_while cond cap buf fp line).2.2.1.length +
          held (read_while cond cap buf fp line).2.1 ≤ fp.length ∧
        ∃ xs, (read_while cond cap buf fp line).1 = buf ++ xs ∧
          ∀ x ∈ xs, cond x = true := by
  induction fp with
  | nil => intro buf line; exact ⟨by simp [read_while, held], [], by simp [read_while], by simp⟩
  | cons c cs ih =>
    intro buf line
    unfold read_while
    by_cases hr : c = '\r'
    · simp only [hr, if_true]
      exact ⟨by have := (ih buf line).1; simp only [List.length_cons]; omega, (ih buf line).2⟩
    · simp only [hr, if_false]
      by_cases hc : cond c = true
      · simp only [hc, if_true]
        have h := ih (buf_put cap buf c) (if c = '\n' then line + 1 else line)
        refine ⟨by have := h.1; simp only [List.length_cons]; omega, ?_⟩
        obtain ⟨xs, hxs, hall⟩ := h.2
        rcases buf_put_spec cap buf c with hb | hb
        · exact ⟨xs, by rw [hxs, hb], hall⟩
        · refine ⟨c :: xs, by rw [hxs, hb]; simp, ?_⟩
          intro x hx
          rcases List.mem_cons.mp hx with rfl | h2
          · exact hc
          · exact hall x h2
      · simp only [hc, Bool.false_eq_true, if_false]
        exact ⟨by simp [held], [], by simp, by simp⟩

theorem put_while_spec (cond : Char → Bool) (cap : Nat) (buf : List Char) (c : Option Char)
    (fp : List Char) (line : Nat) :
    (put_while cond cap buf c fp line).2.2.1.length +
        held (put_while cond cap buf c fp line).2.1 ≤ fp.length + held c ∧
      ∃ xs, (put_while cond cap buf c fp line).1 = buf ++ xs ∧ ∀ x ∈ xs, cond x = true := by
  unfold put_while
  cases c with
  | none => exact ⟨by simp [held], [], by simp, by simp⟩
  | some ch =>
    simp only
    by_cases hc : cond ch = true
    · simp only [hc, if_true]
      have h := read_while_spec cond cap fp (buf_put cap buf ch) line
      refine ⟨by have := h.1; simp only [held] at this ⊢; omega, ?_⟩
      obtain ⟨xs, hxs, hall⟩ := h.2
      rcases buf_put_spec cap buf ch with hb | hb
      · exact ⟨xs, by rw [hxs, hb], hall⟩
      · refine ⟨ch :: xs, by rw [hxs, hb]; simp, ?_⟩
        intro x hx
        rcases List.mem_cons.mp hx with rfl | h2
        · exact hc
        · exact hall x h2
    · simp only [hc, Bool.false_eq_true, if_false]
      exact ⟨by simp [held], [], by simp, by simp⟩

theorem block_comment_loop_length (fp : List Char) :
    ∀ (prev : Char) (buf : List Char) (line : Nat),
      (block_comment_loop prev buf fp line).2.1.length ≤ fp.length := by
  induction fp with
  | nil => intro prev buf line; simp [block_comment_loop]
  | cons c cs ih =>
    intro prev buf line
    unfold block_comment_loop
    split_ifs <;> first
      | (simp only [List.length_cons]; exact Nat.le_succ_of_le (ih _ _ _))
      | simp

theorem string_loop_length (fp : List Char) :
    ∀ (esc : Bool) (buf : List Char) (line : Nat),
      (string_loop esc buf fp line).2.2.1.length ≤ fp.length := by
  induction fp with
  | nil => intro esc buf line; simp [string_loop]
  | cons c cs ih =>
    intro esc buf line
    unfold string_loop
    split_ifs <;> first
      | (simp only [List.length_cons]; exact Nat.le_succ_of_le (ih _ _ _))
      | simp

theorem step_ok_same (fp fp2 : List Char) (line2 : Nat) (st : State)
    (h : fp2.length ≤ fp.length) : step_ok fp st (.ok (fp2, line2, st)) :=
  ⟨h, [], by simp, by simp⟩

theorem step_ok_push (fp fp2 : List Char) (line2 : Nat) (st : State) (buf : List Char)
    (attr line : Nat) (h : fp2.length ≤ fp.length)
    (hok : token_ok ⟨cstr buf, attr, line⟩) :
    step_ok fp st
      (match push_token st buf attr line with
       | .ok st1 => .ok (fp2, line2, st1)
       | .error e => .error e) := by
  unfold push_token
  split_ifs
  · refine ⟨h, [⟨cstr buf, attr, line⟩], rfl, ?_⟩
    intro t ht
    rw [List.mem_singleton.mp ht]
    exact hok
  · rfl

theorem token_ok_other (tok : List Char) (attr line : Nat) (h1 : attr ≠ 1) (h3 : attr ≠ 3) :
    token_ok ⟨tok, attr, line⟩ :=
  ⟨fun h => absurd h h1, fun h => absurd h h3⟩

theorem scan_namespace_ok (fp : List Char) (line : Nat) (st : State) :
    step_ok fp st (scan_namespace fp line st) := by
  unfold scan_namespace
  have hrw := (read_while_spec (fun c => isspace c && c != '\n') 1 fp [] line).1
  generalize read_while (fun c => isspace c && c != '\n') 1 [] fp line = r at hrw ⊢
  obtain ⟨b, pch, fp1, line1⟩ := r
  simp only at hrw ⊢
  split_ifs
  · apply step_ok_same
    have := ungetc_nl_length pch fp1 line1
    omega
  · have hpw := (put_while_spec (fun c => c != '\n' && c != ';') 512 [] pch fp1 line1).1
    generalize put_while (fun c => c != '\n' && c != ';') 512 [] pch fp1 line1 = r2 at hpw ⊢
    obtain ⟨nb, c2, fp2, line2⟩ := r2
    simp only at hpw ⊢
    exact step_ok_push fp fp2 line2 st _ 8 line2 (by omega) (token_ok_other _ _ _ (by decide) (by decide))
  · have hpw := (put_while_spec (fun c => c != '\n' && c != ';') 512 [] pch fp1 line1).1
    generalize put_while (fun c => c != '\n' && c != ';') 512 [] pch fp1 line1 = r2 at hpw ⊢
    obtain ⟨nb, c2, fp2, line2⟩ := r2
    simp only at hpw ⊢
    apply step_ok_same
    omega

theorem keyword_cstr (w : List Char) (h : isKeyword w = true) : cstr w = w := by
  simp only [isKeyword, List.any_eq_true, beq_iff_eq] at h
  obtain ⟨k, hk, rfl⟩ := h
  have hall : ∀ k ∈ keywords, cstr k = k := by decide
  exact hall _ hk

theorem add_decl_table (name type : List Char) (line : Nat) (st : State) :
    (add_decl name type line st).table = st.table ∧
      (add_decl name type line st).errors = st.errors ∧
      (add_decl name type line st).comments = st.comments := by
  unfold add_decl
  split_ifs <;> exact ⟨rfl, rfl, rfl⟩

theorem step_ok_append (fp fp1 : List Char) (st st1 : State) (tok : Symbol)
    (r : Except Fault (List Char × Nat × State))
    (hlen : fp1.length ≤ fp.length) (ht : st1.table = st.table ++ [tok]) (hok : token_ok tok)
    (h : step_ok fp1 st1 r) : step_ok fp st r := by
  cases r with
  | error e => exact h
  | ok v =>
    obtain ⟨fp2, line2, st2⟩ := v
    obtain ⟨h1, new, h2, h3⟩ := h
    refine ⟨Nat.le_trans h1 hlen, tok :: new, by rw [h2, ht]; simp, ?_⟩
    intro t htm
    rcases List.mem_cons.mp htm with rfl | h4
    · exact hok
    · exact h3 t h4

theorem push_token_inv (st st1 : State) (buf : List Char) (attr line : Nat)
    (h : push_token st buf attr line = .ok st1) :
    st1.table = st.table ++ [⟨cstr buf, attr, line⟩] := by
  unfold push_token at h
  split_ifs at h
  · cases h
    rfl

theorem scan_word_ok (ch : Char) (fp : List Char) (line : Nat) (st : State) :
    step_ok fp st (scan_word ch fp line st) := by
  unfold scan_word
  have hrw := (read_while_spec is_word_char 512 fp [ch] line).1
  generalize read_while is_word_char 512 [ch] fp line = r at hrw ⊢
  obtain ⟨buf, c2, fp1, line1⟩ := r
  simp only at hrw ⊢
  have hun := ungetc_nl_length c2 fp1 line1
  generalize ungetc_nl c2 fp1 line1 = u at hun ⊢
  obtain ⟨fp2, line2⟩ := u
  simp only at hun ⊢
  have hlen : fp2.length ≤ fp.length := by omega
  have hok : token_ok ⟨cstr buf, if isKeyword buf = true then 1 else 2, line2⟩ := by
    constructor
    · intro h
      by_cases hk : isKeyword buf = true
      · rw [keyword_cstr buf hk]; exact hk
      · simp [hk] at h
    · intro h
      by_cases hk : isKeyword buf = true <;> simp [hk] at h
  generalize (if isKeyword buf = true then 1 else 2) = a at hok ⊢
  cases hp : push_token st buf a line2 with
  | error e =>
    unfold push_token at hp
    split_ifs at hp
    cases hp
    rfl
  | ok st1 =>
    have ht := push_token_inv st st1 buf a line2 hp
    simp only
    by_cases hns : (isKeyword buf && (buf == "package".toList || buf == "import".toList)) = true
    · rw [if_pos hns]
      exact step_ok_append fp fp2 st st1 _ _ hlen ht hok (scan_namespace_ok fp2 line2 st1)
    · rw [if_neg hns]
      have hnew : ∀ t ∈ [(⟨cstr buf, a, line2⟩ : Symbol)], token_ok t := by
        intro t htm
        rw [List.mem_singleton.mp htm]
        exact hok
      split_ifs
      · exact ⟨hlen, _, by rw [(add_decl_table _ _ _ _).1, ht], hnew⟩
      · exact ⟨hlen, _, ht, hnew⟩

theorem no_nul_of (p : Char → Bool) (hp : p NUL = false) (xs : List Char)
    (h : ∀ x ∈ xs, p x = true) : ∀ x ∈ xs, x ≠ NUL :=
  fun x hx => ne_of_pred (h x hx) hp

theorem dropWhile_all (p : Char → Bool) (xs ys : List Char) (h : ∀ x ∈ xs, p x = true) :
    (xs ++ ys).dropWhile p = ys.dropWhile p := by
  induction xs with
  | nil => rfl
  | cons x xs ih =>
    rw [List.cons_append, List.dropWhile_cons, if_pos (h x (by simp))]
    exact ih (fun y hy => h y (by simp [hy]))

theorem number_shape_of (ch : Char) (xs ys : List Char) (hc : isdigit ch = true)
    (hxs : ∀ x ∈ xs, is_number_char x = true) (hys : ∀ y ∈ ys, isalpha y = true) :
    number_shape (cstr (ch :: (xs ++ ys))) = true := by
  have hnul : ∀ c ∈ ch :: (xs ++ ys), c ≠ NUL := by
    intro c hcm
    simp only [List.mem_cons, List.mem_append] at hcm
    rcases hcm with rfl | h | h
    · exact ne_of_pred hc (by decide)
    · exact ne_of_pred (hxs c h) (by decide)
    · exact ne_of_pred (hys c h) (by decide)
  rw [cstr_eq_self _ hnul]
  simp only [number_shape, hc, Bool.true_and]
  rw [dropWhile_all is_number_char xs ys hxs, List.all_eq_true]
  intro y hy
  exact hys y ((List.dropWhile_sublist is_number_char).subset hy)

theorem scan_number_ok (ch : Char) (fp : List Char) (line : Nat) (st : State)
    (hc : isdigit ch = true) : step_ok fp st (scan_number ch fp line st) := by
  unfold scan_number
  have hrw := read_while_spec is_number_char 512 fp [ch] line
  generalize read_while is_number_char 512 [ch] fp line = r at hrw ⊢
  obtain ⟨buf, c2, fp1, line1⟩ := r
  simp only at hrw ⊢
  obtain ⟨hlen1, xs, hbuf, hxs⟩ := hrw
  have hpw := put_while_spec isalpha 512 buf c2 fp1 line1
  generalize put_while isalpha 512 buf c2 fp1 line1 = r2 at hpw ⊢
  obtain ⟨buf1, c3, fp2, line2⟩ := r2
  simp only at hpw ⊢
  obtain ⟨hlen2, ys, hbuf1, hys⟩ := hpw
  have hun := ungetc_nl_length c3 fp2 line2
  generalize ungetc_nl c3 fp2 line2 = u at hun ⊢
  obtain ⟨fp3, line3⟩ := u
  simp only at hun ⊢
  apply step_ok_push fp fp3 line3 st buf1 3 line3 (by omega)
  refine ⟨fun h => absurd h (by simp), fun _ => ?_⟩
  rw [hbuf1, hbuf, show [ch] ++ xs ++ ys = ch :: (xs ++ ys) from rfl]
  exact number_shape_of ch xs ys hc hxs hys

theorem scan_char_tail (fp fp3 : List Char) (line3 : Nat) (st : State) (buf : List Char)
    (h : fp3.length ≤ fp.length) :
    step_ok fp st
      (match push_token st
          (if (getc_nl fp3 line3).1 = some SQ then buf_put 128 buf SQ else buf) 7
          (getc_nl fp3 line3).2.2 with
       | .ok st1 => .ok ((getc_nl fp3 line3).2.1, (getc_nl fp3 line3).2.2, st1)
       | .error e => .error e) := by
  have hg3 := (getc_nl_spec fp3 line3).1
  exact step_ok_push fp _ _ st _ 7 _ (by omega) (token_ok_other _ _ _ (by decide) (by decide))

theorem scan_char_ok (fp : List Char) (line : Nat) (st : State) :
    step_ok fp st (scan_char fp line st) := by
  unfold scan_char
  have hg1 := (getc_nl_spec fp line).1
  generalize getc_nl fp line = r1 at hg1 ⊢
  obtain ⟨c2, fp1, line1⟩ := r1
  simp only at hg1 ⊢
  cases c2 with
  | none =>
    simp only [reduceCtorEq, if_false]
    exact scan_char_tail fp fp1 line1 st _ (by omega)
  | some c =>
    by_cases hc : c = '\\'
    · subst hc
      simp only [if_true]
      have hg2 := (getc_nl_spec fp1 line1).1
      generalize getc_nl fp1 line1 = r2 at hg2 ⊢
      obtain ⟨c3, fp2, line2⟩ := r2
      cases c3 with
      | none => exact scan_char_tail fp fp2 line2 st _ (by simp only at hg2; omega)
      | some c3 => exact scan_char_tail fp fp2 line2 st _ (by simp only at hg2; omega)
    · have hne : ¬ (some c = some '\\') := by simpa using hc
      simp only [hne, if_false]
      exact scan_char_tail fp fp1 line1 st _ (by omega)

theorem scan_string_ok (fp : List Char) (line : Nat) (st : State) :
    step_ok fp st (scan_string fp line st) := by
  unfold scan_string
  have hl := string_loop_length fp false ['"'] line
  generalize string_loop false ['"'] fp line = r at hl ⊢
  obtain ⟨buf, c2, fp1, line1⟩ := r
  simp only at hl ⊢
  exact step_ok_push fp fp1 line1 st _ 6 line1 hl
    (token_ok_other _ _ _ (by decide) (by decide))

theorem operator_buf_stream (ch : Char) (fp : List Char) (line : Nat) :
    (operator_buf ch fp line).2.1.length ≤ fp.length := by
  unfold operator_buf
  have hg1 := (getc_nl_spec fp line).1
  generalize getc_nl fp line = r1 at hg1 ⊢
  obtain ⟨n, fp1, line1⟩ := r1
  cases n with
  | none => simp only at hg1 ⊢; omega
  | some n =>
    simp only [held] at hg1 ⊢
    by_cases hp : is_pair ch n = true
    · rw [if_pos hp]
      simp only
      omega
    · have hne : ¬ (ch = '=' ∧ n = '=') := by
        rintro ⟨rfl, rfl⟩
        exact hp (by decide)
      rw [if_neg hp, if_neg hne]
      have hu2 := ungetc_nl_length (some n) fp1 line1
      simp only [held] at hu2
      show (ungetc_nl (some n) fp1 line1).1.length ≤ fp.length
      omega

theorem scan_operator_ok (ch : Char) (fp : List Char) (line : Nat) (st : State) :
    step_ok fp st (scan_operator ch fp line st) := by
  unfold scan_operator
  have hl := operator_buf_stream ch fp line
  generalize operator_buf ch fp line = r at hl ⊢
  obtain ⟨buf, fp1, line1⟩ := r
  simp only at hl ⊢
  apply step_ok_push fp fp1 line1 st _ _ line1 hl
  split_ifs
  · exact token_ok_other _ _ _ (by decide) (by decide)
  · exact token_ok_other _ _ _ (by decide) (by decide)

theorem scan_token_ok (ch : Char) (fp : List Char) (line : Nat) (st : State) :
    step_ok fp st (scan_token ch fp line st) := by
  unfold scan_token
  split_ifs with h1 h2 h3 h4 h5 h6
  · exact scan_word_ok ch fp line st
  · exact scan_number_ok ch fp line st h2
  · exact scan_char_ok fp line st
  · exact scan_string_ok fp line st
  · exact scan_operator_ok ch fp line st
  · exact step_ok_push fp fp line st [ch] 5 line (Nat.le_refl _)
      (token_ok_other _ _ _ (by decide) (by decide))
  · exact step_ok_same fp fp line st (Nat.le_refl _)

theorem step_ok_comment (fp fp2 : List Char) (line2 : Nat) (st : State) (buf : List Char)
    (h : fp2.length ≤ fp.length) :
    step_ok fp st (.ok (fp2, line2, push_comment st buf)) := by
  refine ⟨h, [], ?_, by simp⟩
  unfold push_comment
  split_ifs <;> simp

theorem step_ok_shorter (fp fp1 : List Char) (st : State)
    (r : Except Fault (List Char × Nat × State)) (hlen : fp1.length ≤ fp.length)
    (h : step_ok fp1 st r) : step_ok fp st r := by
  cases r with
  | error e => exact h
  | ok v =>
    obtain ⟨fp2, line2, st2⟩ := v
    exact ⟨Nat.le_trans h.1 hlen, h.2⟩

theorem scan_step_ok (ch : Char) (fp : List Char) (line : Nat) (st : State) :
    step_ok fp st (scan_step ch fp line st) := by
  unfold scan_step
  split_ifs with hws hsl
  · exact step_ok_same fp fp line st (Nat.le_refl _)
  · have hg := (getc_nl_spec fp line).1
    generalize getc_nl fp line = r at hg ⊢
    obtain ⟨nxt, fp1, line1⟩ := r
    simp only at hg ⊢
    split_ifs
    · have hrw := (read_while_spec (fun c => c != '\n') 1024 fp1 ['/', '/'] line1).1
      generalize read_while (fun c => c != '\n') 1024 ['/', '/'] fp1 line1 = r2 at hrw ⊢
      obtain ⟨buf, c2, fp2, line2⟩ := r2
      simp only at hrw ⊢
      exact step_ok_comment fp fp2 line2 st buf (by omega)
    · have hb := block_comment_loop_length fp1 NUL ['/', '*'] line1
      generalize block_comment_loop NUL ['/', '*'] fp1 line1 = r2 at hb ⊢
      obtain ⟨buf, fp2, line2⟩ := r2
      simp only at hb ⊢
      exact step_ok_comment fp fp2 line2 st buf (by omega)
    · have hu := ungetc_nl_length nxt fp1 line1
      generalize ungetc_nl nxt fp1 line1 = u at hu ⊢
      obtain ⟨fp2, line2⟩ := u
      simp only at hu ⊢
      exact step_ok_shorter fp fp2 st _ (by omega) (scan_token_ok ch fp2 line2 st)
  · exact scan_token_ok ch fp line st

/-! ### The scanner loop: termination and token invariants -/

theorem scan_loop_total (fuel : Nat) :
    ∀ (fp : List Char) (line : Nat) (st : State), fp.length < fuel →
      scan_loop fuel fp line st ≠ .error Fault.fuel := by
  induction fuel with
  | zero => intro fp line st h; omega
  | succ fuel ih =>
    intro fp line st hlen
    rw [scan_loop]
    have hg := (getc_nl_spec fp line).1
    generalize getc_nl fp line = r at hg ⊢
    obtain ⟨c, fp1, line1⟩ := r
    cases c with
    | none => simp
    | some ch =>
      simp only [held] at hg ⊢
      have hs := scan_step_ok ch fp1 line1 st
      cases hstep : scan_step ch fp1 line1 st with
      | error e =>
        rw [hstep] at hs
        have he : e = Fault.overflow := hs
        simp only [he]
        intro h
        cases h
      | ok v =>
        obtain ⟨fp2, line2, st2⟩ := v
        rw [hstep] at hs
        simp only
        exact ih fp2 line2 st2 (by have := hs.1; omega)

theorem scan_loop_tokens (fuel : Nat) :
    ∀ (fp : List Char) (line : Nat) (st r : State), (∀ t ∈ st.table, token_ok t) →
      scan_loop fuel fp line st = .ok r → ∀ t ∈ r.table, token_ok t := by
  induction fuel with
  | zero => intro fp line st r _ h; simp [scan_loop] at h
  | succ fuel ih =>
    intro fp line st r hst h
    rw [scan_loop] at h
    generalize getc_nl fp line = g at h
    obtain ⟨c, fp1, line1⟩ := g
    cases c with
    | none =>
      simp only [Except.ok.injEq] at h
      rw [← h]; exact hst
    | some ch =>
      simp only at h
      have hs := scan_step_ok ch fp1 line1 st
      cases hstep : scan_step ch fp1 line1 st with
      | error e => rw [hstep] at h; simp at h
      | ok v =>
        obtain ⟨fp2, line2, st2⟩ := v
        rw [hstep] at h hs
        obtain ⟨_, new, hnew, hok⟩ := hs
        refine ih fp2 line2 st2 r ?_ h
        intro t ht
        rw [hnew] at ht
        rcases List.mem_append.mp ht with h1 | h1
        · exact hst t h1
        · exact hok t h1

theorem kotlin_step_table (st : State) (i : Nat) : (kotlin_step st i).table = st.table := by
  unfold kotlin_step
  simp only []
  split_ifs <;>
    first
    | rfl
    | exact (add_decl_table _ _ _ _).1
    | exact (check_assignment_type_table _ _ _ _ _).1.trans (add_decl_table _ _ _ _).1

theorem kotlin_fold_table (l : List Nat) (st : State) :
    (l.foldl kotlin_step st).table = st.table := by
  induction l generalizing st with
  | nil => rfl
  | cons i l ih => rw [List.foldl_cons, ih, kotlin_step_table]

theorem tokenize_tokens_ok (prior : State) (input : List Char) (st : State)
    (h : tokenize_and_build prior input = .ok st) : ∀ t ∈ st.table, token_ok t := by
  unfold tokenize_and_build at h
  cases hs : scan_loop (input.length + 1) input 1 prior.reset with
  | error e => rw [hs] at h; simp at h
  | ok st1 =>
    rw [hs] at h
    simp only [Except.ok.injEq] at h
    rw [← h, kotlin_fold_table]
    exact scan_loop_tokens _ _ _ _ _ (by simp [State.reset]) hs

theorem tokenize_terminates (prior : State) (input : List Char) :
    tokenize_and_build prior input ≠ .error Fault.fuel := by
  unfold tokenize_and_build
  have ht := scan_loop_total (input.length + 1) input 1 prior.reset (by omega)
  cases hs : scan_loop (input.length + 1) input 1 prior.reset with
  | error e =>
    simp only
    intro h
    cases h
    exact ht hs
  | ok st1 => simp

/-! ### Use before declaration: claim C11 -/

theorem pass2_e3_eq (i : Nat) (pre : State) (table : List Symbol) (decls : List Decl)
    (ht : pre.table = table) (hd : pre.decls = decls)
    (hk : ∀ t ∈ table, t.attr = 1 → isKeyword t.token = true) :
    pass2_e3 i pre =
      if (tokAt table i).attr = 2 ∧ ¬ (i > 0 ∧ (tokAt table (i - 1)).attr = 1) ∧
          isDeclared decls (tokAt table i).token = false ∧
          pre.errors.length < MAX_ERRORS then
        with_error pre ((text_undeclared (tokAt table i).token).take 255) (tokAt table i).line
      else pre := by
  have hkey : (tokAt table (i - 1)).attr = 1 → isKeyword (tokAt table (i - 1)).token = true := by
    intro h1
    rcases tokAt_mem table (i - 1) with hm | hm
    · exact hk _ hm h1
    · rw [hm] at h1
      exact absurd h1 (by decide)
  unfold pass2_e3
  simp only [ht, hd, msg_undeclared, report_msg_eq]
  by_cases h1 : (tokAt table i).attr = 2 <;>
  by_cases h2 : isDeclared decls (tokAt table i).token = true <;>
  by_cases h3 : (tokAt table (i - 1)).attr = 1 <;>
  by_cases h4 : i > 0 <;>
  by_cases h5 : pre.errors.length < MAX_ERRORS <;>
  simp [h1, h2, h3, h4, h5, hkey]

/-- C11 (as amended).  For every input the scanner accepts and every token
position `i`, the section E3 of turn `i` of pass 2 appends one
UseBeforeDeclaration diagnostic for token `i`, at that token's line and with
the first 255 characters of `E3-IdentifierError: 'lexeme' used before
declaration`, if and only if token `i` has class Identifier (2), the
preceding token (if any) is not of class Keyword (1), its lexeme is not in
the declaration table, and fewer than 6000 diagnostics are recorded at that
point; otherwise it appends nothing. -/
theorem C11_use_before_declaration (prior : State) (input : List Char) (st : State)
    (h : tokenize_and_build prior input = .ok st) (i : Nat) :
    pass2_e3 i (pass2_e2 i (pass2_before st i)) =
      if (tokAt st.table i).attr = 2 ∧ ¬ (i > 0 ∧ (tokAt st.table (i - 1)).attr = 1) ∧
          isDeclared st.decls (tokAt st.table i).token = false ∧
          (pass2_e2 i (pass2_before st i)).errors.length < MAX_ERRORS then
        { pass2_e2 i (pass2_before st i) with
          errors := (pass2_e2 i (pass2_before st i)).errors ++
            [⟨(text_undeclared (tokAt st.table i).token).take 255, (tokAt st.table i).line⟩] }
      else pass2_e2 i (pass2_before st i) :=
  pass2_e3_eq i _ st.table st.decls
    ((pass2_e2_table i _).1.trans (pass2_before_table st i).1)
    ((pass2_e2_table i _).2.trans (pass2_before_table st i).2)
    (fun t ht => (tokenize_tokens_ok prior input st h t ht).1)

/-- Witness of C11 on the text `int a; b`: token 3 is the identifier `b`, it
follows `;` and is not declared, and the section appends its diagnostic. -/
theorem C11_use_before_declaration_witness :
    tokenize_and_build ⟨[], [], [], []⟩ "int a; b".toList =
        .ok ⟨[⟨"int".toList, 1, 1⟩, ⟨"a".toList, 2, 1⟩, ⟨";".toList, 5, 1⟩,
              ⟨"b".toList, 2, 1⟩], [⟨"a".toList, "int".toList, 1⟩], [], []⟩ ∧
      pass2_e3 3 (pass2_e2 3 (pass2_before
          ⟨[⟨"int".toList, 1, 1⟩, ⟨"a".toList, 2, 1⟩, ⟨";".toList, 5, 1⟩,
            ⟨"b".toList, 2, 1⟩], [⟨"a".toList, "int".toList, 1⟩], [], []⟩ 3)) =
        ⟨[⟨"int".toList, 1, 1⟩, ⟨"a".toList, 2, 1⟩, ⟨";".toList, 5, 1⟩,
            ⟨"b".toList, 2, 1⟩], [⟨"a".toList, "int".toList, 1⟩],
          [⟨"E3-IdentifierError: 'b' used before declaration".toList, 1⟩], []⟩ := by
  have hrun : tokenize_and_build ⟨[], [], [], []⟩ "int a; b".toList =
      .ok ⟨[⟨"int".toList, 1, 1⟩, ⟨"a".toList, 2, 1⟩, ⟨";".toList, 5, 1⟩,
            ⟨"b".toList, 2, 1⟩], [⟨"a".toList, "int".toList, 1⟩], [], []⟩ := by
    simp only [tokenize_and_build, State.reset]
    decide!
  refine ⟨hrun, ?_⟩
  rw [C11_use_before_declaration _ _ _ hrun 3]
  decide!

/-- Counterexample to C11 as stated: the text of 6001 words `y` gives 6001
identifier tokens `y`, none declared and none preceded by a keyword (and none
keyword-like, so no other diagnostic competes), but pass 2 records 6000
diagnostics in all: the last identifier gets no UseBeforeDeclaration. -/
theorem C11_counterexample :
    similarToKeyword "y".toList = false ∧
    (analysis_run ⟨[], [], [], []⟩ (repeat_word "y".toList 6001)).map
      (fun st => (st.table.length, st.table.all (fun t => t == ⟨"y".toList, 2, 1⟩),
        st.decls, st.errors.length)) = .ok (6001, true, [], 6000) := by
  have hsim : similarToKeyword "y".toList = false := by decide
  obtain ⟨st, hrun, htab, hdec, herr⟩ := run_words ⟨[], [], [], []⟩ 'y' []
    (by decide) (by decide) (by decide) (by decide) 6001 (by decide)
  have hall : st.table.all (fun t => t == ⟨"y".toList, 2, 1⟩) = true := by
    rw [htab, List.all_eq_true]
    intro t ht
    rw [List.eq_of_mem_replicate ht]
    decide
  have hlen : st.table.length = 6001 := by rw [htab, List.length_replicate]
  have herr2 : st.errors.length = 6000 := by
    rw [herr, if_neg (by rw [show similarToKeyword ['y'] = false from hsim]; decide)]; decide
  refine ⟨hsim, ?_⟩
  rw [show repeat_word "y".toList 6001 = repeat_word ['y'] 6001 from rfl, hrun]
  simp only [Except.map, hall, hlen, herr2, hdec]

/-! ### Number tokens: claim C15 -/

/-- C15 (as amended).  For every input the scanner accepts, every token of
class Number (3) has the shape: one digit, then a run of digits and dots with
any number of dots, then a trailing run of letters. -/
theorem C15_number_tokens (prior : State) (input : List Char) (st : State)
    (h : tokenize_and_build prior input = .ok st) :
    ∀ t ∈ st.table, t.attr = 3 → number_shape t.token = true :=
  fun t ht => (tokenize_tokens_ok prior input st h t ht).2

/-- Witness of C15 on the text `x = 3.14f;`. -/
theorem C15_number_tokens_witness :
    tokenize_and_build ⟨[], [], [], []⟩ "x = 3.14f;".toList =
        .ok ⟨[⟨"x".toList, 2, 1⟩, ⟨"=".toList, 4, 1⟩, ⟨"3.14f".toList, 3, 1⟩,
              ⟨";".toList, 5, 1⟩], [], [], []⟩ ∧
      ∀ t ∈ [(⟨"x".toList, 2, 1⟩ : Symbol), ⟨"=".toList, 4, 1⟩, ⟨"3.14f".toList, 3, 1⟩,
              ⟨";".toList, 5, 1⟩], t.attr = 3 → number_shape t.token = true := by
  have hrun : tokenize_and_build ⟨[], [], [], []⟩ "x = 3.14f;".toList =
      .ok ⟨[⟨"x".toList, 2, 1⟩, ⟨"=".toList, 4, 1⟩, ⟨"3.14f".toList, 3, 1⟩,
            ⟨";".toList, 5, 1⟩], [], [], []⟩ := by
    simp only [tokenize_and_build, State.reset]
    decide!
  exact ⟨hrun, C15_number_tokens _ _ _ hrun⟩

/-- Counterexample to C15 as stated: the text `1.2.3` is scanned as one token
of class Number whose lexeme `1.2.3` holds two dots. -/
theorem C15_counterexample :
    tokenize_and_build ⟨[], [], [], []⟩ "1.2.3".toList =
        .ok ⟨[⟨"1.2.3".toList, 3, 1⟩], [], [], []⟩ ∧
      "1.2.3".toList.count '.' = 2 := by
  refine ⟨?_, by decide⟩
  simp only [tokenize_and_build, State.reset]
  decide!

/-! ### Termination and the unterminated string: claim C17 -/

theorem string_loop_open (s buf : List Char) (line : Nat)
    (hs : ∀ c ∈ s, c ≠ '"' ∧ c ≠ '\\' ∧ c ≠ '\r' ∧ c ≠ '\n') :
    string_loop false buf s line = (s.foldl (buf_put 1024) buf, none, [], line) := by
  induction s generalizing buf with
  | nil => simp [string_loop]
  | cons c s ih =>
    have hc := hs c (by simp)
    simp only [string_loop, hc.1, hc.2.1, hc.2.2.1, hc.2.2.2, if_false,
      Bool.false_eq_true, List.foldl_cons]
    exact ih _ (fun e he => hs e (by simp [he]))

theorem run_open_string (prior : State) (body : List Char)
    (hbody : ∀ c ∈ body, c ≠ '"' ∧ c ≠ '\\' ∧ c ≠ '\r' ∧ c ≠ '\n' ∧ c ≠ NUL)
    (hlen : body.length ≤ 510) :
    tokenize_and_build prior ('"' :: body) = .ok ⟨[⟨'"' :: body, 6, 1⟩], [], [], []⟩ := by
  have hloop := string_loop_open body ['"'] 1
    (fun c hc => ⟨(hbody c hc).1, (hbody c hc).2.1, (hbody c hc).2.2.1, (hbody c hc).2.2.2.1⟩)
  have hbuf : body.foldl (buf_put 1024) ['"'] = '"' :: body := by
    rw [foldl_buf_put 1024 body ['"'] (by simp)]
    exact List.take_of_length_le (by simp; omega)
  have hpush := push_token_ok ⟨[], [], [], []⟩ ('"' :: body) 6 1 (by decide) (by simp; omega)
    (by
      intro c hc
      rcases List.mem_cons.mp hc with rfl | h
      · decide
      · exact (hbody c h).2.2.2.2)
  have hstep : scan_step '"' body 1 ⟨[], [], [], []⟩ =
      .ok ([], 1, ⟨[⟨'"' :: body, 6, 1⟩], [], [], []⟩) := by
    rw [show scan_step '"' body 1 ⟨[], [], [], []⟩ = scan_string body 1 ⟨[], [], [], []⟩
      from rfl]
    unfold scan_string
    simp only [hloop, hbuf]
    rw [if_neg (by simp), hpush]
    rfl
  have hscan : scan_loop (('"' :: body).length + 1) ('"' :: body) 1 ⟨[], [], [], []⟩ =
      .ok ⟨[⟨'"' :: body, 6, 1⟩], [], [], []⟩ := by
    rw [List.length_cons, scan_loop, getc_nl_cons '"' body 1 (by decide) (by decide)]
    simp only [hstep]
    rfl
  unfold tokenize_and_build
  simp only [State.reset, hscan]
  rfl

/-- C17 (as amended).  The scanner terminates on every finite input: the loop
never needs more turns than the input has characters.  For an input that ends
inside a string literal, a `"` followed by a body of at most 510 characters
with no `"`, no backslash, no newline, no carriage return and no NUL, it
returns exactly one token, of class String (6) on line 1, whose lexeme is the
opening quote followed by the body. -/
theorem C17_unterminated_string (prior : State) (input body : List Char)
    (hbody : ∀ c ∈ body, c ≠ '"' ∧ c ≠ '\\' ∧ c ≠ '\r' ∧ c ≠ '\n' ∧ c ≠ NUL)
    (hlen : body.length ≤ 510) :
    tokenize_and_build prior input ≠ .error Fault.fuel ∧
      tokenize_and_build prior ('"' :: body) = .ok ⟨[⟨'"' :: body, 6, 1⟩], [], [], []⟩ :=
  ⟨tokenize_terminates prior input, run_open_string prior body hbody hlen⟩

/-- Witness of C17 on the input `"abc`. -/
theorem C17_unterminated_string_witness :
    tokenize_and_build ⟨[], [], [], []⟩ "\"abc".toList ≠ .error Fault.fuel ∧
      tokenize_and_build ⟨[], [], [], []⟩ ('"' :: "abc".toList) =
        .ok ⟨[⟨'"' :: "abc".toList, 6, 1⟩], [], [], []⟩ :=
  C17_unterminated_string ⟨[], [], [], []⟩ "\"abc".toList "abc".toList (by decide) (by decide)

/-- Counterexample to C17 as stated: the body `a`, carriage return, `b` has no
`"`, no backslash and no newline, and the token returned is `"ab`, not the
quote followed by the body; for the body `a`, NUL, `b` the token is `"a`; and
after the opening quote a body of 511 letters `a` makes a lexeme of 512
characters, one more than `token[512]` holds with its terminator. -/
theorem C17_counterexample :
    tokenize_and_build ⟨[], [], [], []⟩ ['"', 'a', '\r', 'b'] =
        .ok ⟨[⟨['"', 'a', 'b'], 6, 1⟩], [], [], []⟩ ∧
      tokenize_and_build ⟨[], [], [], []⟩ ['"', 'a', NUL, 'b'] =
        .ok ⟨[⟨['"', 'a'], 6, 1⟩], [], [], []⟩ ∧
      tokenize_and_build ⟨[], [], [], []⟩ ('"' :: List.replicate 511 'a') =
        .error Fault.overflow := by
  simp only [tokenize_and_build, State.reset]
  exact ⟨by decide!, by decide!, by decide!⟩

/-! ### The edit distance: claim C13 -/

theorem edit_nil_right (a : List Char) : edit_distance a [] = a.length := by
  cases a <;> simp [edit_distance]

theorem edit_nil_left (b : List Char) : edit_distance [] b = b.length := by
  simp [edit_distance]

theorem edit_cons (x y : Char) (a b : List Char) :
    edit_distance (x :: a) (y :: b) =
    min (edit_distance a (y :: b) + 1)
      (min (edit_distance (x :: a) b + 1) (edit_distance a b + if x = y then 0 else 1)) := by
  rw [edit_distance]

theorem edit_insert (a b : List Char) (y : Char) :
    edit_distance a (y :: b) ≤ edit_distance a b + 1 := by
  cases a with
  | nil => simp [edit_nil_left]
  | cons x a => rw [edit_cons]; omega

theorem edit_delete (a b : List Char) (x : Char) :
    edit_distance (x :: a) b ≤ edit_distance a b + 1 := by
  cases b with
  | nil => simp [edit_nil_right]
  | cons y b => rw [edit_cons]; omega

theorem edit_drop_left (x : Char) (a b : List Char) :
    edit_distance a b ≤ edit_distance (x :: a) b + 1 := by
  induction b with
  | nil => simp [edit_nil_right]; omega
  | cons y b ih =>
    have h1 := edit_insert a b y
    rw [edit_cons]
    split_ifs <;> omega

theorem edit_drop_right (y : Char) (a b : List Char) :
    edit_distance a b ≤ edit_distance a (y :: b) + 1 := by
  induction a with
  | nil => simp [edit_nil_left]; omega
  | cons x a ih =>
    have h1 := edit_delete a b x
    rw [edit_cons]
    split_ifs <;> omega

theorem edit_cons_step (x y : Char) (a b : List Char) :
    edit_distance (x :: a) (y :: b) =
      if x = y then edit_distance a b
      else 1 + min_int (edit_distance a b)
        (min_int (edit_distance a (y :: b)) (edit_distance (x :: a) b)) := by
  have h1 := edit_drop_left x a b
  have h2 := edit_drop_right y a b
  rw [edit_cons]
  unfold min_int
  split_ifs <;> omega

theorem edit_length_le (a b : List Char) : a.length ≤ edit_distance a b + b.length := by
  induction b with
  | nil => simp [edit_nil_right]
  | cons y b ih =>
    have := edit_drop_right y a b
    simp only [List.length_cons]
    omega

theorem min_nine (t1 t2 t3 t4 t5 t6 t7 t8 t9 c c0 : Nat) :
    min (min (t1 + 1) (min (t2 + 1) (t3 + c)) + 1)
        (min (min (t4 + 1) (min (t5 + 1) (t6 + c)) + 1)
          (min (t7 + 1) (min (t8 + 1) (t9 + c)) + c0)) =
      min (min (t1 + 1) (min (t4 + 1) (t7 + c0)) + 1)
        (min (min (t2 + 1) (min (t5 + 1) (t8 + c0)) + 1)
          (min (t3 + 1) (min (t6 + 1) (t9 + c0)) + c)) := by
  apply eq_of_forall_le_iff
  intro z
  simp only [← Nat.add_min_add_right, le_min_iff]
  omega

theorem edit_snoc : ∀ (n : Nat) (a b : List Char) (x y : Char), a.length + b.length = n →
    edit_distance (a ++ [x]) (b ++ [y]) =
      min (edit_distance a (b ++ [y]) + 1)
        (min (edit_distance (a ++ [x]) b + 1) (edit_distance a b + if x = y then 0 else 1)) := by
  intro n
  induction n using Nat.strong_induction_on with
  | _ n ih =>
    intro a b x y hn
    cases a with
    | nil =>
      cases b with
      | nil => simp [edit_cons, edit_nil_left, edit_nil_right]
      | cons y0 b =>
        have h1 := ih b.length (by simp at hn; omega) [] b x y (by simp)
        simp only [List.nil_append, List.cons_append] at h1 ⊢
        rw [edit_cons, edit_cons x y0, h1]
        simp only [edit_nil_left, List.length_cons, List.length_append, List.length_nil]
        split_ifs <;> omega
    | cons x0 a =>
      cases b with
      | nil =>
        have h1 := ih a.length (by simp at hn; omega) a [] x y (by simp)
        simp only [List.nil_append, List.cons_append] at h1 ⊢
        rw [edit_cons, edit_cons x0 y, h1]
        simp only [edit_nil_right, List.length_cons, List.length_append, List.length_nil]
        split_ifs <;> omega
      | cons y0 b =>
        simp only [List.length_cons] at hn
        have h1 := ih (a.length + (b.length + 1)) (by omega) a (y0 :: b) x y (by simp)
        have h2 := ih (a.length + 1 + b.length) (by omega) (x0 :: a) b x y (by simp)
        have h3 := ih (a.length + b.length) (by omega) a b x y rfl
        simp only [List.cons_append] at h1 h2 h3 ⊢
        rw [edit_cons, h1, h2, h3, edit_cons x0 y0 a (b ++ [y]), edit_cons x0 y0 (a ++ [x]) b,
          edit_cons x0 y0 a b]
        exact min_nine _ _ _ _ _ _ _ _ _ _ _

theorem edit_reverse : ∀ (n : Nat) (a b : List Char), a.length + b.length = n →
    edit_distance a.reverse b.reverse = edit_distance a b := by
  intro n
  induction n using Nat.strong_induction_on with
  | _ n ih =>
    intro a b hn
    cases a with
    | nil => simp [edit_nil_left]
    | cons x a =>
      cases b with
      | nil => simp [edit_nil_right]
      | cons y b =>
        simp only [List.length_cons] at hn
        have h1 := ih (a.length + (b.length + 1)) (by omega) a (y :: b) (by simp)
        have h2 := ih (a.length + 1 + b.length) (by omega) (x :: a) b (by simp)
        have h3 := ih (a.length + b.length) (by omega) a b rfl
        simp only [List.reverse_cons] at h1 h2 ⊢
        rw [edit_snoc _ a.reverse b.reverse x y rfl, h1, h2, h3, edit_cons]

theorem lev_row_cells (x : Char) (ra : List Char) : ∀ (bs rb : List Char),
    lev_row x bs (edit_distance ra rb :: lev_cells ra rb bs) (edit_distance (x :: ra) rb) =
      lev_cells (x :: ra) rb bs := by
  intro bs
  induction bs with
  | nil => intro rb; rfl
  | cons y bs ih =>
    intro rb
    simp only [lev_cells, lev_row]
    rw [← edit_cons_step x y ra rb, ih (y :: rb)]

theorem lev_rows_cells (b : List Char) : ∀ (as ra : List Char),
    lev_rows b as (edit_distance ra [] :: lev_cells ra [] b) (ra.length + 1) =
      edit_distance (as.reverse ++ ra) [] :: lev_cells (as.reverse ++ ra) [] b := by
  intro as
  induction as with
  | nil => intro ra; rfl
  | cons x as ih =>
    intro ra
    have hi : ra.length + 1 = edit_distance (x :: ra) [] := by simp [edit_nil_right]
    rw [lev_rows]
    nth_rewrite 1 [hi]
    nth_rewrite 1 [hi]
    rw [lev_row_cells x ra b [], show ra.length + 1 + 1 = (x :: ra).length + 1 from rfl,
      ih (x :: ra)]
    simp

theorem lev_cells_nil : ∀ (bs rb : List Char),
    lev_cells [] rb bs = List.range' (rb.length + 1) bs.length := by
  intro bs
  induction bs with
  | nil => intro rb; rfl
  | cons y bs ih =>
    intro rb
    simp only [lev_cells, edit_nil_left, List.length_cons, List.range'_succ, ih (y :: rb)]

theorem lev_cells_last (ra : List Char) : ∀ (bs rb : List Char),
    (edit_distance ra rb :: lev_cells ra rb bs).getLastD 0 =
      edit_distance ra (bs.reverse ++ rb) := by
  intro bs
  induction bs with
  | nil => intro rb; rfl
  | cons y bs ih =>
    intro rb
    have h := ih (y :: rb)
    simp only [lev_cells, List.getLastD_cons, List.reverse_cons, List.append_assoc,
      List.singleton_append] at h ⊢
    exact h

theorem levenshtein_eq (a b : List Char) (ha : a.length ≤ 300) (hb : b.length ≤ 300) :
    levenshtein a b = edit_distance a b := by
  have hrow : List.range (b.length + 1) = edit_distance [] [] :: lev_cells [] [] b := by
    rw [lev_cells_nil, List.range_eq_range', List.range'_succ, edit_nil_left]
    rfl
  unfold levenshtein
  simp only []
  rw [if_neg (by omega), hrow]
  have h := lev_rows_cells b a []
  simp only [List.length_nil, List.append_nil] at h
  rw [h, lev_cells_last, List.append_nil, edit_reverse _ a b rfl]

theorem keyword_short (k : List Char) (hk : k ∈ keywords) : k.length ≤ 8 := by
  revert k
  decide

/-- C13.  There are 40 keywords, and for every word `w` of any length,
`similarToKeyword w` is true if and only if `w` has at least 3 characters and
the Levenshtein distance (insertion, deletion, substitution, each of cost 1)
from `w` to at least one keyword is at most 2: below the 300-character guard
`levenshtein` is that distance, and above it both the guard's answer and the
distance exceed 2. -/
theorem C13_similar_to_keyword (w : List Char) :
    keywords.length = 40 ∧
    (similarToKeyword w = true ↔
      3 ≤ w.length ∧ ∃ k ∈ keywords, edit_distance w k ≤ 2) := by
  have hiff : ∀ k ∈ keywords, (levenshtein w k ≤ 2 ↔ edit_distance w k ≤ 2) := by
    intro k hk
    have hk8 := keyword_short k hk
    by_cases hw : w.length ≤ 300
    · rw [levenshtein_eq w k hw (by omega)]
    · have hlow := edit_length_le w k
      unfold levenshtein
      simp only []
      rw [if_pos (by omega)]
      omega
  refine ⟨by decide, ?_⟩
  unfold similarToKeyword
  by_cases h3 : w.length < 3
  · rw [if_pos h3]
    constructor
    · intro h; cases h
    · intro h; omega
  · rw [if_neg h3, List.any_eq_true]
    constructor
    · rintro ⟨k, hk, hd⟩
      exact ⟨by omega, k, hk, (hiff k hk).mp (of_decide_eq_true hd)⟩
    · rintro ⟨_, k, hk, hd⟩
      exact ⟨k, hk, decide_eq_true ((hiff k hk).mpr hd)⟩

/-- The reference distance on a sample: `itn` is two substitutions from `int`. -/
theorem edit_distance_sample : edit_distance "itn".toList "int".toList = 2 := by
  simp [edit_distance]

/-! ### The distance function: claim C22 -/

/-- C22.  For all strings `a` and `b`, `levenshtein a b` is the Levenshtein
edit distance of `a` and `b` (as the usual recursion on insertions, deletions
and substitutions of cost 1 defines it) when both have at most 300 characters,
and `|len a - len b| + 3` when either is longer. -/
theorem C22_levenshtein_refines (a b : List Char) :
    levenshtein a b =
      if a.length ≤ 300 ∧ b.length ≤ 300 then edit_distance a b
      else Int.natAbs ((a.length : Int) - (b.length : Int)) + 3 := by
  by_cases h : a.length ≤ 300 ∧ b.length ≤ 300
  · rw [if_pos h, levenshtein_eq a b h.1 h.2]
  · rw [if_neg h]
    unfold levenshtein
    simp only []
    rw [if_pos (by omega)]

/-! ### A nullable Kotlin type: claim C23 -/

/-- C23 (the code at the failing input).  For `val x: Int? = "hi"` the scanner
stores `Int` and `?` as two tokens, so the inline check of the `var`/`val`
pass finds `?` where it looks for `=` and never compares the initializer: the
run ends with no diagnostic at all.  Without the `?`, `val x: Int = "hi"`, the
same pass reports the TypeMismatch naming `Int` and `x`. -/
theorem C23_nullable_check_skipped :
    analysis_run ⟨[], [], [], []⟩ "val x: Int? = \"hi\"".toList =
      .ok ⟨[⟨"val".toList, 1, 1⟩, ⟨"x".toList, 2, 1⟩, ⟨":".toList, 5, 1⟩,
            ⟨"Int".toList, 1, 1⟩, ⟨"?".toList, 4, 1⟩, ⟨"=".toList, 4, 1⟩,
            ⟨"\"hi\"".toList, 6, 1⟩],
           [⟨"x".toList, "val".toList, 1⟩], [], []⟩ ∧
    analysis_run ⟨[], [], [], []⟩ "val x: Int = \"hi\"".toList =
      .ok ⟨[⟨"val".toList, 1, 1⟩, ⟨"x".toList, 2, 1⟩, ⟨":".toList, 5, 1⟩,
            ⟨"Int".toList, 1, 1⟩, ⟨"=".toList, 4, 1⟩, ⟨"\"hi\"".toList, 6, 1⟩],
           [⟨"x".toList, "val".toList, 1⟩],
           [⟨"E1-TypeMismatch: Int 'x' cannot take '\"hi\"'".toList, 1⟩], []⟩ := by
  simp only [analysis_run, tokenize_and_build, State.reset]
  exact ⟨by decide!, by decide!⟩

/-! ### The summary counts: claim C24 -/

/-- C24 (the code at the failing input).  The run on `int x = "E2-";` records
one diagnostic, a TypeMismatch whose message quotes the value `"E2-"`; the
summary counts it under E1 and, because the text `E2-` occurs in the message,
under E2 as well: the counts are 1, 1, 0, 0 and their sum 2 is not the total
1. -/
theorem C24_summary_counts_by_substring :
    (analysis_run ⟨[], [], [], []⟩ "int x = \"E2-\";".toList).map
        (fun st => (st.errors, summary_counts st.errors, st.errors.length)) =
      .ok ([⟨"E1-TypeMismatch: int 'x' cannot take '\"E2-\"'".toList, 1⟩], (1, 1, 0, 0), 1) := by
  simp only [analysis_run, tokenize_and_build, State.reset]
  decide!

/-! ### Properties kept by every turn of the scanner -/

theorem push_token_with (st st1 : State) (buf : List Char) (attr line : Nat)
    (h : push_token st buf attr line = .ok st1) :
    st1 = with_token st (cstr buf) attr line := by
  unfold push_token at h
  split_ifs at h
  cases h
  rfl

theorem keeps_push (P : State → Prop) (hP : scan_closed P) (fp2 : List Char) (line2 : Nat)
    (st : State) (buf : List Char) (attr line : Nat) (ha : attr ≠ 2) (h : P st) :
    keeps P
      (match push_token st buf attr line with
       | .ok st1 => .ok (fp2, line2, st1)
       | .error e => .error e) := by
  cases hp : push_token st buf attr line with
  | error e => trivial
  | ok st1 =>
    rw [push_token_with st st1 buf attr line hp]
    exact hP.2.1 st _ attr line ha h

theorem scan_namespace_keeps (P : State → Prop) (hP : scan_closed P) (fp : List Char)
    (line : Nat) (st : State) (h : P st) : keeps P (scan_namespace fp line st) := by
  unfold scan_namespace
  generalize read_while (fun c => isspace c && c != '\n') 1 [] fp line = r
  obtain ⟨b, pch, fp1, line1⟩ := r
  simp only
  split_ifs
  · exact h
  · generalize put_while (fun c => c != '\n' && c != ';') 512 [] pch fp1 line1 = r2
    obtain ⟨nb, c2, fp2, line2⟩ := r2
    simp only
    exact keeps_push P hP fp2 line2 st _ 8 line2 (by decide) h
  · generalize put_while (fun c => c != '\n' && c != ';') 512 [] pch fp1 line1 = r2
    obtain ⟨nb, c2, fp2, line2⟩ := r2
    exact h

theorem tokAt_append_last (table : List Symbol) (t : Symbol) :
    tokAt (table ++ [t]) ((table ++ [t]).length - 1) = t := by
  simp [tokAt]

theorem scan_word_keeps (P : State → Prop) (hP : scan_closed P) (ch : Char) (fp : List Char)
    (line : Nat) (st : State) (h : P st) : keeps P (scan_word ch fp line st) := by
  unfold scan_word
  generalize read_while is_word_char 512 [ch] fp line = r
  obtain ⟨buf, c2, fp1, line1⟩ := r
  simp only
  generalize ungetc_nl c2 fp1 line1 = u
  obtain ⟨fp2, line2⟩ := u
  simp only
  by_cases hk : isKeyword buf = true
  · rw [if_pos hk]
    cases hp : push_token st buf 1 line2 with
    | error e => trivial
    | ok st1 =>
      have hw := push_token_with st st1 buf 1 line2 hp
      have h1 : P st1 := by rw [hw]; exact hP.2.1 st _ 1 line2 (by decide) h
      simp only
      split_ifs with hns hsn
      · exact scan_namespace_keeps P hP fp2 line2 st1 h1
      · exfalso
        rw [hw] at hsn
        have := hsn.2.2
        simp only [with_token] at this
        rw [tokAt_append_last] at this
        simp at this
      · exact h1
  · rw [if_neg hk]
    cases hp : push_token st buf 2 line2 with
    | error e => trivial
    | ok st1 =>
      have hw := push_token_with st st1 buf 2 line2 hp
      have hns : ¬ ((isKeyword buf && (buf == "package".toList || buf == "import".toList)) = true) := by
        simp [hk]
      simp only
      rw [if_neg hns]
      have h2 := hP.2.2 st (cstr buf) line2 h
      rw [← hw] at h2
      unfold sniff_decl at h2
      split_ifs at h2 ⊢
      · exact h2
      · exact h2

theorem scan_number_keeps (P : State → Prop) (hP : scan_closed P) (ch : Char) (fp : List Char)
    (line : Nat) (st : State) (h : P st) : keeps P (scan_number ch fp line st) := by
  unfold scan_number
  generalize read_while is_number_char 512 [ch] fp line = r
  obtain ⟨buf, c2, fp1, line1⟩ := r
  simp only
  generalize put_while isalpha 512 buf c2 fp1 line1 = r2
  obtain ⟨buf1, c3, fp2, line2⟩ := r2
  simp only
  generalize ungetc_nl c3 fp2 line2 = u
  obtain ⟨fp3, line3⟩ := u
  exact keeps_push P hP fp3 line3 st buf1 3 line3 (by decide) h

theorem scan_char_keeps (P : State → Prop) (hP : scan_closed P) (fp : List Char)
    (line : Nat) (st : State) (h : P st) : keeps P (scan_char fp line st) := by
  unfold scan_char
  exact keeps_push P hP _ _ st _ 7 _ (by decide) h

theorem scan_string_keeps (P : State → Prop) (hP : scan_closed P) (fp : List Char)
    (line : Nat) (st : State) (h : P st) : keeps P (scan_string fp line st) := by
  unfold scan_string
  generalize string_loop false ['"'] fp line = r
  obtain ⟨buf, c2, fp1, line1⟩ := r
  exact keeps_push P hP fp1 line1 st _ 6 line1 (by decide) h

theorem scan_operator_keeps (P : State → Prop) (hP : scan_closed P) (ch : Char)
    (fp : List Char) (line : Nat) (st : State) (h : P st) :
    keeps P (scan_operator ch fp line st) := by
  unfold scan_operator
  generalize operator_buf ch fp line = r
  obtain ⟨buf, fp1, line1⟩ := r
  simp only
  apply keeps_push P hP fp1 line1 st _ _ line1 _ h
  split_ifs <;> decide

theorem scan_token_keeps (P : State → Prop) (hP : scan_closed P) (ch : Char)
    (fp : List Char) (line : Nat) (st : State) (h : P st) :
    keeps P (scan_token ch fp line st) := by
  unfold scan_token
  split_ifs
  · exact scan_word_keeps P hP ch fp line st h
  · exact scan_number_keeps P hP ch fp line st h
  · exact scan_char_keeps P hP fp line st h
  · exact scan_string_keeps P hP fp line st h
  · exact scan_operator_keeps P hP ch fp line st h
  · exact keeps_push P hP fp line st [ch] 5 line (by decide) h
  · exact h

theorem scan_step_keeps (P : State → Prop) (hP : scan_closed P) (ch : Char)
    (fp : List Char) (line : Nat) (st : State) (h : P st) :
    keeps P (scan_step ch fp line st) := by
  unfold scan_step
  split_ifs
  · exact h
  · generalize getc_nl fp line = r
    obtain ⟨nxt, fp1, line1⟩ := r
    simp only
    split_ifs
    · generalize read_while (fun c => c != '\n') 1024 ['/', '/'] fp1 line1 = r2
      obtain ⟨buf, c2, fp2, line2⟩ := r2
      exact hP.1 st buf h
    · generalize block_comment_loop NUL ['/', '*'] fp1 line1 = r2
      obtain ⟨buf, fp2, line2⟩ := r2
      exact hP.1 st buf h
    · generalize ungetc_nl nxt fp1 line1 = u
      obtain ⟨fp2, line2⟩ := u
      exact scan_token_keeps P hP ch fp2 line2 st h
  · exact scan_token_keeps P hP ch fp line st h

theorem scan_loop_keeps (P : State → Prop) (hP : scan_closed P) (fuel : Nat) :
    ∀ (fp : List Char) (line : Nat) (st r : State), P st →
      scan_loop fuel fp line st = .ok r → P r := by
  induction fuel with
  | zero => intro fp line st r _ h; simp [scan_loop] at h
  | succ fuel ih =>
    intro fp line st r hst h
    rw [scan_loop] at h
    generalize getc_nl fp line = g at h
    obtain ⟨c, fp1, line1⟩ := g
    cases c with
    | none =>
      simp only [Except.ok.injEq] at h
      rw [← h]; exact hst
    | some ch =>
      simp only at h
      have hs := scan_step_keeps P hP ch fp1 line1 st hst
      cases hstep : scan_step ch fp1 line1 st with
      | error e => rw [hstep] at h; simp at h
      | ok v =>
        obtain ⟨fp2, line2, st2⟩ := v
        rw [hstep] at h hs
        exact ih fp2 line2 st2 r hs h

/-! ### The capacities: claim C21 -/

theorem add_decl_caps (name type : List Char) (line : Nat) (st : State) (h : caps_ok st) :
    caps_ok (add_decl name type line st) := by
  unfold add_decl
  split_ifs with h1 h2
  · exact h
  · exact h
  · refine ⟨?_, h.2.1, h.2.2⟩
    simp only [List.length_append, List.length_singleton]
    omega

theorem report_error_caps (msg : List Char) (line : Nat) (st : State) (h : caps_ok st) :
    caps_ok (report_error msg line st) := by
  unfold report_error
  split_ifs with h1
  · exact h
  · refine ⟨h.1, ?_, h.2.2⟩
    simp only [List.length_append, List.length_singleton]
    omega

theorem push_comment_caps (buf : List Char) (st : State) (h : caps_ok st) :
    caps_ok (push_comment st buf) := by
  unfold push_comment
  split_ifs with h1
  · refine ⟨h.1, h.2.1, ?_⟩
    simp only [List.length_append, List.length_singleton]
    omega
  · exact h

theorem check_assignment_type_caps (T V name : List Char) (line : Nat) (st : State)
    (h : caps_ok st) : caps_ok (check_assignment_type T V line name st) := by
  unfold check_assignment_type
  simp only []
  split_ifs <;> first | exact h | exact report_error_caps _ _ _ h

theorem caps_closed : scan_closed caps_ok := by
  refine ⟨fun st buf h => push_comment_caps buf st h, fun st tok a line _ h => h, ?_⟩
  intro st tok line h
  unfold sniff_decl
  split_ifs
  · exact add_decl_caps _ _ _ _ h
  · exact h

theorem kotlin_step_caps (st : State) (i : Nat) (h : caps_ok st) :
    caps_ok (kotlin_step st i) := by
  unfold kotlin_step
  simp only []
  split_ifs <;>
    first
    | exact h
    | exact add_decl_caps _ _ _ _ h
    | exact check_assignment_type_caps _ _ _ _ _ (add_decl_caps _ _ _ _ h)

theorem kotlin_fold_caps (l : List Nat) (st : State) (h : caps_ok st) :
    caps_ok (l.foldl kotlin_step st) := by
  induction l generalizing st with
  | nil => exact h
  | cons i l ih => exact ih _ (kotlin_step_caps st i h)

theorem pass2_e2_caps (i : Nat) (st : State) (h : caps_ok st) : caps_ok (pass2_e2 i st) := by
  unfold pass2_e2
  simp only []
  split_ifs <;> first | exact h | exact report_error_caps _ _ _ h

theorem pass2_e3_caps (i : Nat) (st : State) (h : caps_ok st) : caps_ok (pass2_e3 i st) := by
  unfold pass2_e3
  simp only []
  split_ifs <;> first | exact h | exact report_error_caps _ _ _ h

theorem pass2_e1_caps (i : Nat) (st : State) (h : caps_ok st) : caps_ok (pass2_e1 i st) := by
  unfold pass2_e1
  simp only []
  split_ifs <;>
    first
    | exact h
    | exact report_error_caps _ _ _ h
    | exact check_assignment_type_caps _ _ _ _ _ h

theorem pass2_e4_caps (i : Nat) (st : State) (h : caps_ok st) : caps_ok (pass2_e4 i st) := by
  unfold pass2_e4
  simp only []
  split_ifs <;> first | exact h | exact report_error_caps _ _ _ h

theorem pass2_step_caps (st : State) (i : Nat) (h : caps_ok st) :
    caps_ok (pass2_step st i) :=
  pass2_e4_caps i _ (pass2_e1_caps i _ (pass2_e3_caps i _ (pass2_e2_caps i st h)))

theorem pass2_fold_caps (l : List Nat) (st : State) (h : caps_ok st) :
    caps_ok (l.foldl pass2_step st) := by
  induction l generalizing st with
  | nil => exact h
  | cons i l ih => exact ih _ (pass2_step_caps st i h)

theorem run_caps (prior : State) (input : List Char) :
    match analysis_run prior input with
    | .ok st => caps_ok st
    | .error e => e = Fault.overflow := by
  have hterm := tokenize_terminates prior input
  unfold analysis_run
  unfold tokenize_and_build at hterm ⊢
  cases hs : scan_loop (input.length + 1) input 1 prior.reset with
  | error e =>
    rw [hs] at hterm
    simp only at hterm ⊢
    cases e with
    | overflow => rfl
    | fuel => exact absurd rfl hterm
  | ok st1 =>
    simp only [detect_errors_pass2]
    apply pass2_fold_caps
    apply kotlin_fold_caps
    exact scan_loop_keeps caps_ok caps_closed _ _ _ _ _
      (by simp [State.reset, caps_ok]) hs

theorem scan_loop_semicolon_full (f line : Nat) (rest : List Char) (st : State)
    (hfull : MAX_TOKENS ≤ st.table.length) :
    scan_loop (f + 1) (';' :: rest) line st = .error Fault.overflow := by
  have h : scan_step ';' rest line st = .error Fault.overflow := by
    have hs : scan_step ';' rest line st =
        (match push_token st [';'] 5 line with
          | .ok st1 => .ok (rest, line, st1)
          | .error e => .error e) := rfl
    have hp : push_token st [';'] 5 line = .error Fault.overflow := by
      unfold push_token
      rw [if_neg (by omega)]
    rw [hs, hp]
  rw [scan_loop, getc_nl_cons _ _ _ (by decide) (by decide)]
  simp only [h]

theorem scan_semis (n : Nat) :
    ∀ (f : Nat) (st : State), n < f → st.table.length ≤ MAX_TOKENS →
      scan_loop f (List.replicate n ';') 1 st =
        if st.table.length + n ≤ MAX_TOKENS then
          .ok { st with table := st.table ++ List.replicate n semi_token }
        else .error Fault.overflow := by
  induction n with
  | zero =>
    intro f st hf hle
    obtain ⟨f, rfl⟩ : ∃ k, f = k + 1 := ⟨f - 1, by omega⟩
    simp [scan_loop, getc_nl, hle]
  | succ n ih =>
    intro f st hf hle
    obtain ⟨f, rfl⟩ : ∃ k, f = k + 1 := ⟨f - 1, by omega⟩
    rw [List.replicate_succ]
    by_cases hroom : st.table.length < MAX_TOKENS
    · rw [scan_loop_semicolon f 1 _ st hroom,
        ih f _ (by omega) (by simp [with_token]; omega)]
      simp only [with_token, List.length_append, List.length_singleton]
      by_cases h2 : st.table.length + (n + 1) ≤ MAX_TOKENS
      · rw [if_pos (by omega), if_pos h2]
        simp [semi_token, List.replicate_succ]
      · rw [if_neg (by omega), if_neg h2]
    · rw [scan_loop_semicolon_full f 1 _ st (by omega), if_neg (by omega)]

theorem pass2_fold_skip (l : List Nat) (st : State)
    (h : ∀ i, (tokAt st.table i).attr ≠ 2 ∧ isRelOp (tokAt st.table i).token = false) :
    l.foldl pass2_step st = st := by
  induction l with
  | nil => rfl
  | cons i l ih => rw [List.foldl_cons, pass2_step_skip st i (h i).1 (h i).2, ih]

theorem run_semis (prior : State) (n : Nat) :
    analysis_run prior (List.replicate n ';') =
      if n ≤ MAX_TOKENS then .ok ⟨List.replicate n semi_token, [], [], []⟩
      else .error Fault.overflow := by
  have hscan := scan_semis n (n + 1) ⟨[], [], [], []⟩ (by omega) (Nat.zero_le _)
  simp only [List.length_nil, Nat.zero_add, List.nil_append] at hscan
  have htab : ∀ j, tokAt (List.replicate n semi_token) j = semi_token ∨
      tokAt (List.replicate n semi_token) j = ⟨[], 0, 0⟩ := by
    intro j
    rcases tokAt_mem (List.replicate n semi_token) j with h | h
    · exact Or.inl (List.eq_of_mem_replicate h)
    · exact Or.inr h
  have hkot : (List.range n).foldl kotlin_step ⟨List.replicate n semi_token, [], [], []⟩ =
      ⟨List.replicate n semi_token, [], [], []⟩ := by
    apply kotlin_fold_skip
    intro j
    rcases htab j with h | h <;> simp only [h] <;> decide
  have hp2 : (List.range n).foldl pass2_step ⟨List.replicate n semi_token, [], [], []⟩ =
      ⟨List.replicate n semi_token, [], [], []⟩ := by
    apply pass2_fold_skip
    intro j
    rcases htab j with h | h <;> simp only [h] <;> decide
  simp only [analysis_run, tokenize_and_build, State.reset, List.length_replicate, hscan]
  by_cases hn : n ≤ MAX_TOKENS
  · simp only [if_pos hn, List.length_replicate, hkot, detect_errors_pass2, hp2]
  · simp only [if_neg hn]

/-- C21 (the code at the failing input).  The stores of declarations,
diagnostics and comments are guarded: whatever the input, a run that returns
holds at most 6000 of each.  The store of a token is not: the text of 16000
characters `;` fills the table, and on 16001 of them the last token is
written past `table[MAX_TOKENS]`, so the run does not drop it silently but
leaves defined behaviour (the only way a run fails to return). -/
theorem C21_token_capacity_unguarded (prior : State) :
    analysis_run prior (List.replicate 16000 ';') =
      .ok ⟨List.replicate 16000 semi_token, [], [], []⟩ ∧
    analysis_run prior (List.replicate 16001 ';') = .error Fault.overflow ∧
    ∀ input : List Char,
      match analysis_run prior input with
      | .ok st => st.decls.length ≤ MAX_DECLS ∧ st.errors.length ≤ MAX_ERRORS ∧
          st.comments.length ≤ MAX_COMMENTS
      | .error e => e = Fault.overflow := by
  refine ⟨?_, ?_, fun input => run_caps prior input⟩
  · rw [run_semis prior 16000, if_pos (by decide)]
  · rw [run_semis prior 16001, if_neg (by decide)]

/-! ### The declaration table against the token list: claim C25 -/

theorem tokAt_append_left (table : List Symbol) (t : Symbol) (j : Nat)
    (h : j < table.length) : tokAt (table ++ [t]) j = tokAt table j := by
  unfold tokAt
  exact List.getD_append _ _ _ _ h

theorem tokAt_append_length (table : List Symbol) (t : Symbol) :
    tokAt (table ++ [t]) table.length = t := by
  simp [tokAt]

theorem follows_keyword_snoc (table : List Symbol) (t : Symbol) (i : Nat) (n : List Char) :
    follows_keyword (table ++ [t]) i n ↔
      follows_keyword table i n ∨
        (i + 1 = table.length ∧ (tokAt table i).attr = 1 ∧ t.attr = 2 ∧ t.token = n) := by
  unfold follows_keyword
  simp only [List.length_append, List.length_singleton]
  constructor
  · rintro ⟨hlt, h1, h2, h3⟩
    by_cases hi : i + 1 < table.length
    · left
      rw [tokAt_append_left _ _ _ (by omega)] at h1
      rw [tokAt_append_left _ _ _ hi] at h2 h3
      exact ⟨hi, h1, h2, h3⟩
    · right
      have he : i + 1 = table.length := by omega
      rw [tokAt_append_left _ _ _ (by omega)] at h1
      rw [he, tokAt_append_length] at h2 h3
      exact ⟨he, h1, h2, h3⟩
  · rintro (⟨hlt, h1, h2, h3⟩ | ⟨he, h1, h2, h3⟩)
    · rw [tokAt_append_left _ _ _ (by omega), tokAt_append_left _ _ _ hlt]
      exact ⟨by omega, h1, h2, h3⟩
    · rw [tokAt_append_left _ _ _ (by omega), he, tokAt_append_length]
      exact ⟨by omega, h1, h2, h3⟩

theorem follows_keyword_token (table : List Symbol) (i : Nat) (n : List Char)
    (h : follows_keyword table i n) : ∃ t ∈ table, t.attr = 2 ∧ t.token = n := by
  obtain ⟨hlt, _, h2, h3⟩ := h
  rcases tokAt_mem table (i + 1) with hm | hm
  · exact ⟨_, hm, h2, h3⟩
  · rw [hm] at h2
    exact absurd h2 (by decide)

theorem isDeclared_iff (decls : List Decl) (n : List Char) :
    isDeclared decls n = true ↔ ∃ d ∈ decls, d.name = n := by
  unfold isDeclared
  rw [List.any_eq_true]
  constructor
  · rintro ⟨d, hd, he⟩
    exact ⟨d, hd, (beq_iff_eq.mp he).symm⟩
  · rintro ⟨d, hd, he⟩
    exact ⟨d, hd, beq_iff_eq.mpr he.symm⟩

theorem isDeclared_append (decls : List Decl) (e : Decl) (n : List Char)
    (h : isDeclared decls n = true) : isDeclared (decls ++ [e]) n = true := by
  rw [isDeclared_iff] at h ⊢
  obtain ⟨d, hd, he⟩ := h
  exact ⟨d, List.mem_append_left _ hd, he⟩

theorem getType_append (decls : List Decl) (e : Decl) (n : List Char)
    (h : isDeclared decls n = true) : getType (decls ++ [e]) n = getType decls n := by
  unfold getType
  rw [List.find?_append]
  unfold isDeclared at h
  cases hf : decls.find? (fun d => n == d.name) with
  | some d => rfl
  | none =>
    rw [List.find?_eq_none] at hf
    rw [List.any_eq_true] at h
    obtain ⟨d, hd, he⟩ := h
    exact absurd he (hf d hd)

theorem getType_new (decls : List Decl) (e : Decl) (n : List Char)
    (h : isDeclared decls n = false) (he : e.name = n) :
    getType (decls ++ [e]) n = e.type := by
  unfold getType
  rw [List.find?_append]
  have hf : decls.find? (fun d => n == d.name) = none := by
    rw [List.find?_eq_none]
    intro d hd hb
    have : isDeclared decls n = true := by
      unfold isDeclared
      rw [List.any_eq_true]
      exact ⟨d, hd, hb⟩
    rw [h] at this
    cases this
  rw [hf]
  simp [he]

theorem add_decl_decls (name type : List Char) (line : Nat) (st : State) :
    (add_decl name type line st).decls =
      if MAX_DECLS ≤ st.decls.length then st.decls
      else if isDeclared st.decls name = true then st.decls
      else st.decls ++ [⟨name.take 255, type.take 127, line⟩] := by
  unfold add_decl
  split_ifs <;> rfl

theorem decl_inv_no_pair (table : List Symbol) (decls : List Decl) (t : Symbol)
    (hno : ¬ (1 ≤ table.length ∧ (tokAt table (table.length - 1)).attr = 1 ∧ t.attr = 2))
    (h : decl_inv table decls) : decl_inv (table ++ [t]) decls := by
  have hsame : ∀ i n, follows_keyword (table ++ [t]) i n ↔ follows_keyword table i n := by
    intro i n
    rw [follows_keyword_snoc]
    constructor
    · rintro (h1 | ⟨he, h1, h2, _⟩)
      · exact h1
      · exact absurd ⟨by omega, by rw [← he]; exact h1, h2⟩ hno
    · exact Or.inl
  obtain ⟨p1, p2, p3⟩ := h
  refine ⟨?_, ?_, ?_⟩
  · intro d hd
    obtain ⟨i, n, hp, hn⟩ := p1 d hd
    exact ⟨i, n, (hsame i n).mpr hp, hn⟩
  · intro i n hp hn
    exact p2 i n ((hsame i n).mp hp) hn
  · intro hid hcap i n hp hfirst
    have hp0 := (hsame i n).mp hp
    rw [tokAt_append_left _ _ _ (by have := hp0.1; omega)]
    exact p3 (fun u hu => hid u (List.mem_append_left _ hu)) hcap i n hp0
      (fun j hj hpj => hfirst j hj ((hsame j n).mpr hpj))

theorem decl_inv_pair (table : List Symbol) (decls : List Decl) (t : Symbol)
    (hlen : 1 ≤ table.length) (hk : (tokAt table (table.length - 1)).attr = 1)
    (ht : t.attr = 2) (h : decl_inv table decls) :
    decl_inv (table ++ [t])
      (if MAX_DECLS ≤ decls.length then decls
       else if isDeclared decls t.token = true then decls
       else decls ++ [⟨t.token.take 255, (tokAt table (table.length - 1)).token.take 127,
         t.line⟩]) := by
  obtain ⟨p1, p2, p3⟩ := h
  have hnew : follows_keyword (table ++ [t]) (table.length - 1) t.token :=
    (follows_keyword_snoc table t _ _).mpr (Or.inr ⟨by omega, hk, ht, rfl⟩)
  have hmono : ∀ i n, follows_keyword table i n → follows_keyword (table ++ [t]) i n :=
    fun i n hp => (follows_keyword_snoc table t i n).mpr (Or.inl hp)
  refine ⟨?_, ?_, ?_⟩
  · intro d hd
    have hold : d ∈ decls → ∃ i n, follows_keyword (table ++ [t]) i n ∧ d.name = n.take 255 := by
      intro hd0
      obtain ⟨i, n, hp, hn⟩ := p1 d hd0
      exact ⟨i, n, hmono i n hp, hn⟩
    split_ifs at hd
    · exact hold hd
    · exact hold hd
    · rcases List.mem_append.mp hd with hd0 | hd0
      · exact hold hd0
      · rw [List.mem_singleton.mp hd0]
        exact ⟨_, _, hnew, rfl⟩
  · intro i n hp hn
    rcases (follows_keyword_snoc table t i n).mp hp with hp0 | ⟨_, _, _, htn⟩
    · rcases p2 i n hp0 hn with hfull | hdec
      · left
        rw [if_pos hfull]
        exact hfull
      · right
        split_ifs
        · exact hdec
        · exact hdec
        · exact isDeclared_append _ _ _ hdec
    · by_cases hfull : MAX_DECLS ≤ decls.length
      · left
        rw [if_pos hfull]
        exact hfull
      · right
        rw [if_neg hfull]
        by_cases hdec : isDeclared decls t.token = true
        · rw [if_pos hdec, ← htn]
          exact hdec
        · rw [if_neg hdec, isDeclared_iff]
          refine ⟨_, List.mem_append_right _ (List.mem_singleton.mpr rfl), ?_⟩
          show t.token.take 255 = n
          rw [htn]
          exact List.take_of_length_le hn
  · intro hid hcap i n hp hfirst
    have hid0 : ∀ u ∈ table, u.attr = 2 → u.token.length ≤ 255 :=
      fun u hu => hid u (List.mem_append_left _ hu)
    have hfull : ¬ MAX_DECLS ≤ decls.length := by
      intro hf
      rw [if_pos hf] at hcap
      omega
    rw [if_neg hfull] at hcap ⊢
    rcases (follows_keyword_snoc table t i n).mp hp with hp0 | ⟨he, _, _, htn⟩
    · have hn : n.length ≤ 255 := by
        obtain ⟨u, hu, hu2, hun⟩ := follows_keyword_token table i n hp0
        rw [← hun]
        exact hid0 u hu hu2
      have hdec : isDeclared decls n = true := by
        rcases p2 i n hp0 hn with hf | hd
        · exact absurd hf hfull
        · exact hd
      have hold := p3 hid0 (by omega) i n hp0 (fun j hj hpj => hfirst j hj (hmono j n hpj))
      rw [tokAt_append_left _ _ _ (by have := hp0.1; omega)]
      split_ifs
      · exact hold
      · rw [getType_append _ _ _ hdec]
        exact hold
    · have hn : t.token.length ≤ 255 := hid t (List.mem_append_right _ (List.mem_singleton.mpr rfl)) ht
      have hundec : isDeclared decls t.token = false := by
        cases hd : isDeclared decls t.token with
        | false => rfl
        | true =>
          exfalso
          rw [isDeclared_iff] at hd
          obtain ⟨d, hdm, hdn⟩ := hd
          obtain ⟨j, m, hpj, hm⟩ := p1 d hdm
          have hml : m.length ≤ 255 := by
            obtain ⟨u, hu, hu2, hun⟩ := follows_keyword_token table j m hpj
            rw [← hun]
            exact hid0 u hu hu2
          rw [List.take_of_length_le hml] at hm
          have hmn : m = n := by rw [← hm, hdn, htn]
          rw [hmn] at hpj
          exact hfirst j (by have := hpj.1; omega) (hmono j n hpj)
      have hi : i = table.length - 1 := by omega
      rw [if_neg (by rw [hundec]; decide), ← htn,
        getType_new _ _ _ hundec (List.take_of_length_le hn), hi,
        tokAt_append_left _ _ _ (by omega)]

theorem decl_inv_closed : scan_closed (fun st => decl_inv st.table st.decls) := by
  refine ⟨?_, ?_, ?_⟩
  · intro st buf h
    unfold push_comment
    split_ifs
    · exact h
    · exact h
  · intro st tok a line ha h
    exact decl_inv_no_pair st.table st.decls ⟨tok, a, line⟩ (fun hc => ha hc.2.2) h
  · intro st tok line h
    unfold sniff_decl
    have hlen : (with_token st tok 2 line).table.length = st.table.length + 1 := by
      simp [with_token]
    have hlast : tokAt (with_token st tok 2 line).table
        ((with_token st tok 2 line).table.length - 1) = ⟨tok, 2, line⟩ := by
      rw [hlen]
      exact tokAt_append_length _ _
    have hprev : 1 ≤ st.table.length →
        tokAt (with_token st tok 2 line).table ((with_token st tok 2 line).table.length - 2) =
          tokAt st.table (st.table.length - 1) := by
      intro h1
      rw [hlen]
      exact tokAt_append_left _ _ _ (by omega)
    split_ifs with hc
    · have h1 : 1 ≤ st.table.length := by rw [hlen] at hc; omega
      rw [hlast, hprev h1] at hc ⊢
      rw [(add_decl_table _ _ _ _).1, add_decl_decls]
      exact decl_inv_pair st.table st.decls ⟨tok, 2, line⟩ h1 hc.2.1 rfl h
    · apply decl_inv_no_pair st.table st.decls ⟨tok, 2, line⟩ _ h
      rintro ⟨h1, hk, _⟩
      apply hc
      rw [hlast, hprev h1]
      exact ⟨by rw [hlen]; omega, hk, rfl⟩

theorem add_decl_noop (name type : List Char) (line : Nat) (st : State)
    (h : MAX_DECLS ≤ st.decls.length ∨ isDeclared st.decls name = true) :
    add_decl name type line st = st := by
  unfold add_decl
  rcases h with h | h
  · rw [if_pos h]
  · rw [if_pos h]
    split_ifs <;> rfl

theorem kotlin_step_decls (st : State) (i : Nat) (hinv : decl_inv st.table st.decls)
    (hid : ∀ t ∈ st.table, t.attr = 2 → t.token.length ≤ 255) :
    (kotlin_step st i).table = st.table ∧ (kotlin_step st i).decls = st.decls := by
  have hnoop : (tokAt st.table i).attr = 1 → i + 1 < st.table.length →
      (tokAt st.table (i + 1)).attr = 2 → ∀ (type : List Char) (line : Nat),
        add_decl (tokAt st.table (i + 1)).token type line st = st := by
    intro h1 h2 h3 type line
    have hp : follows_keyword st.table i (tokAt st.table (i + 1)).token := ⟨h2, h1, h3, rfl⟩
    obtain ⟨u, hu, hu2, hun⟩ := follows_keyword_token _ _ _ hp
    exact add_decl_noop _ _ _ _ (hinv.2.1 i _ hp (by rw [← hun]; exact hid u hu hu2))
  unfold kotlin_step
  simp only []
  split_ifs with c1 c2 c3 c4 c5
  · rw [hnoop c1.1 c2.1 c2.2]
    exact check_assignment_type_table _ _ _ _ _
  · rw [hnoop c1.1 c2.1 c2.2]
    exact ⟨rfl, rfl⟩
  · rw [hnoop c1.1 c2.1 c2.2]
    exact ⟨rfl, rfl⟩
  · exact ⟨rfl, rfl⟩
  · exact ⟨rfl, rfl⟩
  · exact ⟨rfl, rfl⟩

theorem kotlin_fold_decls (l : List Nat) (st : State) (hinv : decl_inv st.table st.decls)
    (hid : ∀ t ∈ st.table, t.attr = 2 → t.token.length ≤ 255) :
    (l.foldl kotlin_step st).table = st.table ∧ (l.foldl kotlin_step st).decls = st.decls := by
  induction l generalizing st with
  | nil => exact ⟨rfl, rfl⟩
  | cons i l ih =>
    have hs := kotlin_step_decls st i hinv hid
    rw [List.foldl_cons]
    have h2 := ih (kotlin_step st i) (by rw [hs.1, hs.2]; exact hinv) (by rw [hs.1]; exact hid)
    exact ⟨h2.1.trans hs.1, h2.2.trans hs.2⟩

theorem scan_decl_inv (prior : State) (input : List Char) (st0 : State)
    (h : scan_loop (input.length + 1) input 1 prior.reset = .ok st0) :
    decl_inv st0.table st0.decls := by
  apply scan_loop_keeps (fun st => decl_inv st.table st.decls) decl_inv_closed _ _ _ _ _ _ h
  refine ⟨?_, ?_, ?_⟩
  · intro d hd
    simp [State.reset] at hd
  · intro i n hp
    have := hp.1
    simp [State.reset] at this
  · intro _ _ i n hp
    have := hp.1
    simp [State.reset] at this

theorem run_declarations (prior : State) (input : List Char) (st : State)
    (h : tokenize_and_build prior input = .ok st)
    (hid : ∀ t ∈ st.table, t.attr = 2 → t.token.length ≤ 255) :
    decl_inv st.table st.decls ∧
      ∃ st0, scan_loop (input.length + 1) input 1 prior.reset = .ok st0 ∧
        st0.table = st.table ∧ st0.decls = st.decls := by
  have h0 := h
  unfold tokenize_and_build at h0
  cases hs : scan_loop (input.length + 1) input 1 prior.reset with
  | error e => rw [hs] at h0; simp at h0
  | ok st0 =>
    rw [hs] at h0
    simp only [Except.ok.injEq] at h0
    have hinv := scan_decl_inv prior input st0 hs
    have htab : st.table = st0.table := by rw [← h0, kotlin_fold_table]
    have hk := kotlin_fold_decls (List.range st0.table.length) st0 hinv (by rw [← htab]; exact hid)
    rw [h0] at hk
    exact ⟨by rw [hk.1, hk.2]; exact hinv, st0, rfl, hk.1.symm, hk.2.symm⟩

/-- C25.  After the scan of an input whose Identifier tokens have at most 255
characters and which leaves fewer than 6000 declarations: a name `n` is in the
declaration table if and only if some Identifier token with lexeme `n` comes
right after a Keyword token in the token list; its recorded type is the lexeme
of the keyword before the first such occurrence; and the `var`/`val` pass
after the scanner loop leaves the table as the loop built it.  For
`val x: Int = 5` and for `val x = 5` the table holds `x` with type `val`. -/
theorem C25_declarations_follow_keywords (prior : State) (input : List Char) (st : State)
    (h : tokenize_and_build prior input = .ok st)
    (hid : ∀ t ∈ st.table, t.attr = 2 → t.token.length ≤ 255)
    (hcap : st.decls.length < MAX_DECLS) :
    (∀ n, isDeclared st.decls n = true ↔ ∃ i, follows_keyword st.table i n) ∧
    (∀ i n, follows_keyword st.table i n → (∀ j, j < i → ¬ follows_keyword st.table j n) →
      getType st.decls n = (tokAt st.table i).token) ∧
    (∃ st0, scan_loop (input.length + 1) input 1 prior.reset = .ok st0 ∧
      st0.table = st.table ∧ st0.decls = st.decls) ∧
    (tokenize_and_build prior "val x: Int = 5".toList).map (fun s => s.decls) =
      .ok [⟨"x".toList, "val".toList, 1⟩] ∧
    (tokenize_and_build prior "val x = 5".toList).map (fun s => s.decls) =
      .ok [⟨"x".toList, "val".toList, 1⟩] := by
  obtain ⟨⟨p1, p2, p3⟩, hscan⟩ := run_declarations prior input st h hid
  refine ⟨?_, ?_, hscan, ?_, ?_⟩
  · intro n
    constructor
    · intro hd
      rw [isDeclared_iff] at hd
      obtain ⟨d, hdm, hdn⟩ := hd
      obtain ⟨i, m, hp, hm⟩ := p1 d hdm
      obtain ⟨u, hu, hu2, hun⟩ := follows_keyword_token _ _ _ hp
      rw [List.take_of_length_le (by rw [← hun]; exact hid u hu hu2)] at hm
      exact ⟨i, by rw [← hdn, hm]; exact hp⟩
    · rintro ⟨i, hp⟩
      obtain ⟨u, hu, hu2, hun⟩ := follows_keyword_token _ _ _ hp
      rcases p2 i n hp (by rw [← hun]; exact hid u hu hu2) with hf | hd
      · omega
      · exact hd
  · intro i n hp hfirst
    rw [p3 hid hcap i n hp hfirst]
    apply List.take_of_length_le
    have hkw : isKeyword (tokAt st.table i).token = true := by
      rcases tokAt_mem st.table i with hm | hm
      · exact (tokenize_tokens_ok prior input st h _ hm).1 hp.2.1
      · have := hp.2.1
        rw [hm] at this
        exact absurd this (by decide)
    simp only [isKeyword, List.any_eq_true, beq_iff_eq] at hkw
    obtain ⟨k, hk, hke⟩ := hkw
    rw [hke]
    have := keyword_short k hk
    omega
  · simp only [tokenize_and_build, State.reset]
    decide!
  · simp only [tokenize_and_build, State.reset]
    decide!

/-- Witness of C25 on the text `int a; a = b;`: `a` follows the keyword `int`
and is declared with type `int`; `b` follows no keyword and is not declared. -/
theorem C25_declarations_follow_keywords_witness :
    tokenize_and_build ⟨[], [], [], []⟩ "int a; a = b;".toList =
      .ok ⟨[⟨"int".toList, 1, 1⟩, ⟨"a".toList, 2, 1⟩, ⟨";".toList, 5, 1⟩,
        ⟨"a".toList, 2, 1⟩, ⟨"=".toList, 4, 1⟩, ⟨"b".toList, 2, 1⟩, ⟨";".toList, 5, 1⟩],
        [⟨"a".toList, "int".toList, 1⟩], [], []⟩ ∧
    (∀ n, isDeclared [(⟨"a".toList, "int".toList, 1⟩ : Decl)] n = true ↔
      ∃ i, follows_keyword [⟨"int".toList, 1, 1⟩, ⟨"a".toList, 2, 1⟩, ⟨";".toList, 5, 1⟩,
        ⟨"a".toList, 2, 1⟩, ⟨"=".toList, 4, 1⟩, ⟨"b".toList, 2, 1⟩, ⟨";".toList, 5, 1⟩] i n) ∧
    getType [(⟨"a".toList, "int".toList, 1⟩ : Decl)] "a".toList = "int".toList := by
  have hrun : tokenize_and_build ⟨[], [], [], []⟩ "int a; a = b;".toList =
      .ok ⟨[⟨"int".toList, 1, 1⟩, ⟨"a".toList, 2, 1⟩, ⟨";".toList, 5, 1⟩,
        ⟨"a".toList, 2, 1⟩, ⟨"=".toList, 4, 1⟩, ⟨"b".toList, 2, 1⟩, ⟨";".toList, 5, 1⟩],
        [⟨"a".toList, "int".toList, 1⟩], [], []⟩ := by
    simp only [tokenize_and_build, State.reset]
    decide!
  have hC := C25_declarations_follow_keywords _ _ _ hrun (by decide) (by decide)
  exact ⟨hrun, hC.1,
    hC.2.1 0 "a".toList ⟨by decide, by decide, by decide, by decide⟩
      (fun j hj => absurd hj (Nat.not_lt_zero j))⟩

/-! ### Declared names and UseBeforeDeclaration: claim C26 -/

theorem mismatch_not_use_before (rest : List Char) :
    is_use_before (('E' :: '1' :: rest).take 255) = false := by
  simp [is_use_before, List.isPrefixOf]

theorem report_mismatch_kind (rest : List Char) (line : Nat) (s : State) :
    ∃ new, (report_error (snprintf256 ('E' :: '1' :: rest)) line s).errors = s.errors ++ new ∧
      ∀ e ∈ new, is_use_before e.msg = false := by
  rw [report_msg_eq]
  split_ifs
  · refine ⟨[⟨('E' :: '1' :: rest).take 255, line⟩], rfl, ?_⟩
    intro e he
    rw [List.mem_singleton.mp he]
    exact mismatch_not_use_before rest
  · exact ⟨[], by simp, by simp⟩

theorem check_assignment_type_kind (T V name : List Char) (line : Nat) (s : State) :
    ∃ new, (check_assignment_type T V line name s).errors = s.errors ++ new ∧
      ∀ e ∈ new, is_use_before e.msg = false := by
  unfold check_assignment_type
  simp only []
  split_ifs <;>
    first
    | exact report_mismatch_kind _ line s
    | exact ⟨[], (List.append_nil _).symm, fun e he => absurd he (List.not_mem_nil e)⟩

theorem pass2_e3_declared (i : Nat) (s : State)
    (h : isDeclared s.decls (tokAt s.table i).token = true) : pass2_e3 i s = s := by
  unfold pass2_e3
  simp only []
  split_ifs with h1 h2
  · rw [h] at h2
    exact absurd h2.2 (by decide)
  · rfl
  · rfl

theorem pass2_e1_declared (i : Nat) (s : State)
    (h : isDeclared s.decls (tokAt s.table i).token = true) :
    ∃ new, (pass2_e1 i s).errors = s.errors ++ new ∧
      ∀ e ∈ new, is_use_before e.msg = false := by
  unfold pass2_e1
  simp only []
  split_ifs with h1 h2
  · rw [h] at h2
    cases h2
  · exact check_assignment_type_kind _ _ _ _ s
  · exact ⟨[], by simp, by simp⟩

/-- C26.  The use-before-declaration checks ignore position.  Whatever buffers
`st` a scan leaves, if the name `n` is in the declaration table, then at every
token position `i` holding the lexeme `n`, wherever the declaration stands in
the text, turn `i` of pass 2 appends nothing in its section E3, and what its
section E1 appends is not a UseBeforeDeclaration diagnostic.  The run on
`x = 1; int x;` records no diagnostic at all. -/
theorem C26_declared_name_not_reported (st : State) (n : List Char)
    (hn : isDeclared st.decls n = true) (i : Nat) (hi : (tokAt st.table i).token = n) :
    pass2_e3 i (pass2_e2 i (pass2_before st i)) = pass2_e2 i (pass2_before st i) ∧
    (∃ new, (pass2_e1 i (pass2_e3 i (pass2_e2 i (pass2_before st i)))).errors =
        (pass2_e2 i (pass2_before st i)).errors ++ new ∧
      ∀ e ∈ new, is_use_before e.msg = false) ∧
    tokenize_and_build ⟨[], [], [], []⟩ "x = 1; int x;".toList = .ok use_then_declare ∧
    analysis_run ⟨[], [], [], []⟩ "x = 1; int x;".toList = .ok use_then_declare := by
  have ht := (pass2_e2_table i (pass2_before st i)).1.trans (pass2_before_table st i).1
  have hd := (pass2_e2_table i (pass2_before st i)).2.trans (pass2_before_table st i).2
  have hdec : isDeclared (pass2_e2 i (pass2_before st i)).decls
      (tokAt (pass2_e2 i (pass2_before st i)).table i).token = true := by
    rw [ht, hd, hi]
    exact hn
  have h3 := pass2_e3_declared i _ hdec
  refine ⟨h3, ?_, ?_, ?_⟩
  · rw [h3]
    exact pass2_e1_declared i _ hdec
  · simp only [tokenize_and_build, State.reset]
    decide!
  · simp only [analysis_run, tokenize_and_build, State.reset]
    decide!

/-- Witness of C26 on the buffers of `x = 1; int x;`: the name `x` is declared
and token 0, its use before the declaration, holds it. -/
theorem C26_declared_name_not_reported_witness :
    isDeclared use_then_declare.decls "x".toList = true ∧
    (tokAt use_then_declare.table 0).token = "x".toList ∧
    pass2_e3 0 (pass2_e2 0 (pass2_before use_then_declare 0)) =
      pass2_e2 0 (pass2_before use_then_declare 0) ∧
    (∃ new, (pass2_e1 0 (pass2_e3 0 (pass2_e2 0 (pass2_before use_then_declare 0)))).errors =
        (pass2_e2 0 (pass2_before use_then_declare 0)).errors ++ new ∧
      ∀ e ∈ new, is_use_before e.msg = false) :=
  ⟨by decide, by decide,
    (C26_declared_name_not_reported use_then_declare "x".toList (by decide) 0 (by decide)).1,
    (C26_declared_name_not_reported use_then_declare "x".toList (by decide) 0 (by decide)).2.1⟩

/-! ### The program on its static storage: claim C20 -/

theorem cstr_nonul (l : List Char) : ∀ c ∈ cstr l, c ≠ NUL := by
  intro c hc
  unfold cstr at hc
  have := List.mem_takeWhile_imp hc
  simpa using this

theorem cstr_idem (l : List Char) : cstr (cstr l) = cstr l :=
  cstr_eq_self _ (cstr_nonul l)

theorem cstr_append (a x : List Char) (ha : ∀ c ∈ a, c ≠ NUL) :
    cstr (a ++ x) = a ++ cstr x := by
  unfold cstr
  rw [List.takeWhile_append_of_pos]
  intro c hc
  simpa using ha c hc

theorem cstr_nul_cons (r : List Char) : cstr (NUL :: r) = [] := by
  simp [cstr]

theorem cstr_strcpy (dst src : List Char) : cstr (Raw.strcpy dst src) = cstr src := by
  unfold Raw.strcpy
  rw [cstr_append _ _ (cstr_nonul src), cstr_nul_cons, List.append_nil]

theorem cstr_pad (k : Nat) (tail : List Char) (h : cstr tail = []) :
    cstr (List.replicate k NUL ++ tail) = [] := by
  cases k with
  | zero => simpa using h
  | succ k => rw [List.replicate_succ, List.cons_append, cstr_nul_cons]

theorem cstr_strncpy (dst src : List Char) (n : Nat) (h : cstr (dst.drop n) = []) :
    cstr (Raw.strncpy dst src n) = (cstr src).take n := by
  unfold Raw.strncpy
  rw [List.append_assoc, cstr_append _ _ (fun c hc => cstr_nonul src c (List.mem_of_mem_take hc)),
    cstr_pad _ _ h, List.append_nil]

theorem strncpy_drop (dst src : List Char) (n : Nat) :
    (Raw.strncpy dst src n).drop n = dst.drop n := by
  unfold Raw.strncpy
  have hlen : ((cstr src).take n ++ List.replicate (n - (cstr src).length) NUL).length = n := by
    simp only [List.length_append, List.length_take, List.length_replicate]
    omega
  rw [List.drop_append_eq_append_drop, hlen, Nat.sub_self, List.drop_zero,
    List.drop_of_length_le (by omega), List.nil_append]

theorem range_map_put (α β : Type) (rows : Nat → α) (c : Nat) (v : α) (f : α → β) :
    (List.range (c + 1)).map (fun i => f (Raw.put_row α rows c v i)) =
      (List.range c).map (fun i => f (rows i)) ++ [f v] := by
  rw [List.range_succ, List.map_append]
  congr 1
  · apply List.map_congr_left
    intro i hi
    have : i ≠ c := by have := List.mem_range.mp hi; omega
    simp [Raw.put_row, this]
  · simp [Raw.put_row]

theorem live_lengths (m : Raw.Mem) :
    (Raw.live m).table.length = m.tok_count ∧ (Raw.live m).decls.length = m.decl_count ∧
      (Raw.live m).errors.length = m.err_count ∧
      (Raw.live m).comments.length = m.com_count := by
  simp [Raw.live]

theorem push_token_live (m : Raw.Mem) (buf : List Char) (attr line : Nat) :
    (Raw.push_token m buf attr line).map Raw.live = push_token (Raw.live m) buf attr line := by
  unfold Raw.push_token push_token
  rw [(live_lengths m).1]
  split_ifs
  · simp only [Except.map, Except.ok.injEq]
    have h := range_map_put Symbol Symbol m.table m.tok_count
      ⟨Raw.strcpy (m.table m.tok_count).token buf, attr, line⟩
      (fun r => ⟨cstr r.token, r.attr, r.line⟩)
    simp only [cstr_strcpy] at h
    simp only [Raw.live]
    rw [State.mk.injEq]
    refine ⟨?_, ?_, ?_, ?_⟩ <;> first | rfl | exact h
  · rfl

theorem push_comment_live (m : Raw.Mem) (buf : List Char) :
    Raw.live (Raw.push_comment m buf) = push_comment (Raw.live m) buf := by
  unfold Raw.push_comment push_comment
  rw [(live_lengths m).2.2.2]
  split_ifs
  · have h := range_map_put (List Char) (List Char) m.comments m.com_count
      (Raw.strcpy (m.comments m.com_count) buf) cstr
    simp only [cstr_strcpy] at h
    simp only [Raw.live]
    rw [State.mk.injEq]
    refine ⟨?_, ?_, ?_, ?_⟩ <;> first | rfl | exact h
  · rfl

theorem any_map_rows (α : Type) (f : Nat → α) (p : α → Bool) (l : List Nat) :
    l.any (fun i => p (f i)) = (l.map f).any p := by
  induction l with
  | nil => rfl
  | cons i l ih => simp only [List.any_cons, List.map_cons, ih]

theorem isDeclared_live (m : Raw.Mem) (id : List Char) :
    Raw.isDeclared m id = isDeclared (Raw.live m).decls id := by
  unfold Raw.isDeclared isDeclared
  exact any_map_rows Decl
    (fun i => ⟨cstr (m.decls i).name, cstr (m.decls i).type, (m.decls i).line⟩)
    (fun d => id == d.name) _

theorem getType_live (m : Raw.Mem) (id : List Char) :
    Raw.getType m id = getType (Raw.live m).decls id := by
  unfold Raw.getType getType
  simp only [Raw.live, List.find?_map, Function.comp_def]
  cases (List.range m.decl_count).find? (fun i => id == cstr (m.decls i).name) <;> rfl

theorem add_decl_live (name type : List Char) (line : Nat) (m : Raw.Mem)
    (ht : Raw.terminated m) (hn : cstr name = name) (hty : cstr type = type) :
    Raw.live (Raw.add_decl name type line m) = add_decl name type line (Raw.live m) := by
  unfold Raw.add_decl add_decl
  rw [(live_lengths m).2.1, isDeclared_live]
  split_ifs
  · rfl
  · rfl
  · have h := range_map_put Decl Decl m.decls m.decl_count
      ⟨Raw.strncpy (m.decls m.decl_count).name name 255,
        Raw.strncpy (m.decls m.decl_count).type type 127, line⟩
      (fun r => ⟨cstr r.name, cstr r.type, r.line⟩)
    simp only [cstr_strncpy _ _ _ (ht m.decl_count).1, cstr_strncpy _ _ _ (ht m.decl_count).2.1,
      hn, hty] at h
    simp only [Raw.live]
    rw [State.mk.injEq]
    refine ⟨?_, ?_, ?_, ?_⟩ <;> first | rfl | exact h

theorem report_error_live (msg : List Char) (line : Nat) (m : Raw.Mem)
    (ht : Raw.terminated m) (hmsg : cstr msg = msg) :
    Raw.live (Raw.report_error msg line m) = report_error msg line (Raw.live m) := by
  unfold Raw.report_error report_error
  rw [(live_lengths m).2.2.1]
  split_ifs
  · rfl
  · have h := range_map_put Error Error m.errors m.err_count
      ⟨Raw.strncpy (m.errors m.err_count).msg msg 511, line⟩
      (fun r => ⟨cstr r.msg, r.line⟩)
    simp only [cstr_strncpy _ _ _ (ht m.err_count).2.2, hmsg] at h
    simp only [Raw.live]
    rw [State.mk.injEq]
    refine ⟨?_, ?_, ?_, ?_⟩ <;> first | rfl | exact h

theorem add_decl_terminated (name type : List Char) (line : Nat) (m : Raw.Mem)
    (ht : Raw.terminated m) : Raw.terminated (Raw.add_decl name type line m) := by
  unfold Raw.add_decl
  split_ifs
  · exact ht
  · exact ht
  · intro i
    by_cases hi : i = m.decl_count
    · simp only [Raw.put_row, hi, if_true, strncpy_drop]
      rw [← hi]
      exact ht i
    · simp only [Raw.put_row, hi, if_false]
      exact ht i

theorem report_error_terminated (msg : List Char) (line : Nat) (m : Raw.Mem)
    (ht : Raw.terminated m) : Raw.terminated (Raw.report_error msg line m) := by
  unfold Raw.report_error
  split_ifs
  · exact ht
  · intro i
    by_cases hi : i = m.err_count
    · simp only [Raw.put_row, hi, if_true, strncpy_drop]
      rw [← hi]
      exact ht i
    · simp only [Raw.put_row, hi, if_false]
      exact ht i

theorem push_token_terminated (m m1 : Raw.Mem) (buf : List Char) (attr line : Nat)
    (ht : Raw.terminated m) (h : Raw.push_token m buf attr line = .ok m1) :
    Raw.terminated m1 := by
  unfold Raw.push_token at h
  split_ifs at h
  cases h
  exact ht

theorem push_comment_terminated (m : Raw.Mem) (buf : List Char) (ht : Raw.terminated m) :
    Raw.terminated (Raw.push_comment m buf) := by
  unfold Raw.push_comment
  split_ifs
  · exact ht
  · exact ht

theorem cstr_fix_of (l : List Char) (h : cstr l = l) : ∀ c ∈ l, c ≠ NUL := by
  rw [← h]
  exact cstr_nonul l

theorem cstr_fix_take (l : List Char) (n : Nat) (h : cstr l = l) :
    cstr (l.take n) = l.take n :=
  cstr_eq_self _ (fun c hc => cstr_fix_of l h c (List.mem_of_mem_take hc))

theorem cstr_fix_strip (l : List Char) (h : cstr l = l) :
    cstr (strip_nullable l) = strip_nullable l := by
  unfold strip_nullable
  split_ifs
  · exact cstr_eq_self _ (fun c hc => cstr_fix_of l h c (List.mem_of_mem_dropLast hc))
  · exact h

theorem cstr_fix_append (a b : List Char) (ha : cstr a = a) (hb : cstr b = b) :
    cstr (a ++ b) = a ++ b := by
  rw [cstr_append _ _ (cstr_fix_of a ha), hb]

theorem cstr_fix_cannot_take (d n v : List Char) (hd : cstr d = d) (hn : cstr n = n)
    (hv : cstr v = v) : cstr (msg_cannot_take d n v) = msg_cannot_take d n v := by
  unfold msg_cannot_take snprintf256 text_cannot_take
  apply cstr_fix_take
  exact cstr_fix_append _ _ (cstr_fix_append _ _ (cstr_fix_append _ _ (cstr_fix_append _ _
    (cstr_fix_append _ _ (cstr_fix_append _ _ (by decide) hd) (by decide)) hn) (by decide)) hv)
    (by decide)

theorem cstr_fix_must_take (d n v : List Char) (hd : cstr d = d) (hn : cstr n = n)
    (hv : cstr v = v) : cstr (msg_must_take d n v) = msg_must_take d n v := by
  unfold msg_must_take snprintf256 text_must_take
  apply cstr_fix_take
  exact cstr_fix_append _ _ (cstr_fix_append _ _ (cstr_fix_append _ _ (cstr_fix_append _ _
    (cstr_fix_append _ _ (cstr_fix_append _ _ (by decide) hd) (by decide)) hn) (by decide)) hv)
    (by decide)

theorem cstr_fix_message (pre post tok : List Char) (hpre : cstr pre = pre)
    (hpost : cstr post = post) (ht : cstr tok = tok) :
    cstr (snprintf256 (pre ++ tok ++ post)) = snprintf256 (pre ++ tok ++ post) := by
  unfold snprintf256
  exact cstr_fix_take _ _ (cstr_fix_append _ _ (cstr_fix_append _ _ hpre ht) hpost)

theorem check_assignment_type_live (T V name : List Char) (line : Nat) (m : Raw.Mem)
    (ht : Raw.terminated m) (hT : cstr T = T) (hV : cstr V = V) (hn : cstr name = name) :
    Raw.live (Raw.check_assignment_type T V line name m) =
        check_assignment_type T V line name (Raw.live m) ∧
      Raw.terminated (Raw.check_assignment_type T V line name m) := by
  have hd := cstr_fix_strip _ (cstr_fix_take T 127 hT)
  have h1 := cstr_fix_cannot_take _ name V hd hn hV
  have h2 := cstr_fix_must_take _ name V hd hn hV
  unfold Raw.check_assignment_type check_assignment_type
  simp only []
  split_ifs <;>
    first
    | exact ⟨rfl, ht⟩
    | exact ⟨report_error_live _ _ _ ht h1, report_error_terminated _ _ _ ht⟩
    | exact ⟨report_error_live _ _ _ ht h2, report_error_terminated _ _ _ ht⟩

theorem tokAt_live (m : Raw.Mem) (i : Nat) (h : i < m.tok_count) :
    tokAt (Raw.live m).table i = Raw.tok m i := by
  unfold tokAt
  rw [List.getD_eq_getElem _ _ (by rw [(live_lengths m).1]; exact h)]
  simp [Raw.live]

theorem tok_fix (m : Raw.Mem) (i : Nat) : cstr (Raw.tok m i).token = (Raw.tok m i).token :=
  cstr_idem _

theorem getType_fix (m : Raw.Mem) (id : List Char) : cstr (Raw.getType m id) = Raw.getType m id := by
  unfold Raw.getType
  cases (List.range m.decl_count).find? (fun i => id == cstr (m.decls i).name) with
  | none => exact (by decide : cstr "UNKNOWN".toList = "UNKNOWN".toList)
  | some i => exact cstr_idem _

theorem sim_same (fp : List Char) (line : Nat) (m : Raw.Mem) (ht : Raw.terminated m) :
    Raw.sim (.ok (fp, line, m)) (.ok (fp, line, Raw.live m)) := by
  refine ⟨?_, rfl⟩
  intro x hx
  cases hx
  exact ht

theorem sim_push (fp2 : List Char) (line2 : Nat) (m : Raw.Mem) (buf : List Char)
    (attr line : Nat) (ht : Raw.terminated m) :
    Raw.sim
      (match Raw.push_token m buf attr line with
       | .ok m1 => .ok (fp2, line2, m1)
       | .error e => .error e)
      (match push_token (Raw.live m) buf attr line with
       | .ok st1 => .ok (fp2, line2, st1)
       | .error e => .error e) := by
  have hl := push_token_live m buf attr line
  cases hp : Raw.push_token m buf attr line with
  | error e =>
    rw [hp] at hl
    rw [← hl]
    refine ⟨?_, rfl⟩
    intro x hx
    cases hx
  | ok m1 =>
    rw [hp] at hl
    rw [← hl]
    refine ⟨?_, rfl⟩
    intro x hx
    cases hx
    exact push_token_terminated m m1 buf attr line ht hp

theorem scan_namespace_sim (fp : List Char) (line : Nat) (m : Raw.Mem)
    (ht : Raw.terminated m) :
    Raw.sim (Raw.scan_namespace fp line m) (scan_namespace fp line (Raw.live m)) := by
  unfold Raw.scan_namespace scan_namespace
  generalize read_while (fun c => isspace c && c != '\n') 1 [] fp line = r
  obtain ⟨b, pch, fp1, line1⟩ := r
  simp only
  split_ifs
  · exact sim_same _ _ m ht
  · exact sim_push _ _ m _ 8 _ ht
  · exact sim_same _ _ m ht

theorem sim_of_live (fp : List Char) (line : Nat) (m : Raw.Mem) (st : State)
    (ht : Raw.terminated m) (h : Raw.live m = st) :
    Raw.sim (.ok (fp, line, m)) (.ok (fp, line, st)) := by
  rw [← h]
  exact sim_same fp line m ht

theorem scan_word_sim (ch : Char) (fp : List Char) (line : Nat) (m : Raw.Mem)
    (ht : Raw.terminated m) :
    Raw.sim (Raw.scan_word ch fp line m) (scan_word ch fp line (Raw.live m)) := by
  unfold Raw.scan_word scan_word
  generalize read_while is_word_char 512 [ch] fp line = r
  obtain ⟨buf, c2, fp1, line1⟩ := r
  simp only
  generalize ungetc_nl c2 fp1 line1 = u
  obtain ⟨fp2, line2⟩ := u
  simp only
  generalize (if isKeyword buf = true then 1 else 2) = a
  have hl := push_token_live m buf a line2
  cases hp : Raw.push_token m buf a line2 with
  | error e =>
    rw [hp] at hl
    rw [← hl]
    refine ⟨?_, rfl⟩
    intro x hx
    cases hx
  | ok m1 =>
    rw [hp] at hl
    rw [← hl]
    have ht1 := push_token_terminated m m1 buf a line2 ht hp
    simp only [Except.map]
    by_cases hns : (isKeyword buf && (buf == "package".toList || buf == "import".toList)) = true
    · rw [if_pos hns, if_pos hns]
      exact scan_namespace_sim fp2 line2 m1 ht1
    · rw [if_neg hns, if_neg hns, (live_lengths m1).1]
      by_cases h2 : m1.tok_count ≥ 2
      · rw [tokAt_live m1 (m1.tok_count - 2) (by omega),
          tokAt_live m1 (m1.tok_count - 1) (by omega)]
        split_ifs
        · exact sim_of_live _ _ _ _ (add_decl_terminated _ _ _ _ ht1)
            (add_decl_live _ _ _ _ ht1 (tok_fix _ _) (tok_fix _ _))
        · exact sim_same _ _ m1 ht1
      · rw [if_neg (fun h => h2 h.1), if_neg (fun h => h2 h.1)]
        exact sim_same _ _ m1 ht1

theorem scan_number_sim (ch : Char) (fp : List Char) (line : Nat) (m : Raw.Mem)
    (ht : Raw.terminated m) :
    Raw.sim (Raw.scan_number ch fp line m) (scan_number ch fp line (Raw.live m)) := by
  unfold Raw.scan_number scan_number
  exact sim_push _ _ m _ 3 _ ht

theorem scan_char_sim (fp : List Char) (line : Nat) (m : Raw.Mem) (ht : Raw.terminated m) :
    Raw.sim (Raw.scan_char fp line m) (scan_char fp line (Raw.live m)) := by
  unfold Raw.scan_char scan_char
  exact sim_push _ _ m _ 7 _ ht

theorem scan_string_sim (fp : List Char) (line : Nat) (m : Raw.Mem) (ht : Raw.terminated m) :
    Raw.sim (Raw.scan_string fp line m) (scan_string fp line (Raw.live m)) := by
  unfold Raw.scan_string scan_string
  exact sim_push _ _ m _ 6 _ ht

theorem scan_operator_sim (ch : Char) (fp : List Char) (line : Nat) (m : Raw.Mem)
    (ht : Raw.terminated m) :
    Raw.sim (Raw.scan_operator ch fp line m) (scan_operator ch fp line (Raw.live m)) := by
  unfold Raw.scan_operator scan_operator
  exact sim_push _ _ m _ _ _ ht

theorem scan_token_sim (ch : Char) (fp : List Char) (line : Nat) (m : Raw.Mem)
    (ht : Raw.terminated m) :
    Raw.sim (Raw.scan_token ch fp line m) (scan_token ch fp line (Raw.live m)) := by
  unfold Raw.scan_token scan_token
  split_ifs
  · exact scan_word_sim ch fp line m ht
  · exact scan_number_sim ch fp line m ht
  · exact scan_char_sim fp line m ht
  · exact scan_string_sim fp line m ht
  · exact scan_operator_sim ch fp line m ht
  · exact sim_push fp line m [ch] 5 line ht
  · exact sim_same fp line m ht

theorem scan_step_sim (ch : Char) (fp : List Char) (line : Nat) (m : Raw.Mem)
    (ht : Raw.terminated m) :
    Raw.sim (Raw.scan_step ch fp line m) (scan_step ch fp line (Raw.live m)) := by
  unfold Raw.scan_step scan_step
  split_ifs
  · exact sim_same fp line m ht
  · generalize getc_nl fp line = r
    obtain ⟨nxt, fp1, line1⟩ := r
    simp only
    split_ifs
    · exact sim_of_live _ _ _ _ (push_comment_terminated m _ ht) (push_comment_live m _)
    · exact sim_of_live _ _ _ _ (push_comment_terminated m _ ht) (push_comment_live m _)
    · exact scan_token_sim ch _ _ m ht
  · exact scan_token_sim ch fp line m ht

theorem scan_loop_sim (fuel : Nat) :
    ∀ (fp : List Char) (line : Nat) (m : Raw.Mem), Raw.terminated m →
      (Raw.scan_loop fuel fp line m).map Raw.live = scan_loop fuel fp line (Raw.live m) ∧
        ∀ m2, Raw.scan_loop fuel fp line m = .ok m2 → Raw.terminated m2 := by
  induction fuel with
  | zero =>
    intro fp line m _
    exact ⟨rfl, fun m2 h => by simp [Raw.scan_loop] at h⟩
  | succ fuel ih =>
    intro fp line m ht
    rw [Raw.scan_loop, scan_loop]
    generalize getc_nl fp line = g
    obtain ⟨c, fp1, line1⟩ := g
    cases c with
    | none =>
      refine ⟨rfl, ?_⟩
      intro m2 h
      simp only [Except.ok.injEq] at h
      rw [← h]
      exact ht
    | some ch =>
      simp only
      obtain ⟨hterm, hmap⟩ := scan_step_sim ch fp1 line1 m ht
      cases hstep : Raw.scan_step ch fp1 line1 m with
      | error e =>
        rw [hstep] at hmap
        rw [← hmap]
        exact ⟨rfl, fun m2 h => by cases h⟩
      | ok v =>
        obtain ⟨fp2, line2, m1⟩ := v
        rw [hstep] at hmap
        rw [← hmap]
        exact ih fp2 line2 m1 (hterm _ hstep)

/-! ### `levenshtein` on its static table -/

theorem for_loop_inv (σ : Type) (body : Nat → σ → σ) (Inv : Nat → σ → Prop) :
    ∀ (count lo : Nat) (s : σ), Inv lo s →
      (∀ k t, lo ≤ k → k < lo + count → Inv k t → Inv (k + 1) (body k t)) →
      Inv (lo + count) (Raw.for_loop σ body lo count s) := by
  intro count
  induction count with
  | zero => intro lo s h _; exact h
  | succ c ih =>
    intro lo s h hstep
    rw [Raw.for_loop, show lo + (c + 1) = (lo + 1) + c by omega]
    exact ih (lo + 1) (body lo s) (hstep lo s (Nat.le_refl _) (by omega) h)
      (fun k t h1 h2 hk => hstep k t (by omega) (by omega) hk)

theorem take_succ_reverse (a : List Char) :
    ∀ k, k < a.length → (a.take (k + 1)).reverse = a.getD k NUL :: (a.take k).reverse := by
  induction a with
  | nil => intro k h; simp at h
  | cons x a ih =>
    intro k h
    cases k with
    | zero => simp
    | succ k =>
      have := ih k (by simpa using h)
      simp only [List.take_succ_cons, List.reverse_cons, this, List.getD_cons_succ,
        List.cons_append]

theorem prefix_distance_step (a b : List Char) (k l : Nat) (hk : k < a.length)
    (hl : l < b.length) :
    edit_distance (a.take (k + 1)).reverse (b.take (l + 1)).reverse =
      if a.getD k NUL = b.getD l NUL then edit_distance (a.take k).reverse (b.take l).reverse
      else 1 + min_int (edit_distance (a.take k).reverse (b.take l).reverse)
        (min_int (edit_distance (a.take k).reverse (b.take (l + 1)).reverse)
          (edit_distance (a.take (k + 1)).reverse (b.take l).reverse)) := by
  rw [take_succ_reverse a k hk, take_succ_reverse b l hl, edit_cons_step]

theorem dp_fill (a b : List Char) (dp : Nat → Nat → Nat) :
    ∀ i j, i ≤ a.length → j ≤ b.length →
      Raw.for_loop _ (fun i d => Raw.for_loop _ (fun j d2 => Raw.lev_cell a b i j d2)
          1 b.length d) 1 a.length
        (Raw.for_loop _ (fun j d => Raw.dp_set d 0 j j) 0 (b.length + 1)
          (Raw.for_loop _ (fun i d => Raw.dp_set d i 0 i) 0 (a.length + 1) dp)) i j =
        edit_distance (a.take i).reverse (b.take j).reverse := by
  have h1 := for_loop_inv _ (fun i d => Raw.dp_set d i 0 i)
    (fun k d => ∀ i, i < k → d i 0 = i) (a.length + 1) 0 dp
    (fun i hi => absurd hi (Nat.not_lt_zero i))
    (by
      intro k t _ _ hk i hi
      by_cases hik : i = k
      · simp [Raw.dp_set, hik]
      · simp only [Raw.dp_set, hik, false_and, if_false]
        exact hk i (by omega))
  generalize Raw.for_loop _ (fun i d => Raw.dp_set d i 0 i) 0 (a.length + 1) dp = dp1 at h1 ⊢
  have h2 := for_loop_inv _ (fun j d => Raw.dp_set d 0 j j)
    (fun k d => (∀ i, i < 0 + (a.length + 1) → d i 0 = i) ∧ ∀ j, j < k → d 0 j = j)
    (b.length + 1) 0 dp1 ⟨h1, fun j hj => absurd hj (Nat.not_lt_zero j)⟩
    (by
      intro k t _ _ hk
      refine ⟨?_, ?_⟩
      · intro i hi
        by_cases h0 : i = 0 ∧ 0 = k
        · obtain ⟨rfl, rfl⟩ := h0
          simp [Raw.dp_set]
        · simp only [Raw.dp_set, h0, if_false]
          exact hk.1 i hi
      · intro j hj
        by_cases hjk : j = k
        · simp [Raw.dp_set, hjk]
        · simp only [Raw.dp_set, hjk, and_false, if_false]
          exact hk.2 j (by omega))
  generalize Raw.for_loop _ (fun j d => Raw.dp_set d 0 j j) 0 (b.length + 1) dp1 = dp2 at h2 ⊢
  have h3 := for_loop_inv _
    (fun i d => Raw.for_loop _ (fun j d2 => Raw.lev_cell a b i j d2) 1 b.length d)
    (fun k d => ∀ i j, i ≤ a.length → j ≤ b.length → (i < k ∨ j = 0) →
      d i j = edit_distance (a.take i).reverse (b.take j).reverse)
    a.length 1 dp2
    (by
      intro i j hi hj hreg
      rcases hreg with h | h
      · have hi0 : i = 0 := by omega
        subst hi0
        rw [h2.2 j (by omega)]
        simp [edit_nil_left, hj]
      · subst h
        rw [h2.1 i (by omega)]
        simp [edit_nil_right, hi])
    (by
      intro k t hk1 hk2 hInv
      have h4 := for_loop_inv _ (fun j d2 => Raw.lev_cell a b k j d2)
        (fun l d => ∀ i j, i ≤ a.length → j ≤ b.length → (i < k ∨ j = 0 ∨ (i = k ∧ j < l)) →
          d i j = edit_distance (a.take i).reverse (b.take j).reverse)
        b.length 1 t
        (by
          intro i j hi hj hreg
          apply hInv i j hi hj
          rcases hreg with h | h | h
          · exact Or.inl h
          · exact Or.inr h
          · exact Or.inr (by omega))
        (by
          intro l d hl1 hl2 hd i j hi hj hreg
          by_cases hcell : i = k ∧ j = l
          · obtain ⟨rfl, rfl⟩ := hcell
            obtain ⟨k0, rfl⟩ : ∃ k0, i = k0 + 1 := ⟨i - 1, by omega⟩
            obtain ⟨l0, rfl⟩ : ∃ l0, j = l0 + 1 := ⟨j - 1, by omega⟩
            simp only [Raw.lev_cell, Raw.dp_set, and_self, if_true, Nat.add_sub_cancel]
            rw [hd k0 l0 (by omega) (by omega) (Or.inl (by omega)),
              hd k0 (l0 + 1) (by omega) hj (Or.inl (by omega)),
              hd (k0 + 1) l0 hi (by omega) (by
                by_cases hl0 : l0 = 0
                · exact Or.inr (Or.inl hl0)
                · exact Or.inr (Or.inr ⟨rfl, by omega⟩)),
              prefix_distance_step a b k0 l0 (by omega) (by omega)]
          · simp only [Raw.lev_cell, Raw.dp_set, hcell, if_false]
            apply hd i j hi hj
            rcases hreg with h | h | h
            · exact Or.inl h
            · exact Or.inr (Or.inl h)
            · exact Or.inr (Or.inr ⟨h.1, by
                have : j ≠ l := fun hjl => hcell ⟨h.1, hjl⟩
                omega⟩))
      intro i j hi hj hreg
      apply h4 i j hi hj
      rcases hreg with h | h
      · by_cases hik : i = k
        · exact Or.inr (Or.inr ⟨hik, by omega⟩)
        · exact Or.inl (by omega)
      · exact Or.inr (Or.inl h))
  intro i j hi hj
  exact h3 i j hi hj (Or.inl (by omega))

theorem levenshtein_raw (dp : Nat → Nat → Nat) (a b : List Char) :
    (Raw.levenshtein dp a b).1 = levenshtein a b := by
  by_cases h : a.length > 300 ∨ b.length > 300
  · unfold Raw.levenshtein levenshtein
    simp only []
    rw [if_pos h, if_pos h]
  · rw [levenshtein_eq a b (by omega) (by omega)]
    unfold Raw.levenshtein
    simp only []
    rw [if_neg h]
    simp only []
    rw [dp_fill a b dp a.length b.length (Nat.le_refl _) (Nat.le_refl _), List.take_length,
      List.take_length, edit_reverse _ a b rfl]

theorem similar_loop_raw (w : List Char) (ks : List (List Char)) :
    ∀ dp, (Raw.similar_loop w ks dp).1 = ks.any (fun k => decide (levenshtein w k ≤ 2)) := by
  induction ks with
  | nil => intro dp; rfl
  | cons k ks ih =>
    intro dp
    rw [Raw.similar_loop, List.any_cons]
    have hl := levenshtein_raw dp w k
    generalize Raw.levenshtein dp w k = r at hl
    obtain ⟨d, dp1⟩ := r
    simp only at hl ⊢
    rw [← hl]
    by_cases hd : d ≤ 2
    · simp [hd]
    · simp [hd, ih dp1]

theorem similarToKeyword_raw (dp : Nat → Nat → Nat) (w : List Char) :
    (Raw.similarToKeyword dp w).1 = similarToKeyword w := by
  unfold Raw.similarToKeyword similarToKeyword
  split_ifs
  · rfl
  · exact similar_loop_raw w keywords dp

/-! ### The passes after the scanner loop -/

theorem add_decl_count (name type : List Char) (line : Nat) (m : Raw.Mem) :
    (Raw.add_decl name type line m).tok_count = m.tok_count := by
  unfold Raw.add_decl
  split_ifs <;> rfl

theorem report_error_count (msg : List Char) (line : Nat) (m : Raw.Mem) :
    (Raw.report_error msg line m).tok_count = m.tok_count := by
  unfold Raw.report_error
  split_ifs <;> rfl

theorem check_assignment_type_count (T V name : List Char) (line : Nat) (m : Raw.Mem) :
    (Raw.check_assignment_type T V line name m).tok_count = m.tok_count := by
  unfold Raw.check_assignment_type
  simp only []
  split_ifs <;> first | rfl | exact report_error_count _ _ _

theorem kotlin_step_live (m : Raw.Mem) (i : Nat) (ht : Raw.terminated m)
    (hi : i < m.tok_count) :
    Raw.live (Raw.kotlin_step m i) = kotlin_step (Raw.live m) i ∧
      Raw.terminated (Raw.kotlin_step m i) ∧
      (Raw.kotlin_step m i).tok_count = m.tok_count := by
  have hlen := (live_lengths m).1
  have e0 := tokAt_live m i hi
  unfold Raw.kotlin_step kotlin_step
  simp only [hlen, e0]
  by_cases c1 : ((Raw.tok m i).attr = 1 ∧
      ((Raw.tok m i).token = "var".toList ∨ (Raw.tok m i).token = "val".toList))
  · rw [if_pos c1, if_pos c1]
    by_cases g1 : i + 1 < m.tok_count
    · have e1 := tokAt_live m (i + 1) g1
      simp only [e1]
      by_cases c2 : (i + 1 < m.tok_count ∧ (Raw.tok m (i + 1)).attr = 2)
      · rw [if_pos c2, if_pos c2]
        have hfix := tok_fix m (i + 1)
        by_cases g2 : i + 2 < m.tok_count
        · have e2 := tokAt_live m (i + 2) g2
          simp only [e2]
          by_cases c3 : (i + 2 < m.tok_count ∧ (Raw.tok m (i + 2)).token = ":".toList ∧
              i + 3 < m.tok_count)
          · rw [if_pos c3, if_pos c3]
            have e3 := tokAt_live m (i + 3) c3.2.2
            simp only [e3]
            have hty := cstr_fix_strip _ (cstr_fix_take _ 127 (tok_fix m (i + 3)))
            have hA := add_decl_live (Raw.tok m (i + 1)).token
              (strip_nullable ((Raw.tok m (i + 3)).token.take 127)) (Raw.tok m (i + 1)).line m
              ht hfix hty
            have hT := add_decl_terminated (Raw.tok m (i + 1)).token
              (strip_nullable ((Raw.tok m (i + 3)).token.take 127)) (Raw.tok m (i + 1)).line m ht
            have hC := add_decl_count (Raw.tok m (i + 1)).token
              (strip_nullable ((Raw.tok m (i + 3)).token.take 127)) (Raw.tok m (i + 1)).line m
            by_cases g4 : i + 4 < m.tok_count
            · have e4 := tokAt_live m (i + 4) g4
              simp only [e4]
              by_cases c4 : (i + 4 < m.tok_count ∧ (Raw.tok m (i + 4)).token = "=".toList ∧
                  i + 5 < m.tok_count)
              · rw [if_pos c4, if_pos c4]
                have e5 := tokAt_live m (i + 5) c4.2.2
                simp only [e5]
                rw [← hA]
                have hchk := check_assignment_type_live
                  (strip_nullable ((Raw.tok m (i + 3)).token.take 127))
                  (Raw.tok m (i + 5)).token (Raw.tok m (i + 1)).token (Raw.tok m (i + 1)).line
                  _ hT hty (tok_fix m (i + 5)) hfix
                exact ⟨hchk.1, hchk.2, (check_assignment_type_count _ _ _ _ _).trans hC⟩
              · rw [if_neg c4, if_neg c4]
                exact ⟨hA, hT, hC⟩
            · rw [if_neg (fun h => g4 h.1), if_neg (fun h => g4 h.1)]
              exact ⟨hA, hT, hC⟩
          · rw [if_neg c3, if_neg c3]
            by_cases c5 : (i + 2 < m.tok_count ∧ (Raw.tok m (i + 2)).token = "=".toList)
            · rw [if_pos c5, if_pos c5]
              exact ⟨add_decl_live _ _ _ m ht hfix (by decide), add_decl_terminated _ _ _ m ht,
                add_decl_count _ _ _ m⟩
            · rw [if_neg c5, if_neg c5]
              exact ⟨rfl, ht, rfl⟩
        · rw [if_neg (fun h => g2 h.1), if_neg (fun h => g2 h.1), if_neg (fun h => g2 h.1),
            if_neg (fun h => g2 h.1)]
          exact ⟨rfl, ht, rfl⟩
      · rw [if_neg c2, if_neg c2]
        exact ⟨rfl, ht, rfl⟩
    · rw [if_neg (fun h => g1 h.1), if_neg (fun h => g1 h.1)]
      exact ⟨rfl, ht, rfl⟩
  · rw [if_neg c1, if_neg c1]
    exact ⟨rfl, ht, rfl⟩

theorem kotlin_fold_live (l : List Nat) :
    ∀ (m : Raw.Mem), Raw.terminated m → (∀ i ∈ l, i < m.tok_count) →
      Raw.live (l.foldl Raw.kotlin_step m) = l.foldl kotlin_step (Raw.live m) ∧
        Raw.terminated (l.foldl Raw.kotlin_step m) ∧
        (l.foldl Raw.kotlin_step m).tok_count = m.tok_count := by
  induction l with
  | nil => intro m ht _; exact ⟨rfl, ht, rfl⟩
  | cons i l ih =>
    intro m ht hl
    obtain ⟨h1, h2, h3⟩ := kotlin_step_live m i ht (hl i (by simp))
    rw [List.foldl_cons, List.foldl_cons, ← h1]
    obtain ⟨k1, k2, k3⟩ := ih (Raw.kotlin_step m i) h2
      (fun j hj => by rw [h3]; exact hl j (by simp [hj]))
    exact ⟨k1, k2, k3.trans h3⟩

theorem pass2_e2_live (m : Raw.Mem) (i : Nat) (ht : Raw.terminated m) (hi : i < m.tok_count) :
    Raw.live (Raw.pass2_e2 i m) = pass2_e2 i (Raw.live m) ∧
      Raw.terminated (Raw.pass2_e2 i m) ∧ (Raw.pass2_e2 i m).tok_count = m.tok_count := by
  have e0 := tokAt_live m i hi
  have e1 := tokAt_live m (i - 1) (by omega)
  have hmsg : cstr (msg_misspelled (Raw.tok m i).token) = msg_misspelled (Raw.tok m i).token :=
    cstr_fix_message _ _ _ (by decide) (by decide) (tok_fix m i)
  unfold Raw.pass2_e2 pass2_e2
  simp only [e0, e1, ← isDeclared_live]
  by_cases c1 : (Raw.tok m i).attr = 2
  · rw [if_pos c1, if_pos c1]
    by_cases hdec : Raw.isDeclared m (Raw.tok m i).token = true
    · have hc : ¬ ((!Raw.isDeclared m (Raw.tok m i).token &&
          similarToKeyword (Raw.tok m i).token) = true) := by simp [hdec]
      rw [if_pos hdec, if_neg hc]
      exact ⟨rfl, ht, rfl⟩
    · have hd : Raw.isDeclared m (Raw.tok m i).token = false := by simpa using hdec
      rw [if_neg hdec]
      have hs := similarToKeyword_raw m.dp (Raw.tok m i).token
      generalize Raw.similarToKeyword m.dp (Raw.tok m i).token = r at hs ⊢
      obtain ⟨similar, dp1⟩ := r
      simp only at hs ⊢
      have ht1 : Raw.terminated { m with dp := dp1 } := ht
      by_cases hsim : similar = true
      · have hc : (!Raw.isDeclared m (Raw.tok m i).token &&
            similarToKeyword (Raw.tok m i).token) = true := by
          rw [hd, ← hs, hsim]; rfl
        rw [if_pos hsim, if_pos hc]
        by_cases hprev : i > 0 ∧ (Raw.tok m (i - 1)).attr = 1
        · rw [if_neg (not_not.mpr hprev), if_neg (not_not.mpr hprev)]
          exact ⟨rfl, ht1, rfl⟩
        · rw [if_pos hprev, if_pos hprev]
          exact ⟨report_error_live _ _ _ ht1 hmsg, report_error_terminated _ _ _ ht1,
            report_error_count _ _ _⟩
      · have hc : ¬ ((!Raw.isDeclared m (Raw.tok m i).token &&
            similarToKeyword (Raw.tok m i).token) = true) := by
          rw [← hs]
          simp [hsim]
        rw [if_neg hsim, if_neg hc]
        exact ⟨rfl, ht1, rfl⟩
  · rw [if_neg c1, if_neg c1]
    exact ⟨rfl, ht, rfl⟩

theorem pass2_e3_live (m : Raw.Mem) (i : Nat) (ht : Raw.terminated m) (hi : i < m.tok_count) :
    Raw.live (Raw.pass2_e3 i m) = pass2_e3 i (Raw.live m) ∧
      Raw.terminated (Raw.pass2_e3 i m) ∧ (Raw.pass2_e3 i m).tok_count = m.tok_count := by
  have e0 := tokAt_live m i hi
  have e1 := tokAt_live m (i - 1) (by omega)
  have hmsg : cstr (msg_undeclared (Raw.tok m i).token) = msg_undeclared (Raw.tok m i).token :=
    cstr_fix_message _ _ _ (by decide) (by decide) (tok_fix m i)
  unfold Raw.pass2_e3 pass2_e3
  simp only [e0, e1, ← isDeclared_live]
  split_ifs
  · exact ⟨report_error_live _ _ _ ht hmsg, report_error_terminated _ _ _ ht,
      report_error_count _ _ _⟩
  · exact ⟨rfl, ht, rfl⟩
  · exact ⟨rfl, ht, rfl⟩

theorem pass2_e1_live (m : Raw.Mem) (i : Nat) (ht : Raw.terminated m) (hi : i < m.tok_count) :
    Raw.live (Raw.pass2_e1 i m) = pass2_e1 i (Raw.live m) ∧
      Raw.terminated (Raw.pass2_e1 i m) ∧ (Raw.pass2_e1 i m).tok_count = m.tok_count := by
  have e0 := tokAt_live m i hi
  have hmsg : cstr (msg_undeclared (Raw.tok m i).token) = msg_undeclared (Raw.tok m i).token :=
    cstr_fix_message _ _ _ (by decide) (by decide) (tok_fix m i)
  unfold Raw.pass2_e1 pass2_e1
  simp only [e0, (live_lengths m).1, ← isDeclared_live, ← getType_live]
  by_cases g : i + 2 < m.tok_count
  · have e1 := tokAt_live m (i + 1) (by omega)
    have e2 := tokAt_live m (i + 2) g
    simp only [e1, e2]
    split_ifs
    · exact ⟨report_error_live _ _ _ ht hmsg, report_error_terminated _ _ _ ht,
        report_error_count _ _ _⟩
    · have hchk := check_assignment_type_live (Raw.getType m (Raw.tok m i).token)
        (Raw.tok m (i + 2)).token (Raw.tok m i).token (Raw.tok m i).line m ht
        (getType_fix _ _) (tok_fix _ _) (tok_fix _ _)
      exact ⟨hchk.1, hchk.2, check_assignment_type_count _ _ _ _ _⟩
    · exact ⟨rfl, ht, rfl⟩
  · rw [if_neg (fun h => g h.1), if_neg (fun h => g h.1)]
    exact ⟨rfl, ht, rfl⟩

theorem pass2_e4_live (m : Raw.Mem) (i : Nat) (ht : Raw.terminated m) (hi : i < m.tok_count) :
    Raw.live (Raw.pass2_e4 i m) = pass2_e4 i (Raw.live m) ∧
      Raw.terminated (Raw.pass2_e4 i m) ∧ (Raw.pass2_e4 i m).tok_count = m.tok_count := by
  have e0 := tokAt_live m i hi
  have e1 := tokAt_live m (i - 1) (by omega)
  have hm1 : cstr (msg_position (Raw.tok m i).token) = msg_position (Raw.tok m i).token :=
    cstr_fix_message _ _ _ (by decide) (by decide) (tok_fix m i)
  have hm2 : cstr (msg_operands (Raw.tok m i).token) = msg_operands (Raw.tok m i).token :=
    cstr_fix_message _ _ _ (by decide) (by decide) (tok_fix m i)
  unfold Raw.pass2_e4 pass2_e4
  simp only [e0, e1, (live_lengths m).1]
  by_cases c1 : isRelOp (Raw.tok m i).token = true
  · rw [if_pos c1, if_pos c1]
    by_cases c2 : i = 0 ∨ i = m.tok_count - 1
    · rw [if_pos c2, if_pos c2]
      exact ⟨report_error_live _ _ _ ht hm1, report_error_terminated _ _ _ ht,
        report_error_count _ _ _⟩
    · rw [if_neg c2, if_neg c2]
      have e2 := tokAt_live m (i + 1) (by omega)
      simp only [e2]
      split_ifs
      · exact ⟨report_error_live _ _ _ ht hm2, report_error_terminated _ _ _ ht,
          report_error_count _ _ _⟩
      · exact ⟨rfl, ht, rfl⟩
  · rw [if_neg c1, if_neg c1]
    exact ⟨rfl, ht, rfl⟩

theorem pass2_step_live (m : Raw.Mem) (i : Nat) (ht : Raw.terminated m)
    (hi : i < m.tok_count) :
    Raw.live (Raw.pass2_step m i) = pass2_step (Raw.live m) i ∧
      Raw.terminated (Raw.pass2_step m i) ∧ (Raw.pass2_step m i).tok_count = m.tok_count := by
  obtain ⟨a1, a2, a3⟩ := pass2_e2_live m i ht hi
  obtain ⟨b1, b2, b3⟩ := pass2_e3_live _ i a2 (by rw [a3]; exact hi)
  obtain ⟨c1, c2, c3⟩ := pass2_e1_live _ i b2 (by rw [b3, a3]; exact hi)
  obtain ⟨d1, d2, d3⟩ := pass2_e4_live _ i c2 (by rw [c3, b3, a3]; exact hi)
  unfold Raw.pass2_step pass2_step
  exact ⟨by rw [d1, c1, b1, a1], d2, by rw [d3, c3, b3, a3]⟩

theorem pass2_fold_live (l : List Nat) :
    ∀ (m : Raw.Mem), Raw.terminated m → (∀ i ∈ l, i < m.tok_count) →
      Raw.live (l.foldl Raw.pass2_step m) = l.foldl pass2_step (Raw.live m) ∧
        Raw.terminated (l.foldl Raw.pass2_step m) := by
  induction l with
  | nil => intro m ht _; exact ⟨rfl, ht⟩
  | cons i l ih =>
    intro m ht hl
    obtain ⟨h1, h2, h3⟩ := pass2_step_live m i ht (hl i (by simp))
    rw [List.foldl_cons, List.foldl_cons, ← h1]
    exact ih (Raw.pass2_step m i) h2 (fun j hj => by rw [h3]; exact hl j (by simp [hj]))

theorem analysis_run_live (prior : Raw.Mem) (input : List Char) (ht : Raw.terminated prior) :
    (Raw.analysis_run prior input).map Raw.live = analysis_run (Raw.live prior) input ∧
      ∀ m, Raw.analysis_run prior input = .ok m → Raw.terminated m := by
  have hreset : Raw.live (Raw.reset prior) = (Raw.live prior).reset := rfl
  obtain ⟨hmap, hterm⟩ := scan_loop_sim (input.length + 1) input 1 (Raw.reset prior) ht
  unfold Raw.analysis_run analysis_run Raw.tokenize_and_build tokenize_and_build
  rw [← hreset, ← hmap]
  cases hs : Raw.scan_loop (input.length + 1) input 1 (Raw.reset prior) with
  | error e => exact ⟨rfl, fun m h => by cases h⟩
  | ok m1 =>
    have ht1 := hterm m1 hs
    obtain ⟨k1, k2, k3⟩ := kotlin_fold_live (List.range m1.tok_count) m1 ht1
      (fun i hi => List.mem_range.mp hi)
    obtain ⟨p1, p2⟩ := pass2_fold_live
      (List.range ((List.range m1.tok_count).foldl Raw.kotlin_step m1).tok_count) _ k2
      (fun i hi => List.mem_range.mp hi)
    simp only [Except.map, Raw.detect_errors_pass2, detect_errors_pass2]
    refine ⟨?_, ?_⟩
    · rw [(live_lengths m1).1, ← k1, (live_lengths _).1, p1]
    · intro m h
      simp only [Except.ok.injEq] at h
      rw [← h]
      exact p2

/-! ### Independence of earlier runs: claim C20 -/

theorem zero_mem_terminated : Raw.terminated Raw.zero_mem :=
  fun _ =>
    ⟨(by decide : cstr ((List.replicate 256 NUL).drop 255) = []),
     (by decide : cstr ((List.replicate 128 NUL).drop 127) = []),
     (by decide : cstr ((List.replicate 512 NUL).drop 511) = [])⟩

theorem stale_mem_terminated : Raw.terminated Raw.stale_mem :=
  fun _ =>
    ⟨(by decide : cstr (('x' :: List.replicate 255 NUL).drop 255) = []),
     (by decide : cstr (("String".toList ++ List.replicate 122 NUL).drop 127) = []),
     (by decide :
       cstr (("E1-TypeMismatch: stale".toList ++ List.replicate 490 NUL).drop 511) = [])⟩

/-- C20.  The four collections an analysis run produces depend on the input
text only.  The storage is taken as the C program keeps it: the arrays with
the rows, the bytes and the `dp` table an earlier run left, and the counters,
of which a run resets only the counters.  The terminators `strncpy` relies on
hold at program start and after every run; for every such storage `prior` and
every input, the run from `prior` gives the same tokens, declarations,
diagnostics and comments as the run from the zero-initialized storage, and a
second run on the same input, started from the storage the first one left,
gives those collections again (nothing accumulates). -/
theorem C20_run_independent_of_prior (prior : Raw.Mem) (input : List Char)
    (hprior : Raw.terminated prior) :
    Raw.terminated Raw.zero_mem ∧
    (Raw.analysis_run prior input).map Raw.live =
      (Raw.analysis_run Raw.zero_mem input).map Raw.live ∧
    (∀ m, Raw.analysis_run prior input = .ok m →
      Raw.terminated m ∧ (Raw.analysis_run m input).map Raw.live = .ok (Raw.live m)) := by
  have h1 := analysis_run_live prior input hprior
  have h0 := analysis_run_live Raw.zero_mem input zero_mem_terminated
  refine ⟨zero_mem_terminated, ?_, ?_⟩
  · rw [h1.1, h0.1]
    exact analysis_run_prior _ _ input
  · intro m hm
    have htm := h1.2 m hm
    refine ⟨htm, ?_⟩
    rw [(analysis_run_live m input htm).1, analysis_run_prior _ (Raw.live prior) input, ← h1.1,
      hm]
    rfl

/-- Witness of C20: from the stale storage `stale_mem`, whose rows hold an old
keyword `int` and an old declaration of `x` as `String`, the run on
`int x = "hi";` gives the collections of a fresh run: `x` is declared as
`int` and the one diagnostic is the TypeMismatch for `int`. -/
theorem C20_run_independent_of_prior_witness :
    Raw.terminated Raw.stale_mem ∧
    (Raw.analysis_run Raw.stale_mem "int x = \"hi\";".toList).map Raw.live =
      (Raw.analysis_run Raw.zero_mem "int x = \"hi\";".toList).map Raw.live ∧
    (Raw.analysis_run Raw.stale_mem "int x = \"hi\";".toList).map Raw.live =
      .ok ⟨[⟨"int".toList, 1, 1⟩, ⟨"x".toList, 2, 1⟩, ⟨"=".toList, 4, 1⟩,
            ⟨"\"hi\"".toList, 6, 1⟩, ⟨";".toList, 5, 1⟩],
           [⟨"x".toList, "int".toList, 1⟩],
           [⟨"E1-TypeMismatch: int 'x' cannot take '\"hi\"'".toList, 1⟩], []⟩ := by
  refine ⟨stale_mem_terminated,
    (C20_run_independent_of_prior Raw.stale_mem _ stale_mem_terminated).2.1, ?_⟩
  rw [(analysis_run_live Raw.stale_mem _ stale_mem_terminated).1]
  simp only [analysis_run, tokenize_and_build, State.reset]
  decide!

end Lex
